import Mathlib

/-!
A Redis-like server over a progressively resized hash table:
shallow embedding of `hashtable.h`, `hashtable.cpp` and `servers.cpp`.

Conventions of the embedding

* A bucket chain (`HNode *` linked through `next`) is a `List` of nodes, head first.
  A bucket array `HNode **tab` is `Option (List chain)`, `none` being `NULL`.
* A parent pointer `HNode **from` is a pair `(bucket index, index in the chain)`.
* Every function that can dereference `NULL`, index outside an array, or fail an
  `assert` returns `Option`; `none` stands for that undefined behaviour / abort.
* The `size_t` node counters are `Nat`: a counter counts live heap nodes, so it stays
  far below `2 ^ 64`, and `size--` is only executed on a table that holds the node being
  unlinked.  32-bit arithmetic (`str_hash`, wire lengths) is written with an explicit
  `% 2 ^ 32`, and the `size_t` sums of `parse_req` with `% 2 ^ 64` (an LP64 target).
* The loop of `hm_help_resizing` and the mutually recursive `try_one_request`,
  `state_req`, `state_res` take a `fuel` argument that bounds the number of iterations
  or the nesting of calls; they return `none` when it runs out.  The theorems about
  them exhibit the fuel that suffices.
* The `send` system call is a parameter: a function from the state of the environment
  and the bytes offered to the result reported and the new state of the environment.
  The `recv` system call is a parameter of the same kind, with the room offered in the
  place of the bytes.
* Bytes are `Fin 256`; multi-byte integers are read little-endian (the host order of
  the `memcpy` in the source on x86).
-/

namespace RedisKV

/-! ## hashtable.h -/

/-- Embedding of `struct HNode`: the hash code of the node, together with the rest of the structure
the node is embedded in (what `container_of` recovers).  The `next` link is the tail of
the chain the node sits in. -/
structure HNode (α : Type) where
  hcode : Nat
  payload : α
deriving DecidableEq

/-- Embedding of `struct HTab`. -/
structure HTab (α : Type) where
  tab : Option (List (List (HNode α))) := none
  mask : Nat := 0
  size : Nat := 0
deriving DecidableEq

/-- Embedding of `struct HMap`: `ht1` is the newer table, `ht2` the older one. -/
structure HMap (α : Type) where
  ht1 : HTab α := {}
  ht2 : HTab α := {}
  resizing_pos : Nat := 0
deriving DecidableEq

/-- A parent pointer `HNode **from`: bucket index and position in that bucket's chain. -/
abbrev Slot := Nat × Nat

/-- A node pointer `HNode *` into an `HMap`: which table it lives in, and where. -/
structure NodePtr where
  inHt2 : Bool
  slot : Slot
deriving DecidableEq

/-! ## hashtable.cpp -/

section hashtable
variable {α : Type}

/-- Embedding of `h_init`: asserts that `n` is a power of two, allocates `n` empty buckets. -/
def h_init (n : Nat) : Option (HTab α) :=
  if 0 < n ∧ (n - 1) &&& n = 0 then
    some { tab := some (List.replicate n []), mask := n - 1, size := 0 }
  else none

/-- Embedding of `h_insert`: push the node on the head of bucket `hcode & mask`. -/
def h_insert (htab : HTab α) (node : HNode α) : Option (HTab α) :=
  match htab.tab with
  | none => none
  | some tab =>
    let pos := node.hcode &&& htab.mask
    match tab[pos]? with
    | none => none
    | some next => some { htab with tab := some (tab.set pos (node :: next)), size := htab.size + 1 }

/-- Embedding of `h_lookup`: the slot of the first node of bucket `key.hcode & mask` with the same
hash code that `eq` accepts.  The outer `Option` is undefined behaviour (bucket index
out of the array), the inner one is the returned pointer (`none` = `NULL`). -/
def h_lookup (htab : HTab α) (key : HNode α) (eq : HNode α → HNode α → Bool) :
    Option (Option Slot) :=
  match htab.tab with
  | none => some none
  | some tab =>
    let pos := key.hcode &&& htab.mask
    match tab[pos]? with
    | none => none
    | some chain =>
      match chain.findIdx? (fun cur => cur.hcode == key.hcode && eq cur key) with
      | none => some none
      | some i => some (some (pos, i))

/-- Embedding of `h_detach`: unlink the node at the slot and return it. -/
def h_detach (htab : HTab α) (slot : Slot) : Option (HNode α × HTab α) :=
  match htab.tab with
  | none => none
  | some tab =>
    match tab[slot.1]? with
    | none => none
    | some chain =>
      match chain[slot.2]? with
      | none => none
      | some node =>
        some (node, { htab with tab := some (tab.set slot.1 (chain.eraseIdx slot.2)),
                                size := htab.size - 1 })

def k_resizing_work : Nat := 128

/-- The `while` loop of `hm_help_resizing`; `fuel` bounds the number of iterations. -/
def hm_help_resizing_loop : Nat → Nat → HMap α → Option (HMap α)
  | 0, _, _ => none
  | fuel + 1, nwork, hmap =>
    if nwork < k_resizing_work ∧ hmap.ht2.size > 0 then
      match hmap.ht2.tab with
      | none => none
      | some tab2 =>
        match tab2[hmap.resizing_pos]? with
        | none => none
        | some [] =>
          hm_help_resizing_loop fuel nwork { hmap with resizing_pos := hmap.resizing_pos + 1 }
        | some (_ :: _) =>
          match h_detach hmap.ht2 (hmap.resizing_pos, 0) with
          | none => none
          | some (node, ht2) =>
            match h_insert hmap.ht1 node with
            | none => none
            | some ht1 =>
              hm_help_resizing_loop fuel (nwork + 1) { hmap with ht1 := ht1, ht2 := ht2 }
    else some hmap

/-- Number of buckets of a table (0 for an uninitialised one). -/
def HTab.nbuckets (htab : HTab α) : Nat :=
  match htab.tab with
  | none => 0
  | some tab => tab.length

/-- Embedding of `hm_help_resizing`.  Every iteration of the loop either moves a node (at most
`k_resizing_work` times) or advances the cursor over an in-bounds bucket, so
`k_resizing_work + nbuckets + 1` iterations are always enough. -/
def hm_help_resizing (hmap : HMap α) : Option (HMap α) :=
  match hm_help_resizing_loop (k_resizing_work + hmap.ht2.nbuckets + 1) 0 hmap with
  | none => none
  | some hmap =>
    if hmap.ht2.size = 0 ∧ hmap.ht2.tab.isSome then
      some { hmap with ht2 := {} }
    else some hmap

/-- Embedding of `hm_start_resizing`. -/
def hm_start_resizing (hmap : HMap α) : Option (HMap α) :=
  if hmap.ht2.tab.isSome then none
  else
    match h_init ((hmap.ht1.mask + 1) * 2) with
    | none => none
    | some ht1 => some { ht1 := ht1, ht2 := hmap.ht1, resizing_pos := 0 }

/-- Embedding of `hm_lookup`: returns the map after the resizing help and the node found. -/
def hm_lookup (hmap : HMap α) (key : HNode α) (eq : HNode α → HNode α → Bool) :
    Option (HMap α × Option NodePtr) :=
  match hm_help_resizing hmap with
  | none => none
  | some hmap =>
    match h_lookup hmap.ht1 key eq with
    | none => none
    | some (some slot) => some (hmap, some ⟨false, slot⟩)
    | some none =>
      match h_lookup hmap.ht2 key eq with
      | none => none
      | some (some slot) => some (hmap, some ⟨true, slot⟩)
      | some none => some (hmap, none)

def k_max_load_factor : Nat := 8

/-- Embedding of `hm_insert`. -/
def hm_insert (hmap : HMap α) (node : HNode α) : Option (HMap α) :=
  match (if hmap.ht1.tab.isNone then
           (h_init 4).map (fun ht1 => { hmap with ht1 := ht1 })
         else some hmap) with
  | none => none
  | some hmap =>
    match h_insert hmap.ht1 node with
    | none => none
    | some ht1 =>
      let hmap := { hmap with ht1 := ht1 }
      match (if hmap.ht2.tab.isNone then
               let load_factor := hmap.ht1.size / (hmap.ht1.mask + 1)
               if load_factor ≥ k_max_load_factor then hm_start_resizing hmap else some hmap
             else some hmap) with
      | none => none
      | some hmap => hm_help_resizing hmap

/-- Embedding of `hm_pop`: returns the map afterwards and the node removed (`none` = `NULL`). -/
def hm_pop (hmap : HMap α) (key : HNode α) (eq : HNode α → HNode α → Bool) :
    Option (HMap α × Option (HNode α)) :=
  match hm_help_resizing hmap with
  | none => none
  | some hmap =>
    match h_lookup hmap.ht1 key eq with
    | none => none
    | some (some slot) =>
      (h_detach hmap.ht1 slot).map (fun r => ({ hmap with ht1 := r.2 }, some r.1))
    | some none =>
      match h_lookup hmap.ht2 key eq with
      | none => none
      | some (some slot) =>
        (h_detach hmap.ht2 slot).map (fun r => ({ hmap with ht2 := r.2 }, some r.1))
      | some none => some (hmap, none)

/-- Embedding of `hm_size`. -/
def hm_size (hmap : HMap α) : Nat := hmap.ht1.size + hmap.ht2.size

/-- The node a `NodePtr` points at. -/
def HMap.deref (hmap : HMap α) (p : NodePtr) : Option (HNode α) :=
  match (if p.inHt2 then hmap.ht2 else hmap.ht1).tab with
  | none => none
  | some tab =>
    match tab[p.slot.1]? with
    | none => none
    | some chain => chain[p.slot.2]?

/-- Store through a node pointer: `*p = f (*p)`. -/
def HMap.modify (hmap : HMap α) (p : NodePtr) (f : HNode α → HNode α) : Option (HMap α) :=
  let htab := if p.inHt2 then hmap.ht2 else hmap.ht1
  match htab.tab with
  | none => none
  | some tab =>
    match tab[p.slot.1]? with
    | none => none
    | some chain =>
      match chain[p.slot.2]? with
      | none => none
      | some node =>
        let htab := { htab with tab := some (tab.set p.slot.1 (chain.set p.slot.2 (f node))) }
        some (if p.inHt2 then { hmap with ht2 := htab } else { hmap with ht1 := htab })

end hashtable

/-! ## servers.cpp : the key space -/

abbrev Byte := Fin 256

/-- A `std::string` / byte buffer. -/
abbrev Bytes := List Byte

def k_max_msg : Nat := 4096

def RES_OK : Nat := 0
def RES_ERR : Nat := 1
def RES_NX : Nat := 2

/-- The fields of `struct Entry` next to its embedded `node`. -/
structure Entry where
  key : Bytes
  val : Bytes
deriving DecidableEq

/-- Embedding of `KeyValueStore::str_hash`, in `uint32_t` arithmetic. -/
def str_hash (data : Bytes) : Nat :=
  data.foldl (fun h b => ((h + b.val) % 2 ^ 32 * 0x01000193) % 2 ^ 32) 0x811C9DC5

/-- Embedding of `KeyValueStore::entry_eq`. -/
def entry_eq (lhs rhs : HNode Entry) : Bool :=
  lhs.payload.key == rhs.payload.key

/-- Embedding of `class KeyValueStore`. -/
structure KeyValueStore where
  db : HMap Entry := {}
deriving DecidableEq

/-- Embedding of `KeyValueStore::get`.  `res` is the output buffer the caller passes and `reslen` the
current content of `*reslen`; the result is the store, the status code, and the buffer
and `*reslen` afterwards.  `none` when `cmd[1]` does not exist, when the `assert` fails
or when the `memcpy` would leave the buffer. -/
def KeyValueStore.get (self : KeyValueStore) (cmd : List Bytes) (res : Bytes) (reslen : Nat) :
    Option (KeyValueStore × Nat × Bytes × Nat) :=
  match cmd[1]? with
  | none => none
  | some k =>
    let key : HNode Entry := { hcode := str_hash k, payload := { key := k, val := [] } }
    match hm_lookup self.db key entry_eq with
    | none => none
    | some (db, none) => some ({ db := db }, RES_NX, res, reslen)
    | some (db, some p) =>
      match db.deref p with
      | none => none
      | some node =>
        let val := node.payload.val
        if val.length ≤ k_max_msg ∧ val.length ≤ res.length then
          some ({ db := db }, RES_OK, val ++ res.drop val.length, val.length % 2 ^ 32)
        else none

/-- Embedding of `KeyValueStore::set`. -/
def KeyValueStore.set (self : KeyValueStore) (cmd : List Bytes) : Option (KeyValueStore × Nat) :=
  match cmd[1]?, cmd[2]? with
  | some k, some v =>
    let key : HNode Entry := { hcode := str_hash k, payload := { key := k, val := [] } }
    match hm_lookup self.db key entry_eq with
    | none => none
    | some (db, some p) =>
      (db.modify p (fun node => { node with payload := { node.payload with val := v } })).map
        (fun db => ({ db := db }, RES_OK))
    | some (db, none) =>
      let ent : HNode Entry := { hcode := key.hcode, payload := { key := key.payload.key, val := v } }
      (hm_insert db ent).map (fun db => ({ db := db }, RES_OK))
  | _, _ => none

/-- Embedding of `KeyValueStore::del`. -/
def KeyValueStore.del (self : KeyValueStore) (cmd : List Bytes) : Option (KeyValueStore × Nat) :=
  match cmd[1]? with
  | none => none
  | some k =>
    let key : HNode Entry := { hcode := str_hash k, payload := { key := k, val := [] } }
    match hm_pop self.db key entry_eq with
    | none => none
    | some (db, _) => some ({ db := db }, RES_OK)

/-! ## servers.cpp : the wire protocol -/

def k_max_args : Nat := 1024

/-- The `memcpy (&n, &data[pos], 4)` of a `uint32_t`, little-endian.  The source only
performs it when four bytes are available; the value for a shorter rest is arbitrary. -/
def read_u32 (data : Bytes) (pos : Nat) : Nat :=
  match data.drop pos with
  | b0 :: b1 :: b2 :: b3 :: _ => b0.val + 256 * b1.val + 65536 * b2.val + 16777216 * b3.val
  | _ => 0

/-- The `while (n--)` loop of `parse_req`, with `size_t` sums modulo `2 ^ 64`.  The first
component is `none` when the loop left through a `return -1`, and the final `pos`
otherwise; the second is the vector `out`. -/
def parse_req_loop (data : Bytes) (len : Nat) : Nat → Nat → List Bytes → Option Nat × List Bytes
  | 0, pos, out => (some pos, out)
  | n + 1, pos, out =>
    if (pos + 4) % 2 ^ 64 > len then (none, out)
    else
      let sz := read_u32 data pos
      if (pos + 4 + sz) % 2 ^ 64 > len then (none, out)
      else
        parse_req_loop data len n ((pos + 4 + sz) % 2 ^ 64)
          (out ++ [(data.drop (pos + 4)).take sz])

/-- Embedding of `parse_req (data, len, out)`: the return code and the vector `out` afterwards. -/
def parse_req (data : Bytes) (len : Nat) (out : List Bytes) : Int × List Bytes :=
  if len < 4 then (-1, out)
  else
    let n := read_u32 data 0
    if n > k_max_args then (-1, out)
    else
      match parse_req_loop data len n 4 out with
      | (none, out) => (-1, out)
      | (some pos, out) => if pos ≠ len then (-1, out) else (0, out)

/-- From the specification: the four bytes of a `u32` field on the wire, in the byte
order `read_u32` reads (the sources contain the decoder only). -/
def enc_u32 (n : Nat) : Bytes :=
  [⟨n % 256, Nat.mod_lt _ (by decide)⟩, ⟨n / 256 % 256, Nat.mod_lt _ (by decide)⟩,
   ⟨n / 65536 % 256, Nat.mod_lt _ (by decide)⟩, ⟨n / 16777216 % 256, Nat.mod_lt _ (by decide)⟩]

/-- From the specification: the entries `arglen:u32 | arg_bytes` of a command vector. -/
def encode_args : List Bytes → Bytes
  | [] => []
  | a :: args => enc_u32 a.length ++ a ++ encode_args args

/-- From the specification: the request payload `argc:u32` followed by `argc` entries
of `arglen:u32 | arg_bytes`. -/
def encode_req (args : List Bytes) : Bytes :=
  enc_u32 args.length ++ encode_args args

/-- From the specification, the payload defects after the `argc` field: with `n`
arguments still to read at offset `pos`, fewer than 4 bytes remain for an `arglen`
field, or an `arglen` extends past the end, or bytes remain after the last argument. -/
def args_malformed (data : Bytes) : Nat → Nat → Prop
  | 0, pos => pos < data.length
  | n + 1, pos =>
    data.length < pos + 4 ∨ data.length < pos + 4 + read_u32 data pos ∨
      args_malformed data n (pos + 4 + read_u32 data pos)

/-- From the specification: a malformed request payload. -/
def malformed (data : Bytes) : Prop :=
  data.length < 4 ∨ k_max_args < read_u32 data 0 ∨ args_malformed data (read_u32 data 0) 4

instance args_malformed_decidable (data : Bytes) : ∀ n pos, Decidable (args_malformed data n pos)
  | 0, pos => inferInstanceAs (Decidable (pos < data.length))
  | n + 1, pos =>
    have := args_malformed_decidable data n (pos + 4 + read_u32 data pos)
    inferInstanceAs (Decidable (data.length < pos + 4 ∨ data.length < pos + 4 + read_u32 data pos ∨
      args_malformed data n (pos + 4 + read_u32 data pos)))

instance malformed_decidable (data : Bytes) : Decidable (malformed data) :=
  inferInstanceAs (Decidable (data.length < 4 ∨ k_max_args < read_u32 data 0 ∨
    args_malformed data (read_u32 data 0) 4))

/-! ## servers.cpp : command dispatch -/

/-- Embedding of `tolower` in the "C" locale. -/
def tolower (c : Byte) : Byte :=
  if 65 ≤ c.val ∧ c.val ≤ 90 then c + 32 else c

/-- Embedding of `strcasecmp` on two NUL-terminated byte arrays: compare the lower-cased bytes up to
and including the first NUL. -/
def strcasecmp : Bytes → Bytes → Int
  | c1 :: s1, c2 :: s2 =>
    if tolower c1 ≠ tolower c2 then ((tolower c1).val : Int) - ((tolower c2).val : Int)
    else if c1 = 0 then 0
    else strcasecmp s1 s2
  | _, _ => 0

/-- Embedding of `cmd_is (word, cmd)`: `0 == strcasecmp (word.c_str (), cmd)`.  `c_str ()` is the
content of the string followed by a NUL byte; `cmd` is a string literal. -/
def cmd_is (word cmd : Bytes) : Bool :=
  0 == strcasecmp (word ++ [0]) (cmd ++ [0])

/-- The string literal `"get"`. -/
def str_get : Bytes := [103, 101, 116]
/-- The string literal `"set"`. -/
def str_set : Bytes := [115, 101, 116]
/-- The string literal `"del"`. -/
def str_del : Bytes := [100, 101, 108]
/-- The string literal `"Unknown cmd"`. -/
def str_unknown_cmd : Bytes := [85, 110, 107, 110, 111, 119, 110, 32, 99, 109, 100]

/-- Embedding of `do_request (req, reqlen, rescode, res, reslen)` on the global store `g_data`:
the return code, the store, `*rescode`, the buffer `res` and `*reslen` afterwards.
`none` when a callee aborts or a write leaves the buffer `res`. -/
def do_request (g_data : KeyValueStore) (req : Bytes) (reqlen : Nat) (rescode : Nat) (res : Bytes)
    (reslen : Nat) : Option (Int × KeyValueStore × Nat × Bytes × Nat) :=
  let cmd := (parse_req req reqlen []).2
  if (parse_req req reqlen []).1 ≠ 0 then
    some (-1, g_data, rescode, res, reslen)
  else if cmd.length = 2 ∧ cmd_is (cmd.getD 0 []) str_get then
    (g_data.get cmd res reslen).map (fun r => (0, r.1, r.2.1, r.2.2.1, r.2.2.2))
  else if cmd.length = 3 ∧ cmd_is (cmd.getD 0 []) str_set then
    (g_data.set cmd).map (fun r => (0, r.1, r.2, res, reslen))
  else if cmd.length = 2 ∧ cmd_is (cmd.getD 0 []) str_del then
    (g_data.del cmd).map (fun r => (0, r.1, r.2, res, reslen))
  else
    -- `strcpy` copies the eleven characters and the terminating NUL
    if str_unknown_cmd.length + 1 ≤ res.length then
      some (0, g_data, RES_ERR, str_unknown_cmd ++ [0] ++ res.drop (str_unknown_cmd.length + 1),
        str_unknown_cmd.length)
    else none

/-! ## servers.cpp : the connection state machine -/

def STATE_REQ : Nat := 0
def STATE_RES : Nat := 1
def STATE_END : Nat := 2

/-- Embedding of `struct Conn`.  `rbuf` and `wbuf` are the two arrays of `4 + k_max_msg` bytes. -/
structure Conn where
  fd : Int := -1
  state : Nat := 0
  rbuf_size : Nat := 0
  rbuf : Bytes
  wbuf_size : Nat := 0
  wbuf_sent : Nat := 0
  wbuf : Bytes
deriving DecidableEq

/-- What a call of `send` reports: `rv >= 0` bytes taken, `EAGAIN`, or another error. -/
inductive SendRes where
  | ok (rv : Nat)
  | again
  | error
deriving DecidableEq

/-- The part of `try_one_request` between the length checks and the call of
`state_res`: run the request and frame the response in `wbuf`.  The result is `none` on
undefined behaviour, `some (false, _)` when `do_request` failed and the connection is
marked `STATE_END`, and `some (true, _)` with the framed response otherwise. -/
def try_one_request_respond (conn : Conn) (g_data : KeyValueStore) (len : Nat) :
    Option (Bool × Conn × KeyValueStore) :=
  match do_request g_data (conn.rbuf.drop 4) len 0 (conn.wbuf.drop (4 + 4)) 0 with
  | none => none
  | some (err, g_data, rescode, res, wlen) =>
    -- `do_request` wrote through the pointer `&conn->wbuf[4 + 4]`
    let conn := { conn with wbuf := conn.wbuf.take (4 + 4) ++ res }
    if err ≠ 0 then
      some (false, { conn with state := STATE_END }, g_data)
    else
      let wlen := (wlen + 4) % 2 ^ 32
      if 4 + 4 ≤ conn.wbuf.length then
        let conn := { conn with wbuf := enc_u32 wlen ++ conn.wbuf.drop 4 }
        let conn := { conn with wbuf := conn.wbuf.take 4 ++ enc_u32 rescode ++ conn.wbuf.drop 8 }
        let conn := { conn with wbuf_size := (4 + wlen) % 2 ^ 32 }
        let remaining := conn.rbuf_size - 4 - len
        -- `memmove (conn->rbuf, &conn->rbuf[4 + len], remaining)`
        let rbuf :=
          if remaining ≠ 0 then
            (conn.rbuf.drop (4 + len)).take remaining ++ conn.rbuf.drop remaining
          else conn.rbuf
        some (true, { conn with rbuf := rbuf, rbuf_size := remaining, state := STATE_RES }, g_data)
      else none

mutual

/-- Embedding of `try_one_request`: the returned flag, the connection, the store and the
environment of `send` afterwards.  `fuel` bounds the nesting of calls. -/
def try_one_request {σ : Type} (send : σ → Bytes → SendRes × σ) :
    Nat → Conn → KeyValueStore → σ → Option (Bool × Conn × KeyValueStore × σ)
  | 0, _, _, _ => none
  | fuel + 1, conn, g_data, env =>
    if conn.rbuf_size < 4 then some (false, conn, g_data, env)
    else
      let len := read_u32 conn.rbuf 0
      if len > k_max_msg then some (false, { conn with state := STATE_END }, g_data, env)
      else if (4 + len) % 2 ^ 32 > conn.rbuf_size then some (false, conn, g_data, env)
      else
        match try_one_request_respond conn g_data len with
        | none => none
        | some (false, conn, g_data) => some (false, conn, g_data, env)
        | some (true, conn, g_data) =>
          match state_res send fuel conn g_data env with
          | none => none
          | some (conn, g_data, env) => some (conn.state == STATE_REQ, conn, g_data, env)

/-- Embedding of `state_req`: `while (try_one_request (conn)) {}`. -/
def state_req {σ : Type} (send : σ → Bytes → SendRes × σ) :
    Nat → Conn → KeyValueStore → σ → Option (Conn × KeyValueStore × σ)
  | 0, _, _, _ => none
  | fuel + 1, conn, g_data, env =>
    match try_one_request send fuel conn g_data env with
    | none => none
    | some (true, conn, g_data, env) => state_req send fuel conn g_data env
    | some (false, conn, g_data, env) => some (conn, g_data, env)

/-- Embedding of `state_res`. -/
def state_res {σ : Type} (send : σ → Bytes → SendRes × σ) :
    Nat → Conn → KeyValueStore → σ → Option (Conn × KeyValueStore × σ)
  | 0, _, _, _ => none
  | fuel + 1, conn, g_data, env =>
    if conn.wbuf_sent < conn.wbuf_size then
      match send env ((conn.wbuf.drop conn.wbuf_sent).take (conn.wbuf_size - conn.wbuf_sent)) with
      | (SendRes.again, env) => some (conn, g_data, env)
      | (SendRes.error, env) => some ({ conn with state := STATE_END }, g_data, env)
      | (SendRes.ok rv, env) =>
        state_res send fuel { conn with wbuf_sent := conn.wbuf_sent + rv } g_data env
    else if conn.wbuf_sent = conn.wbuf_size then
      state_req send fuel { conn with state := STATE_REQ, wbuf_sent := 0, wbuf_size := 0 }
        g_data env
    else some (conn, g_data, env)

end

/-- What a call of `recv` reports: the bytes it stored in the buffer (`rv` is their
number, and `rv = 0` is the end of the stream), `EINTR`, `EAGAIN`, or another error. -/
inductive RecvRes where
  | ok (data : Bytes)
  | intr
  | again
  | error
deriving DecidableEq

/-- The loop `do { rv = recv (...); } while (rv < 0 && errno == EINTR)` of `connection_io`, on
a buffer with room for `cap` bytes; `fuel` bounds the number of calls of `recv`. -/
def recv_retry {σ : Type} (recv : σ → Nat → RecvRes × σ) : Nat → σ → Nat → Option (RecvRes × σ)
  | 0, _, _ => none
  | fuel + 1, env, cap =>
    match recv env cap with
    | (RecvRes.intr, env) => recv_retry recv fuel env cap
    | (r, env) => some (r, env)

/-- Embedding of `connection_io`.  The `recv` system call is a parameter, like `send`: a function
from the state of the environment and the room offered to the result reported and the
new state of the environment.  `none` when an `assert` fails, when `recv` stores more
bytes than the room offered, or when `fuel` runs out. -/
def connection_io {σ : Type} (recv : σ → Nat → RecvRes × σ) (send : σ → Bytes → SendRes × σ)
    (fuel : Nat) (conn : Conn) (g_data : KeyValueStore) (env : σ) :
    Option (Conn × KeyValueStore × σ) :=
  if conn.state = STATE_REQ then
    if conn.rbuf_size < 4 + k_max_msg then
      match recv_retry recv fuel env (4 + k_max_msg - conn.rbuf_size) with
      | none => none
      | some (RecvRes.intr, _) => none
      | some (RecvRes.again, env) => some (conn, g_data, env)
      | some (RecvRes.error, env) => some ({ conn with state := STATE_END }, g_data, env)
      | some (RecvRes.ok data, env) =>
        if data.length = 0 then some ({ conn with state := STATE_END }, g_data, env)
        else if data.length ≤ 4 + k_max_msg - conn.rbuf_size then
          state_req send fuel
            { conn with rbuf := conn.rbuf.take conn.rbuf_size ++ data ++
                                  conn.rbuf.drop (conn.rbuf_size + data.length),
                        rbuf_size := conn.rbuf_size + data.length }
            g_data env
        else none
    else none
  else if conn.state = STATE_RES then state_res send fuel conn g_data env
  else none

/-- The C string a `std::string` shows through `c_str ()`: its bytes before the first
NUL. -/
def c_str (word : Bytes) : Bytes := word.takeWhile (fun c => c ≠ 0)

/-- The word, read as a C string, equals the lower-case literal `verb` up to the case of
ASCII letters. -/
def verb_is (word verb : Bytes) : Prop := (c_str word).map tolower = verb

instance verb_is_decidable (word verb : Bytes) : Decidable (verb_is word verb) :=
  inferInstanceAs (Decidable ((c_str word).map tolower = verb))

/-- From the specification: the reply to a decoded command vector on the finite map `m`
(status code, payload, and the map afterwards). -/
def reply (m : Bytes → Option Bytes) (cmd : List Bytes) :
    Nat × Bytes × (Bytes → Option Bytes) :=
  match cmd with
  | [w, k] =>
    if verb_is w str_get then
      match m k with
      | some v => (RES_OK, v, m)
      | none => (RES_NX, [], m)
    else if verb_is w str_del then (RES_OK, [], Function.update m k none)
    else (RES_ERR, str_unknown_cmd, m)
  | [w, k, v] =>
    if verb_is w str_set then (RES_OK, [], Function.update m k (some v))
    else (RES_ERR, str_unknown_cmd, m)
  | _ => (RES_ERR, str_unknown_cmd, m)

/-- From the specification: the response frame `total_len:u32 | status_code:u32 |
payload`, where `total_len` counts the status code and the payload. -/
def response_frame (status : Nat) (payload : Bytes) : Bytes :=
  enc_u32 (4 + payload.length) ++ enc_u32 status ++ payload

/-- From the specification: the request frame `total_len:u32 | payload` of a command
vector. -/
def request_frame (cmd : List Bytes) : Bytes :=
  enc_u32 (encode_req cmd).length ++ encode_req cmd

/-! ## Invariants of the hash table -/

section
variable {α : Type}

/-- All nodes of a table, bucket after bucket. -/
def HTab.nodes (t : HTab α) : List (HNode α) := (t.tab.getD []).flatten

/-- All nodes of a map: those of `ht1`, then those of `ht2`. -/
def HMap.nodes (m : HMap α) : List (HNode α) := m.ht1.nodes ++ m.ht2.nodes

/-- Well-formedness of one table. -/
structure TabInv (t : HTab α) : Prop where
  len : ∀ tab, t.tab = some tab → tab.length = t.mask + 1
  pow : ∀ tab, t.tab = some tab → ∃ k, t.mask + 1 = 2 ^ k
  size : t.size = t.nodes.length
  bucket : ∀ tab, t.tab = some tab → ∀ i chain, tab[i]? = some chain →
    ∀ n ∈ chain, n.hcode &&& t.mask = i

/-- Well-formedness of the pair of tables and the migration cursor. -/
structure MapInv (m : HMap α) : Prop where
  t1 : TabInv m.ht1
  t2 : TabInv m.ht2
  init1 : m.ht2.tab.isSome → m.ht1.tab.isSome
  drained : ∀ tab, m.ht2.tab = some tab → ∀ i chain, i < m.resizing_pos →
    tab[i]? = some chain → chain = []


end

/-! ## Sequences of key-space calls and their specification -/

/-- One call on the key space. -/
inductive Cmd where
  | get (k : Bytes)
  | set (k v : Bytes)
  | del (k : Bytes)
deriving DecidableEq

/-- Run one call on the store (`verb` is the ignored `cmd[0]`, `res` the reply buffer
handed to `get`); the status code and the reply are dropped. -/
def KeyValueStore.call (verb res : Bytes) (s : KeyValueStore) : Cmd → Option KeyValueStore
  | .get k => (s.get [verb, k] res 0).map (fun r => r.1)
  | .set k v => (s.set [verb, k, v]).map (fun r => r.1)
  | .del k => (s.del [verb, k]).map (fun r => r.1)

/-- Run a sequence of calls, oldest first. -/
def KeyValueStore.exec (verb res : Bytes) : KeyValueStore → List Cmd → Option KeyValueStore
  | s, [] => some s
  | s, c :: cs =>
    match s.call verb res c with
    | none => none
    | some s => KeyValueStore.exec verb res s cs

/-- From the specification: the value of the most recent `set k _` that no `del k`
follows.  The history is given most recent call first. -/
def last_write (k : Bytes) : List Cmd → Option Bytes
  | [] => none
  | .set k' v :: older => if k' = k then some v else last_write k older
  | .del k' :: older => if k' = k then none else last_write k older
  | .get _ :: older => last_write k older

/-- The keys some `set` of the history names. -/
def set_keys : List Cmd → List Bytes
  | [] => []
  | .set k _ :: cs => k :: set_keys cs
  | _ :: cs => set_keys cs

/-- From the specification: the keys currently present after a history (oldest call
first), i.e. set and not subsequently deleted. -/
def present_keys (ops : List Cmd) : Finset Bytes :=
  (set_keys ops).toFinset.filter (fun k => (last_write k ops.reverse).isSome)

/-- One call on the abstract finite map. -/
def abs_step (m : Bytes → Option Bytes) : Cmd → Bytes → Option Bytes
  | .get _ => m
  | .set k v => Function.update m k (some v)
  | .del k => Function.update m k none

/-- The list of nodes represents the finite map `m`. -/
structure Rep (l : List (HNode Entry)) (m : Bytes → Option Bytes) : Prop where
  nodup : (l.map (fun n => n.payload.key)).Nodup
  hash : ∀ n ∈ l, n.hcode = str_hash n.payload.key
  maps : ∀ k v, m k = some v ↔ ∃ n ∈ l, n.payload.key = k ∧ n.payload.val = v

/-- The store is well formed and represents the finite map `m`. -/
structure StoreInv (s : KeyValueStore) (m : Bytes → Option Bytes) : Prop where
  inv : MapInv s.db
  rep : Rep s.db.nodes m

/-- A map state reachable from the empty map through the public interface. -/
inductive Reachable {α : Type} : HMap α → Prop where
  | empty : Reachable {}
  | insert {m m' : HMap α} (node : HNode α) :
      Reachable m → hm_insert m node = some m' → Reachable m'
  | lookup {m m' : HMap α} (key : HNode α) (eq : HNode α → HNode α → Bool)
      (r : Option NodePtr) :
      Reachable m → hm_lookup m key eq = some (m', r) → Reachable m'
  | pop {m m' : HMap α} (key : HNode α) (eq : HNode α → HNode α → Bool)
      (r : Option (HNode α)) :
      Reachable m → hm_pop m key eq = some (m', r) → Reachable m'

/-- The function `hm_pop` called `j` times in a row with the same key; the results are listed first
call first. -/
def hm_pop_n {α : Type} (key : HNode α) (eq : HNode α → HNode α → Bool) :
    Nat → HMap α → Option (HMap α × List (Option (HNode α)))
  | 0, m => some (m, [])
  | j + 1, m =>
    match hm_pop m key eq with
    | none => none
    | some (m1, r) => (hm_pop_n key eq j m1).map (fun p => (p.1, r :: p.2))

/-- Every value of the finite map fits a response: with the 4 bytes of the status code
it stays within `k_max_msg`. -/
def ValsFit (m : Bytes → Option Bytes) : Prop :=
  ∀ k v, m k = some v → v.length + 4 ≤ k_max_msg

/-- The unread input of a connection: the first `rbuf_size` bytes of `rbuf`. -/
def Conn.pending (conn : Conn) : Bytes := conn.rbuf.take conn.rbuf_size

/-- The response staged in the write buffer: the first `wbuf_size` bytes of `wbuf`. -/
def Conn.staged (conn : Conn) : Bytes := conn.wbuf.take conn.wbuf_size

/-- The two buffers of a connection have their declared size `4 + k_max_msg`, and
`rbuf_size` is within `rbuf`. -/
structure Conn.WF (conn : Conn) : Prop where
  rbuf_len : conn.rbuf.length = 4 + k_max_msg
  wbuf_len : conn.wbuf.length = 4 + k_max_msg
  rbuf_size_le : conn.rbuf_size ≤ 4 + k_max_msg

instance Conn.WF_decidable (conn : Conn) : Decidable conn.WF :=
  decidable_of_iff (conn.rbuf.length = 4 + k_max_msg ∧ conn.wbuf.length = 4 + k_max_msg ∧
      conn.rbuf_size ≤ 4 + k_max_msg)
    ⟨fun h => ⟨h.1, h.2.1, h.2.2⟩, fun h => ⟨h.1, h.2, h.3⟩⟩

/-- The model of `send` of claim C9: the environment is the output trace, every byte
offered is accepted and appended to it. -/
def send_all (trace : Bytes) (buf : Bytes) : SendRes × Bytes :=
  (SendRes.ok buf.length, trace ++ buf)

/-- Bytes that do not yet form a complete request frame, and do not announce an oversized
one: fewer than 4 bytes, or a length field of at most `k_max_msg` with fewer than that
many bytes after it. -/
def incomplete (tail : Bytes) : Prop :=
  tail.length < 4 ∨ (read_u32 tail 0 ≤ k_max_msg ∧ tail.length < 4 + read_u32 tail 0)

instance incomplete_decidable (tail : Bytes) : Decidable (incomplete tail) :=
  inferInstanceAs (Decidable (tail.length < 4 ∨
    (read_u32 tail 0 ≤ k_max_msg ∧ tail.length < 4 + read_u32 tail 0)))

/-- From the specification: the response frames to a sequence of requests, the `i`-th
evaluated on the map left by the requests before it. -/
def response_frames (m : Bytes → Option Bytes) : List (List Bytes) → List Bytes
  | [] => []
  | cmd :: cmds =>
    response_frame (reply m cmd).1 (reply m cmd).2.1 :: response_frames (reply m cmd).2.2 cmds

/-- From the specification: the map left by a sequence of requests. -/
def reply_all (m : Bytes → Option Bytes) : List (List Bytes) → Bytes → Option Bytes
  | [] => m
  | cmd :: cmds => reply_all (reply m cmd).2.2 cmds

/-! ## The load of the tables between two public operations -/

/-- What holds of a map between two calls of the public interface, on top of `MapInv`:
an absent `ht2` is the default table, a finished table is below the maximum load, and
while a resize is in flight the nodes still to move pay for the inserts made meanwhile. -/
structure LoadInv {α : Type} (m : HMap α) : Prop where
  inv : MapInv m
  ht2_none : m.ht2.tab = none → m.ht2 = {}
  load_idle : m.ht2.tab = none → m.ht1.size < k_max_load_factor * (m.ht1.mask + 1)
  load_busy : m.ht2.tab.isSome →
    k_resizing_work * (m.ht1.size + m.ht2.size) + m.ht2.size ≤
      k_max_load_factor / 2 * (k_resizing_work + 1) * (m.ht1.mask + 1)

/-- The function `hm_insert` called on each node of a list in turn. -/
def hm_insert_all {α : Type} (m : HMap α) : List (HNode α) → Option (HMap α)
  | [] => some m
  | node :: rest =>
    match hm_insert m node with
    | none => none
    | some m1 => hm_insert_all m1 rest

/-- The map obtained from the empty one by `n` calls of `hm_insert`, each with a node of
hash code `hcode` (the empty map if one of the calls aborted). -/
def map_after_inserts (n hcode : Nat) : HMap Unit :=
  (hm_insert_all {} (List.replicate n ⟨hcode, ()⟩)).getD {}

/-- The store obtained from the empty one by `set k v` (the empty store if the call
aborted). -/
def store_with (k v : Bytes) : KeyValueStore :=
  ((KeyValueStore.set {} [[], k, v]).map Prod.fst).getD {}

/-! ## Reachable connections and stores -/

/-- A connection as `accept_new_conn` creates it: state `STATE_REQ`, both buffers of
`4 + k_max_msg` bytes, nothing read and nothing staged. -/
structure Conn.Fresh (conn : Conn) : Prop where
  state : conn.state = STATE_REQ
  rbuf_size : conn.rbuf_size = 0
  wbuf_size : conn.wbuf_size = 0
  wbuf_sent : conn.wbuf_sent = 0
  rbuf_len : conn.rbuf.length = 4 + k_max_msg
  wbuf_len : conn.wbuf.length = 4 + k_max_msg

/-- A connection state reachable from a freshly accepted connection by calls of
`connection_io` that return, whatever the store and the environment at each call. -/
inductive ConnReach {σ : Type} (recv : σ → Nat → RecvRes × σ) (send : σ → Bytes → SendRes × σ) :
    Conn → Prop where
  | fresh (conn : Conn) : conn.Fresh → ConnReach recv send conn
  | step (fuel : Nat) (conn conn' : Conn) (g g' : KeyValueStore) (env env' : σ) :
      ConnReach recv send conn →
      connection_io recv send fuel conn g env = some (conn', g', env') →
      ConnReach recv send conn'

/-- The contract of `send`: it takes at most the bytes offered. -/
def SendBounded {σ : Type} (send : σ → Bytes → SendRes × σ) : Prop :=
  ∀ env buf rv env', send env buf = (SendRes.ok rv, env') → rv ≤ buf.length

/-- The model of `recv` used to exhibit runs: whatever the environment, the same `input`
arrives, as much of it as there is room for. -/
def recv_const {σ : Type} (input : Bytes) (env : σ) (cap : Nat) : RecvRes × σ :=
  (RecvRes.ok (input.take cap), env)

/-- The model of `send` that takes nothing: every call reports `EAGAIN`. -/
def send_again {σ : Type} (env : σ) (_ : Bytes) : SendRes × σ := (SendRes.again, env)

/-- A store reachable from the empty one by calls of `try_one_request` that return, on
connections with buffers of the declared size, whatever `send` does. -/
inductive StoreReach : KeyValueStore → Prop where
  | empty : StoreReach {}
  | request {σ : Type} (send : σ → Bytes → SendRes × σ) (fuel : Nat) (conn conn' : Conn)
      (g g' : KeyValueStore) (env env' : σ) (b : Bool) :
      StoreReach g → conn.WF →
      try_one_request send fuel conn g env = some (b, conn', g', env') → StoreReach g'

/-- The store is well formed and every value it holds fits a response. -/
def StoreFits (g : KeyValueStore) : Prop := ∃ m, StoreInv g m ∧ ValsFit m

/-- What holds of a connection when `connection_io` returns. -/
structure Conn.Settled (bounded : Prop) (conn : Conn) : Prop where
  wf : conn.WF
  wbuf_size_le : conn.wbuf_size ≤ 4 + k_max_msg
  sent_le : bounded → conn.wbuf_sent ≤ conn.wbuf_size
  idle : conn.state = STATE_REQ →
    (conn.rbuf_size < 4 ∨
      (read_u32 conn.rbuf 0 ≤ k_max_msg ∧ conn.rbuf_size < 4 + read_u32 conn.rbuf 0)) ∧
    conn.wbuf_size = 0 ∧ conn.wbuf_sent = 0

/-- A freshly accepted connection (`accept_new_conn`) whose read buffer received
`input`: state `STATE_REQ`, nothing staged, zeroed buffers. -/
def conn_with_input (input : Bytes) : Conn :=
  { fd := 5, state := STATE_REQ, rbuf_size := input.length,
    rbuf := input ++ List.replicate (4 + k_max_msg - input.length) 0,
    wbuf_size := 0, wbuf_sent := 0, wbuf := List.replicate (4 + k_max_msg) 0 }

/-! ## Hash table: the operations preserve the invariants -/

section
variable {α : Type}

theorem perm_flatten_set_cons {β : Type} (L : List (List β)) (i : Nat) (c c' : List β) (x : β)
    (h : L[i]? = some c) (hc : c'.Perm (x :: c)) :
    (L.set i c').flatten.Perm (x :: L.flatten) := by
  induction L generalizing i with
  | nil => simp at h
  | cons a L ih =>
    cases i with
    | zero =>
      simp at h
      subst h
      simp only [List.set_cons_zero, List.flatten_cons]
      exact (hc.append_right _)
    | succ i =>
      simp at h
      simp only [List.set_cons_succ, List.flatten_cons]
      exact ((ih i h).append_left a).trans List.perm_middle

theorem perm_flatten_of_set {β : Type} (L : List (List β)) (i : Nat) (c c' : List β) (x : β)
    (h : L[i]? = some c) (hc : c.Perm (x :: c')) :
    L.flatten.Perm (x :: (L.set i c').flatten) := by
  induction L generalizing i with
  | nil => simp at h
  | cons a L ih =>
    cases i with
    | zero =>
      simp at h
      subst h
      simp only [List.set_cons_zero, List.flatten_cons]
      exact (hc.append_right _)
    | succ i =>
      simp at h
      simp only [List.set_cons_succ, List.flatten_cons]
      exact ((ih i h).append_left a).trans List.perm_middle

theorem perm_cons_eraseIdx {β : Type} (ch : List β) (j : Nat) (x : β) (h : ch[j]? = some x) :
    ch.Perm (x :: ch.eraseIdx j) := by
  induction ch generalizing j with
  | nil => simp at h
  | cons a ch ih =>
    cases j with
    | zero => simp at h; subst h; simp
    | succ j =>
      simp at h
      simp only [List.eraseIdx_cons_succ]
      exact ((ih j h).cons a).trans (List.Perm.swap x a _)

theorem pow2_and_pred (k : Nat) : (2 ^ (k + 1) - 1) &&& 2 ^ (k + 1) = 0 := by
  apply Nat.eq_of_testBit_eq
  intro i
  simp only [Nat.testBit_and, Nat.testBit_two_pow_sub_one, Nat.testBit_two_pow, Nat.zero_testBit]
  by_cases h : k + 1 = i
  · subst h; simp
  · simp [h]

theorem h_init_pow2 (k : Nat) :
    (h_init (2 ^ k) : Option (HTab α)) =
      some { tab := some (List.replicate (2 ^ k) []), mask := 2 ^ k - 1, size := 0 } := by
  unfold h_init
  have hpos : 0 < 2 ^ k := Nat.pow_pos (by decide)
  have : (2 ^ k - 1) &&& 2 ^ k = 0 := by
    cases k with
    | zero => simp
    | succ k => exact pow2_and_pred k
  simp [hpos, this]

theorem flatten_replicate_nil {β : Type} (n : Nat) :
    (List.replicate n ([] : List β)).flatten = [] := by
  induction n with
  | zero => rfl
  | succ n ih => simp [List.replicate_succ, ih]

theorem TabInv_init (k : Nat) :
    TabInv ({ tab := some (List.replicate (2 ^ k) []), mask := 2 ^ k - 1, size := 0 } : HTab α) := by
  have hpos : 0 < 2 ^ k := Nat.pow_pos (by decide)
  refine ⟨?_, ?_, ?_, ?_⟩
  · intro tab h; simp at h; subst h; simp; omega
  · intro tab _; exact ⟨k, by simp; omega⟩
  · simp [HTab.nodes, flatten_replicate_nil]
  · intro tab h i chain hc n hn
    simp at h; subst h
    rw [List.getElem?_replicate] at hc
    split at hc
    · simp at hc; subst hc; simp at hn
    · simp at hc

theorem TabInv_empty : TabInv ({} : HTab α) := by
  refine ⟨?_, ?_, ?_, ?_⟩ <;> simp [HTab.nodes]


theorem HTab.nodes_none (t : HTab α) (h : t.tab = none) : t.nodes = [] := by
  simp [HTab.nodes, h]

theorem HTab.nodes_some (t : HTab α) (tab : List (List (HNode α))) (h : t.tab = some tab) :
    t.nodes = tab.flatten := by
  simp [HTab.nodes, h]

theorem mem_flatten_of_getElem? {β : Type} (L : List (List β)) (i : Nat) (c : List β) (x : β)
    (h : L[i]? = some c) (hx : x ∈ c) : x ∈ L.flatten :=
  List.mem_flatten.2 ⟨c, List.mem_iff_getElem?.2 ⟨i, h⟩, hx⟩

theorem TabInv.set_bucket {t : HTab α} (ht : TabInv t) (tab : List (List (HNode α)))
    (htab : t.tab = some tab) (i : Nat) (c c' : List (HNode α)) (_hi : tab[i]? = some c)
    (hsub : ∀ n ∈ c', n.hcode &&& t.mask = i) (sz : Nat)
    (hsz : sz = ((tab.set i c').flatten).length) :
    TabInv ({ t with tab := some (tab.set i c'), size := sz } : HTab α) := by
  refine ⟨?_, ?_, ?_, ?_⟩
  · intro tab' h; simp at h; subst h; simpa using ht.len tab htab
  · intro tab' _; exact ht.pow tab htab
  · simpa [HTab.nodes] using hsz
  · intro tab' h j chain hj n hn
    simp at h; subst h
    rw [List.getElem?_set] at hj
    split at hj
    · split at hj
      · simp at hj; subst hj
        rename_i hij _
        subst hij
        exact hsub n hn
      · simp at hj
    · exact ht.bucket tab htab j chain hj n hn

theorem h_insert_spec {t : HTab α} (ht : TabInv t) (tab : List (List (HNode α)))
    (htab : t.tab = some tab) (node : HNode α) :
    ∃ t', h_insert t node = some t' ∧ TabInv t' ∧ t'.nodes.Perm (node :: t.nodes) ∧
      t'.mask = t.mask ∧ t'.size = t.size + 1 ∧
      ∃ c, tab[node.hcode &&& t.mask]? = some c ∧
        t'.tab = some (tab.set (node.hcode &&& t.mask) (node :: c)) := by
  have hlen := ht.len tab htab
  have hpos : node.hcode &&& t.mask < tab.length := by
    have := @Nat.and_le_right node.hcode t.mask
    omega
  obtain ⟨c, hc⟩ : ∃ c, tab[node.hcode &&& t.mask]? = some c :=
    ⟨tab[node.hcode &&& t.mask], List.getElem?_eq_getElem hpos⟩
  have hperm := perm_flatten_set_cons tab _ c (node :: c) node hc (List.Perm.refl _)
  refine ⟨{ t with tab := some (tab.set (node.hcode &&& t.mask) (node :: c)), size := t.size + 1 },
    ?_, ?_, ?_, rfl, rfl, c, hc, rfl⟩
  · simp [h_insert, htab, hc]
  · apply ht.set_bucket tab htab _ c _ hc
    · intro n hn
      rcases List.mem_cons.1 hn with h | h
      · subst h; rfl
      · exact ht.bucket tab htab _ c hc n h
    · rw [hperm.length_eq, List.length_cons, ht.size, HTab.nodes_some t tab htab]
  · simpa [HTab.nodes, htab] using hperm

theorem h_detach_spec {t : HTab α} (ht : TabInv t) (tab : List (List (HNode α)))
    (htab : t.tab = some tab) (slot : Slot) (chain : List (HNode α)) (node : HNode α)
    (hc : tab[slot.1]? = some chain) (hn : chain[slot.2]? = some node) :
    ∃ t', h_detach t slot = some (node, t') ∧ TabInv t' ∧ t.nodes.Perm (node :: t'.nodes) ∧
      t'.mask = t.mask ∧ t'.size + 1 = t.size ∧
      t'.tab = some (tab.set slot.1 (chain.eraseIdx slot.2)) := by
  have hperm := perm_flatten_of_set tab _ chain (chain.eraseIdx slot.2) node hc
    (perm_cons_eraseIdx chain slot.2 node hn)
  have hsz : t.size = ((tab.set slot.1 (chain.eraseIdx slot.2)).flatten).length + 1 := by
    rw [ht.size, HTab.nodes_some t tab htab, hperm.length_eq, List.length_cons]
  refine ⟨{ t with tab := some (tab.set slot.1 (chain.eraseIdx slot.2)), size := t.size - 1 },
    ?_, ?_, ?_, rfl, ?_, rfl⟩
  · simp [h_detach, htab, hc, hn]
  · apply ht.set_bucket tab htab _ chain _ hc
    · intro n hn'
      exact ht.bucket tab htab _ chain hc n (List.mem_of_mem_eraseIdx hn')
    · omega
  · simpa [HTab.nodes, htab] using hperm
  · simp only; omega

theorem h_lookup_spec {t : HTab α} (ht : TabInv t) (key : HNode α)
    (eq : HNode α → HNode α → Bool) :
    (h_lookup t key eq = some none ∧
        ∀ n ∈ t.nodes, ¬ (n.hcode = key.hcode ∧ eq n key = true)) ∨
    (∃ slot tab chain node, h_lookup t key eq = some (some slot) ∧ t.tab = some tab ∧
        tab[slot.1]? = some chain ∧ chain[slot.2]? = some node ∧
        node.hcode = key.hcode ∧ eq node key = true) := by
  cases htab : t.tab with
  | none =>
    left
    refine ⟨by simp [h_lookup, htab], ?_⟩
    simp [HTab.nodes_none t htab]
  | some tab =>
    have hlen := ht.len tab htab
    have hpos : key.hcode &&& t.mask < tab.length := by
      have := @Nat.and_le_right key.hcode t.mask
      omega
    obtain ⟨chain, hc⟩ : ∃ c, tab[key.hcode &&& t.mask]? = some c :=
      ⟨tab[key.hcode &&& t.mask], List.getElem?_eq_getElem hpos⟩
    cases hf : chain.findIdx? (fun cur => cur.hcode == key.hcode && eq cur key) with
    | none =>
      left
      refine ⟨by simp [h_lookup, htab, hc, hf], ?_⟩
      intro n hn hm
      rw [HTab.nodes_some t tab htab] at hn
      obtain ⟨c, hcmem, hnc⟩ := List.mem_flatten.1 hn
      obtain ⟨i, hi⟩ := List.mem_iff_getElem?.1 hcmem
      have hb := ht.bucket tab htab i c hi n hnc
      rw [hm.1] at hb
      rw [hb, hi] at hc
      simp at hc
      subst hc
      rw [List.findIdx?_eq_none_iff] at hf
      have := hf n hnc
      simp [hm.1, hm.2] at this
    | some i =>
      right
      have hf' := hf
      rw [List.findIdx?_eq_some_iff_findIdx_eq] at hf
      have hi := hf.1
      have hp := List.findIdx_getElem (w := hf.2 ▸ hi)
      simp only [hf.2] at hp
      refine ⟨(key.hcode &&& t.mask, i), tab, chain, chain[i], ?_, rfl, hc,
        List.getElem?_eq_getElem hi, ?_, ?_⟩
      · simp [h_lookup, htab, hc, hf']
      · simp at hp; exact hp.1
      · simp at hp; exact hp.2


theorem TabInv.tab_isSome_of_size_pos {t : HTab α} (ht : TabInv t) (h : 0 < t.size) :
    ∃ tab, t.tab = some tab := by
  cases htab : t.tab with
  | none =>
    have := ht.size
    rw [HTab.nodes_none t htab] at this
    simp at this
    omega
  | some tab => exact ⟨tab, rfl⟩

theorem MapInv.cursor_lt {m : HMap α} (hm : MapInv m) (tab2 : List (List (HNode α)))
    (h2 : m.ht2.tab = some tab2) (hs : 0 < m.ht2.size) : m.resizing_pos < tab2.length := by
  have hsz := hm.t2.size
  rw [HTab.nodes_some _ tab2 h2] at hsz
  have hne : tab2.flatten ≠ [] := by
    intro h
    rw [h] at hsz
    simp at hsz
    omega
  obtain ⟨n, hn⟩ := List.exists_mem_of_ne_nil _ hne
  obtain ⟨c, hcmem, hnc⟩ := List.mem_flatten.1 hn
  obtain ⟨i, hi⟩ := List.mem_iff_getElem?.1 hcmem
  by_contra hlt
  have hil : i < tab2.length := by
    rcases List.getElem?_eq_some.1 hi with ⟨h, _⟩
    exact h
  have := hm.drained tab2 h2 i c (by omega) hi
  subst this
  simp at hnc

theorem hm_help_resizing_loop_spec (fuel nwork : Nat) (m : HMap α) (hm : MapInv m)
    (hfuel : (k_resizing_work - nwork) + (m.ht2.nbuckets - m.resizing_pos) + 1 ≤ fuel) :
    ∃ m', hm_help_resizing_loop fuel nwork m = some m' ∧ MapInv m' ∧ m'.nodes.Perm m.nodes ∧
      m'.ht1.mask = m.ht1.mask ∧ m'.ht2.mask = m.ht2.mask ∧
      m'.ht1.tab.isSome = m.ht1.tab.isSome ∧ m'.ht2.tab.isSome = m.ht2.tab.isSome ∧
      m.resizing_pos ≤ m'.resizing_pos := by
  induction fuel generalizing nwork m with
  | zero => omega
  | succ fuel ih =>
    by_cases hcond : nwork < k_resizing_work ∧ m.ht2.size > 0
    · obtain ⟨tab2, h2⟩ := hm.t2.tab_isSome_of_size_pos hcond.2
      have hlt := hm.cursor_lt tab2 h2 hcond.2
      have hnb : m.ht2.nbuckets = tab2.length := by simp [HTab.nbuckets, h2]
      obtain ⟨c, hc⟩ : ∃ c, tab2[m.resizing_pos]? = some c :=
        ⟨tab2[m.resizing_pos], List.getElem?_eq_getElem hlt⟩
      cases c with
      | nil =>
        have hstep : hm_help_resizing_loop (fuel + 1) nwork m =
            hm_help_resizing_loop fuel nwork { m with resizing_pos := m.resizing_pos + 1 } := by
          rw [hm_help_resizing_loop, if_pos hcond]
          simp only [h2, hc]
        have hm' : MapInv ({ m with resizing_pos := m.resizing_pos + 1 } : HMap α) := by
          refine ⟨hm.t1, hm.t2, hm.init1, ?_⟩
          intro tab h i chain hi hch
          simp only at h hi
          rw [h2] at h
          simp at h
          subst h
          by_cases hip : i = m.resizing_pos
          · subst hip
            rw [hc] at hch
            simpa using hch.symm
          · exact hm.drained tab2 h2 i chain (by omega) hch
        have hnb' : ({ m with resizing_pos := m.resizing_pos + 1 } : HMap α).ht2.nbuckets
            = tab2.length := hnb
        obtain ⟨m', h1, h2', h3, h4, h5, h6, h7, h8⟩ := ih nwork _ hm' (by
          rw [hnb']
          rw [hnb] at hfuel
          show _ + (tab2.length - (m.resizing_pos + 1)) + 1 ≤ fuel
          omega)
        rw [hstep]
        exact ⟨m', h1, h2', h3, h4, h5, h6, h7, by simp only at h8; omega⟩
      | cons n c' =>
        obtain ⟨ht2', hdet, hinv2, hperm2, hmask2, _, htab2'⟩ :=
          h_detach_spec hm.t2 tab2 h2 (m.resizing_pos, 0) (n :: c') n hc (by simp)
        obtain ⟨tab1, h1⟩ : ∃ tab1, m.ht1.tab = some tab1 := by
          have := hm.init1 (by simp [h2])
          exact Option.isSome_iff_exists.1 this
        obtain ⟨ht1', hins, hinv1, hperm1, hmask1, _, c1, _, htab1'⟩ :=
          h_insert_spec hm.t1 tab1 h1 n
        have hstep : hm_help_resizing_loop (fuel + 1) nwork m =
            hm_help_resizing_loop fuel (nwork + 1) { m with ht1 := ht1', ht2 := ht2' } := by
          rw [hm_help_resizing_loop, if_pos hcond]
          simp only [h2, hc, hdet, hins]
        have hm' : MapInv ({ m with ht1 := ht1', ht2 := ht2' } : HMap α) := by
          refine ⟨hinv1, hinv2, ?_, ?_⟩
          · intro _; simp [htab1']
          · intro tab h i chain hi hch
            simp only at h hi
            rw [htab2'] at h
            simp at h
            subst h
            rw [List.getElem?_set, if_neg (by omega)] at hch
            exact hm.drained tab2 h2 i chain hi hch
        have hnb' : ({ m with ht1 := ht1', ht2 := ht2' } : HMap α).ht2.nbuckets
            = tab2.length := by
          simp [HTab.nbuckets, htab2']
        obtain ⟨m', r1, r2, r3, r4, r5, r6, r7, r8⟩ := ih (nwork + 1) _ hm' (by
          rw [hnb']
          rw [hnb] at hfuel
          have := hcond.1
          show _ + (tab2.length - m.resizing_pos) + 1 ≤ fuel
          omega)
        rw [hstep]
        refine ⟨m', r1, r2, ?_, ?_, ?_, ?_, ?_, r8⟩
        · refine r3.trans ?_
          simp only [HMap.nodes]
          exact (hperm1.append_right _).trans
            ((List.perm_middle.symm).trans (hperm2.symm.append_left _))
        · rw [r4]; exact hmask1
        · rw [r5]; exact hmask2
        · rw [r6]; simp [h1, htab1']
        · rw [r7]; simp [h2, htab2']
    · rw [hm_help_resizing_loop, if_neg hcond]
      exact ⟨m, rfl, hm, List.Perm.refl _, rfl, rfl, rfl, rfl, le_refl _⟩



theorem hm_help_resizing_spec (m : HMap α) (hm : MapInv m) :
    ∃ m', hm_help_resizing m = some m' ∧ MapInv m' ∧ m'.nodes.Perm m.nodes ∧
      m'.ht1.mask = m.ht1.mask ∧ m'.ht1.tab.isSome = m.ht1.tab.isSome ∧
      (m'.ht2.tab.isSome → 0 < m'.ht2.size ∧ m.ht2.tab.isSome) := by
  obtain ⟨m1, h1, hinv, hperm, hmask1, _, htab1, htab2, _⟩ :=
    hm_help_resizing_loop_spec (k_resizing_work + m.ht2.nbuckets + 1) 0 m hm (by omega)
  unfold hm_help_resizing
  rw [h1]
  simp only
  by_cases hdone : m1.ht2.size = 0 ∧ m1.ht2.tab.isSome
  · rw [if_pos hdone]
    refine ⟨_, rfl, ⟨hinv.t1, TabInv_empty, ?_, ?_⟩, ?_, hmask1, htab1, ?_⟩
    · intro h; simp at h
    · intro tab h; simp at h
    · refine List.Perm.trans ?_ hperm
      have : m1.ht2.nodes = [] := by
        have := hinv.t2.size
        rw [hdone.1] at this
        exact List.length_eq_zero.1 this.symm
      show (m1.ht1.nodes ++ ([] : List (HNode α))).Perm (m1.ht1.nodes ++ m1.ht2.nodes)
      rw [this]
    · intro h; simp at h
  · rw [if_neg hdone]
    refine ⟨m1, rfl, hinv, hperm, hmask1, htab1, ?_⟩
    intro h
    refine ⟨?_, htab2 ▸ h⟩
    by_contra h0
    exact hdone ⟨by omega, h⟩

/-- A node pointer is valid: it designates a node of the map. -/
theorem deref_mem (m : HMap α) (p : NodePtr) (n : HNode α) (h : m.deref p = some n) :
    n ∈ m.nodes := by
  obtain ⟨b, slot⟩ := p
  unfold HMap.deref at h
  cases b
  · simp only [Bool.false_eq_true, if_false] at h
    cases ht : m.ht1.tab with
    | none => simp [ht] at h
    | some tab =>
      simp only [ht] at h
      cases hc : tab[slot.1]? with
      | none => simp [hc] at h
      | some chain =>
        simp only [hc] at h
        have := mem_flatten_of_getElem? tab _ chain n hc (List.mem_iff_getElem?.2 ⟨_, h⟩)
        simp [HMap.nodes, HTab.nodes, ht, this]
  · simp only [if_true] at h
    cases ht : m.ht2.tab with
    | none => simp [ht] at h
    | some tab =>
      simp only [ht] at h
      cases hc : tab[slot.1]? with
      | none => simp [hc] at h
      | some chain =>
        simp only [hc] at h
        have := mem_flatten_of_getElem? tab _ chain n hc (List.mem_iff_getElem?.2 ⟨_, h⟩)
        simp [HMap.nodes, HTab.nodes, ht, this]

theorem hm_lookup_spec (m : HMap α) (hm : MapInv m) (key : HNode α)
    (eq : HNode α → HNode α → Bool) :
    ∃ m' r, hm_lookup m key eq = some (m', r) ∧ hm_help_resizing m = some m' ∧
      MapInv m' ∧ m'.nodes.Perm m.nodes ∧
      (r = none → ∀ n ∈ m'.nodes, ¬ (n.hcode = key.hcode ∧ eq n key = true)) ∧
      (∀ p, r = some p → ∃ n, m'.deref p = some n ∧ n.hcode = key.hcode ∧ eq n key = true) := by
  obtain ⟨m1, h1, hinv, hperm, _, _, _⟩ := hm_help_resizing_spec m hm
  unfold hm_lookup
  rw [h1]
  simp only
  rcases h_lookup_spec hinv.t1 key eq with ⟨hl1, hno1⟩ | ⟨slot, tab, chain, node, hl1, ht, hc, hn, hh, he⟩
  · rcases h_lookup_spec hinv.t2 key eq with ⟨hl2, hno2⟩ | ⟨slot, tab, chain, node, hl2, ht, hc, hn, hh, he⟩
    · refine ⟨m1, none, by simp [hl1, hl2], rfl, hinv, hperm, ?_, by simp⟩
      intro _ n hn
      rcases List.mem_append.1 hn with h | h
      · exact hno1 n h
      · exact hno2 n h
    · refine ⟨m1, some ⟨true, slot⟩, by simp [hl1, hl2], rfl, hinv, hperm, by simp, ?_⟩
      intro p hp
      simp at hp
      subst hp
      exact ⟨node, by simp [HMap.deref, ht, hc, hn], hh, he⟩
  · refine ⟨m1, some ⟨false, slot⟩, by simp [hl1], rfl, hinv, hperm, by simp, ?_⟩
    intro p hp
    simp at hp
    subst hp
    exact ⟨node, by simp [HMap.deref, ht, hc, hn], hh, he⟩

theorem hm_pop_spec (m : HMap α) (hm : MapInv m) (key : HNode α)
    (eq : HNode α → HNode α → Bool) :
    ∃ m' r, hm_pop m key eq = some (m', r) ∧ MapInv m' ∧
      (r = none → hm_help_resizing m = some m' ∧ m'.nodes.Perm m.nodes ∧
        ∀ n ∈ m.nodes, ¬ (n.hcode = key.hcode ∧ eq n key = true)) ∧
      (∀ n, r = some n → m.nodes.Perm (n :: m'.nodes) ∧ n.hcode = key.hcode ∧
        eq n key = true) := by
  obtain ⟨m1, h1, hinv, hperm, _, _, _⟩ := hm_help_resizing_spec m hm
  unfold hm_pop
  rw [h1]
  simp only
  rcases h_lookup_spec hinv.t1 key eq with ⟨hl1, hno1⟩ | ⟨slot, tab, chain, node, hl1, ht, hc, hn, hh, he⟩
  · rcases h_lookup_spec hinv.t2 key eq with ⟨hl2, hno2⟩ | ⟨slot, tab, chain, node, hl2, ht, hc, hn, hh, he⟩
    · refine ⟨m1, none, by simp [hl1, hl2], hinv, ?_, by simp⟩
      intro _
      refine ⟨rfl, hperm, ?_⟩
      intro n hn
      rcases List.mem_append.1 (hperm.symm.subset hn) with h | h
      · exact hno1 n h
      · exact hno2 n h
    · obtain ⟨t', hdet, hinv', hp', _, _, htab'⟩ := h_detach_spec hinv.t2 tab ht slot chain node hc hn
      refine ⟨{ m1 with ht2 := t' }, some node, by simp [hl1, hl2, hdet],
        ⟨hinv.t1, hinv', ?_, ?_⟩, by simp, ?_⟩
      · intro _
        exact hinv.init1 (by simp [ht])
      · intro tab' h i chain' hi hch
        simp only at h hi
        rw [htab'] at h
        simp at h
        subst h
        rw [List.getElem?_set] at hch
        split at hch
        · split at hch
          · simp at hch
            rename_i hsi _
            have := hinv.drained tab ht i chain (by omega) (hsi ▸ hc)
            subst this
            simp at hn
          · simp at hch
        · exact hinv.drained tab ht i chain' hi hch
      · intro n hn'
        simp at hn'
        subst hn'
        refine ⟨hperm.symm.trans ?_, hh, he⟩
        simp only [HMap.nodes]
        exact (hp'.append_left _).trans List.perm_middle
  · obtain ⟨t', hdet, hinv', hp', _, _, htab'⟩ := h_detach_spec hinv.t1 tab ht slot chain node hc hn
    refine ⟨{ m1 with ht1 := t' }, some node, by simp [hl1, hdet],
      ⟨hinv', hinv.t2, ?_, hinv.drained⟩, by simp, ?_⟩
    · intro _; simp [htab']
    · intro n hn'
      simp at hn'
      subst hn'
      refine ⟨hperm.symm.trans ?_, hh, he⟩
      simp only [HMap.nodes]
      exact hp'.append_right _

theorem MapInv_empty : MapInv ({} : HMap α) :=
  ⟨TabInv_empty, TabInv_empty, by simp, by simp⟩

theorem hm_insert_spec (m : HMap α) (hm : MapInv m) (node : HNode α) :
    ∃ m', hm_insert m node = some m' ∧ MapInv m' ∧ m'.nodes.Perm (node :: m.nodes) := by
  -- step 1: initialise ht1 when needed
  obtain ⟨m0, h0, hinv0, hnodes0, ⟨tab0, htab0⟩, _⟩ :
      ∃ m0, (if m.ht1.tab.isNone then
               (h_init 4).map (fun ht1 => ({ m with ht1 := ht1 } : HMap α))
             else some m) = some m0 ∧ MapInv m0 ∧ m0.nodes = m.nodes ∧
             (∃ tab0, m0.ht1.tab = some tab0) ∧ m0.ht2 = m.ht2 := by
    obtain ht | ⟨tab, ht⟩ : m.ht1.tab = none ∨ ∃ tab, m.ht1.tab = some tab := by
      cases m.ht1.tab <;> simp
    · have h4 : (h_init 4 : Option (HTab α)) = _ := h_init_pow2 2
      refine ⟨{ m with ht1 := { tab := some (List.replicate (2 ^ 2) []), mask := 2 ^ 2 - 1,
                                size := 0 } }, ?_,
        ⟨TabInv_init 2, hm.t2, by simp, hm.drained⟩, ?_, ⟨_, rfl⟩, rfl⟩
      · rw [ht, h4]; rfl
      · simp [HMap.nodes, HTab.nodes, ht, flatten_replicate_nil]
    · exact ⟨m, by simp [ht], hm, rfl, ⟨tab, ht⟩, rfl⟩
  obtain ⟨ht1', hins, hinv1, hperm1, hmask1, hsize1, c1, _, htab1'⟩ :=
    h_insert_spec hinv0.t1 tab0 htab0 node
  have hinvA : MapInv ({ m0 with ht1 := ht1' } : HMap α) :=
    ⟨hinv1, hinv0.t2, by intro _; simp [htab1'], hinv0.drained⟩
  have hpermA : ({ m0 with ht1 := ht1' } : HMap α).nodes.Perm (node :: m.nodes) := by
    rw [← hnodes0]
    simp only [HMap.nodes]
    exact hperm1.append_right _
  -- step 2: possibly start a resize
  obtain ⟨mB, hB, hinvB, hpermB⟩ :
      ∃ mB, (if ({ m0 with ht1 := ht1' } : HMap α).ht2.tab.isNone then
               if ({ m0 with ht1 := ht1' } : HMap α).ht1.size /
                    (({ m0 with ht1 := ht1' } : HMap α).ht1.mask + 1) ≥ k_max_load_factor then
                 hm_start_resizing ({ m0 with ht1 := ht1' } : HMap α)
               else some ({ m0 with ht1 := ht1' } : HMap α)
             else some ({ m0 with ht1 := ht1' } : HMap α)) = some mB ∧
            MapInv mB ∧ mB.nodes.Perm (node :: m.nodes) := by
    by_cases h2 : ({ m0 with ht1 := ht1' } : HMap α).ht2.tab.isNone
    · rw [if_pos h2]
      split
      · obtain ⟨k, hk⟩ := hinv1.pow _ htab1'
        have hinit : (h_init ((ht1'.mask + 1) * 2) : Option (HTab α)) =
            some { tab := some (List.replicate (2 ^ (k + 1)) []), mask := 2 ^ (k + 1) - 1,
                   size := 0 } := by
          rw [hk, ← pow_succ]
          exact h_init_pow2 (k + 1)
        have h2' : m0.ht2.tab = none := by simpa using h2
        refine ⟨{ ht1 := { tab := some (List.replicate (2 ^ (k + 1)) []),
                           mask := 2 ^ (k + 1) - 1, size := 0 },
                  ht2 := ht1', resizing_pos := 0 }, ?_,
          ⟨TabInv_init (k + 1), hinv1, by simp, ?_⟩, ?_⟩
        · simp [hm_start_resizing, h2', hinit]
        · intro tab _ i chain hi _
          simp at hi
        · refine List.Perm.trans ?_ hpermA
          have e2 : m0.ht2.nodes = [] := HTab.nodes_none _ h2'
          have e1 : ({ tab := some (List.replicate (2 ^ (k + 1)) []),
                       mask := 2 ^ (k + 1) - 1, size := 0 } : HTab α).nodes = [] := by
            simp [HTab.nodes, flatten_replicate_nil]
          simp only [HMap.nodes, e1, e2, List.nil_append, List.append_nil]
          exact List.Perm.refl _
      · exact ⟨_, rfl, hinvA, hpermA⟩
    · rw [if_neg h2]
      exact ⟨_, rfl, hinvA, hpermA⟩
  obtain ⟨m', hfin, hinv', hperm', _⟩ := hm_help_resizing_spec mB hinvB
  refine ⟨m', ?_, hinv', hperm'.trans hpermB⟩
  unfold hm_insert
  rw [h0]
  simp only [hins]
  rw [hB]
  exact hfin

end

/-! ## The key space refines a finite map -/

theorem flatten_set_set {β : Type} (L : List (List β)) (i j : Nat) (ch : List β) (x y : β)
    (h : L[i]? = some ch) (hx : ch[j]? = some x) :
    ∃ l1 l2, L.flatten = l1 ++ x :: l2 ∧ (L.set i (ch.set j y)).flatten = l1 ++ y :: l2 := by
  induction L generalizing i with
  | nil => simp at h
  | cons a L ih =>
    cases i with
    | zero =>
      simp at h
      subst h
      have hj : j < a.length := (List.getElem?_eq_some.1 hx).1
      have hxj : a[j] = x := (List.getElem?_eq_some.1 hx).2
      refine ⟨a.take j, a.drop (j + 1) ++ L.flatten, ?_, ?_⟩
      · have ha : List.take j a ++ x :: List.drop (j + 1) a = a := by
          rw [← hxj, ← List.drop_eq_getElem_cons hj, List.take_append_drop]
        simp only [List.flatten_cons]
        rw [← List.cons_append, ← List.append_assoc, ha]
      · simp only [List.set_cons_zero, List.flatten_cons]
        rw [List.set_eq_take_append_cons_drop, if_pos hj]
        simp
    | succ i =>
      simp at h
      obtain ⟨l1, l2, e1, e2⟩ := ih i h
      refine ⟨a ++ l1, l2, ?_, ?_⟩
      · simp [e1]
      · simp [e2]

theorem modify_spec {α : Type} (m : HMap α) (hm : MapInv m) (p : NodePtr) (n : HNode α)
    (f : HNode α → HNode α) (hd : m.deref p = some n) (hf : (f n).hcode = n.hcode) :
    ∃ m', m.modify p f = some m' ∧ MapInv m' ∧
      ∃ l1 l2, m.nodes.Perm (l1 ++ n :: l2) ∧ m'.nodes.Perm (l1 ++ f n :: l2) := by
  obtain ⟨b, slot⟩ := p
  unfold HMap.deref at hd
  unfold HMap.modify
  cases b
  · simp only [Bool.false_eq_true, if_false] at hd ⊢
    obtain ⟨tab, ht⟩ : ∃ tab, m.ht1.tab = some tab := by
      cases h : m.ht1.tab with
      | none => simp [h] at hd
      | some tab => exact ⟨tab, rfl⟩
    simp only [ht] at hd ⊢
    obtain ⟨chain, hc⟩ : ∃ c, tab[slot.1]? = some c := by
      cases h : tab[slot.1]? with
      | none => simp [h] at hd
      | some c => exact ⟨c, rfl⟩
    simp only [hc] at hd ⊢
    simp only [hd]
    obtain ⟨l1, l2, e1, e2⟩ := flatten_set_set tab slot.1 slot.2 chain n (f n) hc hd
    have hinv1 : TabInv ({ m.ht1 with tab := some (tab.set slot.1 (chain.set slot.2 (f n))) } : HTab α) := by
      have := hm.t1.set_bucket tab ht slot.1 chain (chain.set slot.2 (f n)) hc (by
        intro n' hn'
        rcases List.mem_or_eq_of_mem_set hn' with h | h
        · exact hm.t1.bucket tab ht _ chain hc n' h
        · subst h
          rw [hf]
          exact hm.t1.bucket tab ht _ chain hc n (List.mem_iff_getElem?.2 ⟨_, hd⟩)) m.ht1.size (by
        rw [hm.t1.size, HTab.nodes_some _ tab ht, e1, e2]; simp)
      exact this
    refine ⟨_, rfl, ⟨hinv1, hm.t2, by intro _; simp, hm.drained⟩, l1, l2 ++ m.ht2.nodes, ?_, ?_⟩
    · simp only [HMap.nodes, HTab.nodes_some _ tab ht, e1]
      simp
    · simp only [HMap.nodes, HTab.nodes, Option.getD_some, e2]
      simp
  · simp only [if_true] at hd ⊢
    obtain ⟨tab, ht⟩ : ∃ tab, m.ht2.tab = some tab := by
      cases h : m.ht2.tab with
      | none => simp [h] at hd
      | some tab => exact ⟨tab, rfl⟩
    simp only [ht] at hd ⊢
    obtain ⟨chain, hc⟩ : ∃ c, tab[slot.1]? = some c := by
      cases h : tab[slot.1]? with
      | none => simp [h] at hd
      | some c => exact ⟨c, rfl⟩
    simp only [hc] at hd ⊢
    simp only [hd]
    obtain ⟨l1, l2, e1, e2⟩ := flatten_set_set tab slot.1 slot.2 chain n (f n) hc hd
    have hinv2 : TabInv ({ m.ht2 with tab := some (tab.set slot.1 (chain.set slot.2 (f n))) } : HTab α) := by
      have := hm.t2.set_bucket tab ht slot.1 chain (chain.set slot.2 (f n)) hc (by
        intro n' hn'
        rcases List.mem_or_eq_of_mem_set hn' with h | h
        · exact hm.t2.bucket tab ht _ chain hc n' h
        · subst h
          rw [hf]
          exact hm.t2.bucket tab ht _ chain hc n (List.mem_iff_getElem?.2 ⟨_, hd⟩)) m.ht2.size (by
        rw [hm.t2.size, HTab.nodes_some _ tab ht, e1, e2]; simp)
      exact this
    refine ⟨_, rfl, ⟨hm.t1, hinv2, ?_, ?_⟩, m.ht1.nodes ++ l1, l2, ?_, ?_⟩
    · intro _; exact hm.init1 (by simp [ht])
    · intro tab' h i chain' hi hch
      simp only at h hi
      simp at h
      subst h
      rw [List.getElem?_set] at hch
      split at hch
      · split at hch
        · rename_i hsi _
          have := hm.drained tab ht i chain (by omega) (hsi ▸ hc)
          subst this
          simp at hd
        · simp at hch
      · exact hm.drained tab ht i chain' hi hch
    · simp only [HMap.nodes, HTab.nodes_some _ tab ht, e1]
      simp
    · simp only [HMap.nodes, HTab.nodes, Option.getD_some, e2]
      simp


theorem Rep.perm {l l' : List (HNode Entry)} {m : Bytes → Option Bytes} (h : l.Perm l')
    (r : Rep l m) : Rep l' m := by
  refine ⟨?_, ?_, ?_⟩
  · exact ((h.map _).nodup_iff).1 r.nodup
  · intro n hn; exact r.hash n (h.symm.subset hn)
  · intro k v
    rw [r.maps]
    constructor
    · rintro ⟨n, hn, h1⟩; exact ⟨n, h.subset hn, h1⟩
    · rintro ⟨n, hn, h1⟩; exact ⟨n, h.symm.subset hn, h1⟩

theorem Rep.nil : Rep [] (fun _ => none) := by
  refine ⟨by simp, by simp, by simp⟩

theorem Rep.absent {l : List (HNode Entry)} {m : Bytes → Option Bytes} (r : Rep l m)
    (k : Bytes) (h : ∀ n ∈ l, n.payload.key ≠ k) : m k = none := by
  cases hk : m k with
  | none => rfl
  | some v =>
    obtain ⟨n, hn, h1, _⟩ := (r.maps k v).1 hk
    exact absurd h1 (h n hn)

theorem Rep.erase_head {n : HNode Entry} {l : List (HNode Entry)} {m : Bytes → Option Bytes}
    (r : Rep (n :: l) m) : Rep l (Function.update m n.payload.key none) := by
  have hnd := r.nodup
  simp only [List.map_cons, List.nodup_cons] at hnd
  refine ⟨hnd.2, fun n' hn' => r.hash n' (List.mem_cons_of_mem _ hn'), ?_⟩
  intro k v
  by_cases hk : k = n.payload.key
  · subst hk
    simp only [Function.update_same]
    constructor
    · intro h; simp at h
    · rintro ⟨n', hn', h1, _⟩
      exact absurd (List.mem_map.2 ⟨n', hn', h1⟩) hnd.1
  · rw [Function.update_noteq hk, r.maps]
    constructor
    · rintro ⟨n', hn', h1, h2⟩
      rcases List.mem_cons.1 hn' with h | h
      · subst h; exact absurd h1.symm hk
      · exact ⟨n', h, h1, h2⟩
    · rintro ⟨n', hn', h1⟩
      exact ⟨n', List.mem_cons_of_mem _ hn', h1⟩

theorem Rep.insert_head {l : List (HNode Entry)} {m : Bytes → Option Bytes} (r : Rep l m)
    (k v : Bytes) (h : ∀ n ∈ l, n.payload.key ≠ k) :
    Rep ({ hcode := str_hash k, payload := { key := k, val := v } } :: l)
      (Function.update m k (some v)) := by
  refine ⟨?_, ?_, ?_⟩
  · simp only [List.map_cons, List.nodup_cons]
    refine ⟨?_, r.nodup⟩
    intro hmem
    obtain ⟨n, hn, h1⟩ := List.mem_map.1 hmem
    exact h n hn h1
  · intro n hn
    rcases List.mem_cons.1 hn with h1 | h1
    · subst h1; rfl
    · exact r.hash n h1
  · intro k' v'
    by_cases hk : k' = k
    · subst hk
      simp only [Function.update_same]
      constructor
      · intro hv
        simp at hv
        subst hv
        exact ⟨_, List.mem_cons_self _ _, rfl, rfl⟩
      · rintro ⟨n, hn, h1, h2⟩
        rcases List.mem_cons.1 hn with h3 | h3
        · subst h3; simp at h2; simp [h2]
        · exact absurd h1 (h n h3)
    · rw [Function.update_noteq hk, r.maps]
      constructor
      · rintro ⟨n, hn, h1⟩
        exact ⟨n, List.mem_cons_of_mem _ hn, h1⟩
      · rintro ⟨n, hn, h1, h2⟩
        rcases List.mem_cons.1 hn with h3 | h3
        · subst h3; exact absurd h1.symm hk
        · exact ⟨n, h3, h1, h2⟩

theorem StoreInv.empty : StoreInv {} (fun _ => none) :=
  ⟨MapInv_empty, by
    have : ({} : KeyValueStore).db.nodes = [] := rfl
    rw [this]; exact Rep.nil⟩

/-- The transient lookup key built by `get`, `set` and `del`. -/
theorem lookup_key_match (n : HNode Entry) (k : Bytes) (hh : n.hcode = str_hash n.payload.key) :
    (n.hcode = (⟨str_hash k, ⟨k, []⟩⟩ : HNode Entry).hcode ∧
      entry_eq n ⟨str_hash k, ⟨k, []⟩⟩ = true) ↔ n.payload.key = k := by
  simp only [entry_eq, beq_iff_eq]
  constructor
  · exact fun h => h.2
  · intro h; exact ⟨by rw [hh, h], h⟩

theorem KeyValueStore.get_spec (s : KeyValueStore) (m : Bytes → Option Bytes)
    (hs : StoreInv s m) (verb k res : Bytes) (rl : Nat) :
    ∃ s', StoreInv s' m ∧ hm_help_resizing s.db = some s'.db ∧
      s.get [verb, k] res rl =
        match m k with
        | some v =>
          if v.length ≤ k_max_msg ∧ v.length ≤ res.length then
            some (s', RES_OK, v ++ res.drop v.length, v.length % 2 ^ 32)
          else none
        | none => some (s', RES_NX, res, rl) := by
  obtain ⟨db, r, hl, hhelp, hinv, hperm, hnone, hsome⟩ :=
    hm_lookup_spec s.db hs.inv ⟨str_hash k, ⟨k, []⟩⟩ entry_eq
  have hrep : Rep db.nodes m := hs.rep.perm hperm.symm
  refine ⟨⟨db⟩, ⟨hinv, hrep⟩, hhelp, ?_⟩
  unfold KeyValueStore.get
  simp only [List.getElem?_cons_succ, List.getElem?_cons_zero, hl]
  cases r with
  | none =>
    have : m k = none := hrep.absent k (fun n hn hk =>
      hnone rfl n hn ((lookup_key_match n k (hrep.hash n hn)).2 hk))
    simp [this]
  | some p =>
    obtain ⟨n, hd, hh, he⟩ := hsome p rfl
    have hn := deref_mem db p n hd
    have hk : n.payload.key = k := (lookup_key_match n k (hrep.hash n hn)).1 ⟨hh, he⟩
    have hmk : m k = some n.payload.val := (hrep.maps k _).2 ⟨n, hn, hk, rfl⟩
    simp [hd, hmk]

theorem KeyValueStore.set_spec (s : KeyValueStore) (m : Bytes → Option Bytes)
    (hs : StoreInv s m) (verb k v : Bytes) :
    ∃ s', s.set [verb, k, v] = some (s', RES_OK) ∧ StoreInv s' (Function.update m k (some v)) := by
  obtain ⟨db, r, hl, _, hinv, hperm, hnone, hsome⟩ :=
    hm_lookup_spec s.db hs.inv ⟨str_hash k, ⟨k, []⟩⟩ entry_eq
  have hrep : Rep db.nodes m := hs.rep.perm hperm.symm
  unfold KeyValueStore.set
  simp only [List.getElem?_cons_succ, List.getElem?_cons_zero, hl]
  cases r with
  | none =>
    have habs : ∀ n ∈ db.nodes, n.payload.key ≠ k := fun n hn hk =>
      hnone rfl n hn ((lookup_key_match n k (hrep.hash n hn)).2 hk)
    obtain ⟨db', hins, hinv', hperm'⟩ := hm_insert_spec db hinv ⟨str_hash k, ⟨k, v⟩⟩
    refine ⟨⟨db'⟩, by simp [hins], hinv', ?_⟩
    exact (hrep.insert_head k v habs).perm hperm'.symm
  | some p =>
    obtain ⟨n, hd, hh, he⟩ := hsome p rfl
    have hn := deref_mem db p n hd
    have hk : n.payload.key = k := (lookup_key_match n k (hrep.hash n hn)).1 ⟨hh, he⟩
    obtain ⟨db', hmod, hinv', l1, l2, hp1, hp2⟩ := modify_spec db hinv p n
      (fun node => { node with payload := { node.payload with val := v } }) hd rfl
    refine ⟨⟨db'⟩, by simp [hmod], hinv', ?_⟩
    have r1 : Rep (n :: (l1 ++ l2)) m := hrep.perm (hp1.trans List.perm_middle)
    have hnd := r1.nodup
    simp only [List.map_cons, List.nodup_cons] at hnd
    have r2 := r1.erase_head
    rw [hk] at r2
    have r3 := r2.insert_head k v (by
      intro n' hn' hk'
      exact hnd.1 (List.mem_map.2 ⟨n', hn', by rw [hk', hk]⟩))
    rw [Function.update_idem] at r3
    refine r3.perm ?_
    refine List.Perm.trans ?_ hp2.symm
    have e : ({ n with payload := { n.payload with val := v } } : HNode Entry)
        = ⟨str_hash k, ⟨k, v⟩⟩ := by
      rw [← hk, ← hrep.hash n hn]
    rw [e]
    exact List.perm_middle.symm

theorem KeyValueStore.del_spec (s : KeyValueStore) (m : Bytes → Option Bytes)
    (hs : StoreInv s m) (verb k : Bytes) :
    ∃ s', s.del [verb, k] = some (s', RES_OK) ∧ StoreInv s' (Function.update m k none) := by
  obtain ⟨db, r, hpop, hinv, hnone, hsome⟩ :=
    hm_pop_spec s.db hs.inv ⟨str_hash k, ⟨k, []⟩⟩ entry_eq
  unfold KeyValueStore.del
  simp only [List.getElem?_cons_succ, List.getElem?_cons_zero, hpop]
  refine ⟨⟨db⟩, rfl, hinv, ?_⟩
  cases r with
  | none =>
    obtain ⟨_, hperm, habs⟩ := hnone rfl
    have hmk : m k = none := hs.rep.absent k (fun n hn hk =>
      habs n hn ((lookup_key_match n k (hs.rep.hash n hn)).2 hk))
    have : Function.update m k none = m := by
      funext k'
      by_cases h : k' = k
      · subst h; simp [hmk]
      · simp [Function.update_noteq h]
    rw [this]
    exact hs.rep.perm hperm.symm
  | some n =>
    obtain ⟨hperm, hh, he⟩ := hsome n rfl
    have r1 : Rep (n :: db.nodes) m := hs.rep.perm hperm
    have hk : n.payload.key = k :=
      (lookup_key_match n k (r1.hash n (List.mem_cons_self _ _))).1 ⟨hh, he⟩
    have := r1.erase_head
    rwa [hk] at this

theorem abs_run_eq_last_write (ops : List Cmd) (k : Bytes) :
    ops.foldl abs_step (fun _ => none) k = last_write k ops.reverse := by
  induction ops using List.reverseRecOn with
  | nil => rfl
  | append_singleton ops c ih =>
    rw [List.foldl_append, List.reverse_append]
    cases c with
    | get k' => simpa [abs_step, last_write] using ih
    | set k' v =>
      simp only [List.foldl_cons, List.foldl_nil, abs_step, List.reverse_cons, List.reverse_nil,
        List.nil_append, List.singleton_append, last_write]
      by_cases h : k' = k
      · subst h; simp
      · rw [if_neg h, Function.update_noteq (Ne.symm h)]; exact ih
    | del k' =>
      simp only [List.foldl_cons, List.foldl_nil, abs_step, List.reverse_cons, List.reverse_nil,
        List.nil_append, List.singleton_append, last_write]
      by_cases h : k' = k
      · subst h; simp
      · rw [if_neg h, Function.update_noteq (Ne.symm h)]; exact ih

theorem last_write_mem (k v : Bytes) (l : List Cmd) (h : last_write k l = some v) :
    Cmd.set k v ∈ l := by
  induction l with
  | nil => simp [last_write] at h
  | cons c l ih =>
    cases c with
    | get k' => exact List.mem_cons_of_mem _ (ih (by simpa [last_write] using h))
    | set k' v' =>
      simp only [last_write] at h
      by_cases hk : k' = k
      · subst hk; simp at h; subst h; exact List.mem_cons_self _ _
      · rw [if_neg hk] at h; exact List.mem_cons_of_mem _ (ih h)
    | del k' =>
      simp only [last_write] at h
      by_cases hk : k' = k
      · subst hk; simp at h
      · rw [if_neg hk] at h; exact List.mem_cons_of_mem _ (ih h)

theorem mem_set_keys (k v : Bytes) (l : List Cmd) (h : Cmd.set k v ∈ l) : k ∈ set_keys l := by
  induction l with
  | nil => simp at h
  | cons c l ih =>
    rcases List.mem_cons.1 h with h1 | h1
    · subst h1; simp [set_keys]
    · cases c <;> simp [set_keys, ih h1]

theorem exec_refines (verb res : Bytes) (ops : List Cmd) (s : KeyValueStore)
    (m : Bytes → Option Bytes) (hs : StoreInv s m)
    (hm : ∀ k v, m k = some v → v.length ≤ k_max_msg ∧ v.length ≤ res.length)
    (hv : ∀ k v, Cmd.set k v ∈ ops → v.length ≤ k_max_msg ∧ v.length ≤ res.length) :
    ∃ s', KeyValueStore.exec verb res s ops = some s' ∧ StoreInv s' (ops.foldl abs_step m) ∧
      ∀ k v, ops.foldl abs_step m k = some v → v.length ≤ k_max_msg ∧ v.length ≤ res.length := by
  induction ops generalizing s m with
  | nil => exact ⟨s, rfl, hs, hm⟩
  | cons c ops ih =>
    have hv' : ∀ k v, Cmd.set k v ∈ ops → v.length ≤ k_max_msg ∧ v.length ≤ res.length :=
      fun k v h => hv k v (List.mem_cons_of_mem _ h)
    cases c with
    | get k =>
      obtain ⟨s1, hs1, _, hg⟩ := s.get_spec m hs verb k res 0
      obtain ⟨s', he, hr⟩ := ih s1 m hs1 hm hv'
      refine ⟨s', ?_, hr⟩
      cases hmk : m k with
      | none => simp [KeyValueStore.exec, KeyValueStore.call, hg, hmk, he]
      | some v => simp [KeyValueStore.exec, KeyValueStore.call, hg, hmk, hm k v hmk, he]
    | set k v =>
      obtain ⟨s1, hset, hs1⟩ := s.set_spec m hs verb k v
      obtain ⟨s', he, hr⟩ := ih s1 _ hs1 (by
        intro k' v' h
        by_cases hk : k' = k
        · subst hk
          simp at h
          subst h
          exact hv k' v (List.mem_cons_self _ _)
        · rw [Function.update_noteq hk] at h; exact hm k' v' h) hv'
      exact ⟨s', by simp [KeyValueStore.exec, KeyValueStore.call, hset, he], hr⟩
    | del k =>
      obtain ⟨s1, hdel, hs1⟩ := s.del_spec m hs verb k
      obtain ⟨s', he, hr⟩ := ih s1 _ hs1 (by
        intro k' v' h
        by_cases hk : k' = k
        · subst hk; simp at h
        · rw [Function.update_noteq hk] at h; exact hm k' v' h) hv'
      exact ⟨s', by simp [KeyValueStore.exec, KeyValueStore.call, hdel, he], hr⟩

theorem exec_updates_refines (verb res : Bytes) (ops : List Cmd) (s : KeyValueStore)
    (m : Bytes → Option Bytes) (hs : StoreInv s m) (hg : ∀ k, Cmd.get k ∉ ops) :
    ∃ s', KeyValueStore.exec verb res s ops = some s' ∧ StoreInv s' (ops.foldl abs_step m) := by
  induction ops generalizing s m with
  | nil => exact ⟨s, rfl, hs⟩
  | cons c ops ih =>
    have hg' : ∀ k, Cmd.get k ∉ ops := fun k h => hg k (List.mem_cons_of_mem _ h)
    cases c with
    | get k => exact absurd (List.mem_cons_self _ _) (hg k)
    | set k v =>
      obtain ⟨s1, hset, hs1⟩ := s.set_spec m hs verb k v
      obtain ⟨s', he, hr⟩ := ih s1 _ hs1 hg'
      exact ⟨s', by simp [KeyValueStore.exec, KeyValueStore.call, hset, he], hr⟩
    | del k =>
      obtain ⟨s1, hdel, hs1⟩ := s.del_spec m hs verb k
      obtain ⟨s', he, hr⟩ := ih s1 _ hs1 hg'
      exact ⟨s', by simp [KeyValueStore.exec, KeyValueStore.call, hdel, he], hr⟩

theorem hm_size_eq_length {α : Type} (m : HMap α) (hm : MapInv m) :
    hm_size m = m.nodes.length := by
  simp [hm_size, HMap.nodes, hm.t1.size, hm.t2.size]

theorem Reachable.inv {α : Type} {m : HMap α} (h : Reachable m) : MapInv m := by
  induction h with
  | empty => exact MapInv_empty
  | insert node _ hi ih =>
    obtain ⟨m', h1, h2, _⟩ := hm_insert_spec _ ih node
    rw [h1] at hi; cases hi; exact h2
  | lookup key eq r _ hl ih =>
    obtain ⟨m', r', h1, _, h2, _⟩ := hm_lookup_spec _ ih key eq
    rw [h1] at hl; cases hl; exact h2
  | pop key eq r _ hp ih =>
    obtain ⟨m', r', h1, h2, _⟩ := hm_pop_spec _ ih key eq
    rw [h1] at hp; cases hp; exact h2

theorem hm_pop_n_absent {α : Type} (key : HNode α) (eq : HNode α → HNode α → Bool) (j : Nat)
    (m : HMap α) (hm : MapInv m)
    (habs : ∀ n ∈ m.nodes, ¬ (n.hcode = key.hcode ∧ eq n key = true)) :
    ∃ m', hm_pop_n key eq j m = some (m', List.replicate j none) ∧ MapInv m' ∧
      m'.nodes.Perm m.nodes := by
  induction j generalizing m with
  | zero => exact ⟨m, rfl, hm, List.Perm.refl _⟩
  | succ j ih =>
    obtain ⟨m1, r, hpop, hinv, hnone, hsome⟩ := hm_pop_spec m hm key eq
    cases r with
    | some n =>
      obtain ⟨hperm, hh, he⟩ := hsome n rfl
      exact absurd ⟨hh, he⟩ (habs n (hperm.symm.subset (List.mem_cons_self _ _)))
    | none =>
      obtain ⟨_, hperm, _⟩ := hnone rfl
      obtain ⟨m', h1, h2, h3⟩ := ih m1 hinv (fun n hn => habs n (hperm.subset hn))
      refine ⟨m', ?_, h2, h3.trans hperm⟩
      simp [hm_pop_n, hpop, h1, List.replicate_succ]

theorem get_after_oversized_set (s : KeyValueStore) (m : Bytes → Option Bytes)
    (hs : StoreInv s m) (verb res k v : Bytes) (rl : Nat) (hlen : k_max_msg < v.length) :
    ∃ s1, KeyValueStore.exec verb res s [Cmd.set k v] = some s1 ∧
      s1.get [verb, k] res rl = none := by
  obtain ⟨s1, hset, hs1⟩ := s.set_spec m hs verb k v
  refine ⟨s1, by simp [KeyValueStore.exec, KeyValueStore.call, hset], ?_⟩
  obtain ⟨s2, _, _, hg⟩ := s1.get_spec _ hs1 verb k res rl
  rw [hg]
  simp only [Function.update_same]
  rw [if_neg]
  intro h
  omega

/-! ## The request decoder -/

theorem read_u32_lt (data : Bytes) (pos : Nat) : read_u32 data pos < 2 ^ 32 := by
  unfold read_u32
  split
  · rename_i b0 b1 b2 b3 _ _
    have h0 := b0.isLt; have h1 := b1.isLt; have h2 := b2.isLt; have h3 := b3.isLt
    omega
  · decide

theorem enc_u32_length (n : Nat) : (enc_u32 n).length = 4 := rfl

theorem read_u32_enc (pre rest : Bytes) (n : Nat) (hn : n < 2 ^ 32) :
    read_u32 (pre ++ enc_u32 n ++ rest) pre.length = n := by
  unfold read_u32
  rw [List.append_assoc, List.drop_left]
  simp only [enc_u32, List.cons_append, List.nil_append]
  omega

theorem take4_drop (data : Bytes) (pos : Nat) (h : pos + 4 ≤ data.length) :
    (data.drop pos).take 4 = enc_u32 (read_u32 data pos) := by
  have hl : 4 ≤ (data.drop pos).length := by rw [List.length_drop]; omega
  unfold read_u32
  match hd : data.drop pos with
  | [] => rw [hd] at hl; simp at hl
  | [_] => rw [hd] at hl; simp at hl
  | [_, _] => rw [hd] at hl; simp at hl
  | [_, _, _] => rw [hd] at hl; simp at hl
  | b0 :: b1 :: b2 :: b3 :: t =>
    simp only [List.take_succ_cons, List.take_zero, enc_u32]
    have h0 := b0.isLt; have h1 := b1.isLt; have h2 := b2.isLt; have h3 := b3.isLt
    congr 1
    · apply Fin.ext; simp only; omega
    congr 1
    · apply Fin.ext; simp only; omega
    congr 1
    · apply Fin.ext; simp only; omega
    congr 1
    · apply Fin.ext; simp only; omega


theorem parse_req_loop_encode (args : List Bytes) (pre : Bytes) (out : List Bytes)
    (hargs : ∀ a ∈ args, a.length < 2 ^ 32)
    (hlen : (pre ++ encode_args args).length < 2 ^ 63) :
    parse_req_loop (pre ++ encode_args args) (pre ++ encode_args args).length args.length
      pre.length out = (some (pre ++ encode_args args).length, out ++ args) := by
  induction args generalizing pre out with
  | nil => simp [parse_req_loop, encode_args]
  | cons a args ih =>
    have ha : a.length < 2 ^ 32 := hargs a (List.mem_cons_self _ _)
    have hdata : pre ++ encode_args (a :: args)
        = (pre ++ enc_u32 a.length ++ a) ++ encode_args args := by
      simp [encode_args, List.append_assoc]
    have hread : read_u32 (pre ++ encode_args (a :: args)) pre.length = a.length := by
      have : pre ++ encode_args (a :: args) = pre ++ enc_u32 a.length ++ (a ++ encode_args args) := by
        simp [encode_args, List.append_assoc]
      rw [this]
      exact read_u32_enc pre _ a.length ha
    have hL : (pre ++ encode_args (a :: args)).length
        = pre.length + 4 + a.length + (encode_args args).length := by
      rw [hdata]; simp [enc_u32_length]; omega
    have harg : ((pre ++ encode_args (a :: args)).drop (pre.length + 4)).take a.length = a := by
      have : pre ++ encode_args (a :: args)
          = (pre ++ enc_u32 a.length) ++ (a ++ encode_args args) := by
        simp [encode_args, List.append_assoc]
      rw [this]
      have hl : (pre ++ enc_u32 a.length).length = pre.length + 4 := by simp [enc_u32_length]
      rw [← hl, List.drop_left, List.take_left]
    have ih' := ih (pre ++ enc_u32 a.length ++ a) (out ++ [a])
      (fun b hb => hargs b (List.mem_cons_of_mem _ hb)) (by rw [← hdata]; exact hlen)
    have hpl : (pre ++ enc_u32 a.length ++ a).length = pre.length + 4 + a.length := by
      simp [enc_u32_length]; omega
    rw [hpl, ← hdata] at ih'
    rw [List.length_cons, parse_req_loop]
    simp only [hread, harg]
    have hlen' := hlen
    rw [hL] at hlen'
    have e1 : (pre.length + 4) % 2 ^ 64 = pre.length + 4 := Nat.mod_eq_of_lt (by omega)
    have e2 : (pre.length + 4 + a.length) % 2 ^ 64 = pre.length + 4 + a.length :=
      Nat.mod_eq_of_lt (by omega)
    rw [e1, e2, if_neg (by rw [hL]; omega), if_neg (by rw [hL]; omega), ih']
    simp

theorem parse_req_loop_sound (data : Bytes) (hlen : data.length < 2 ^ 63) (n pos : Nat)
    (out : List Bytes) (p : Nat) (out' : List Bytes) (hpos : pos ≤ data.length)
    (h : parse_req_loop data data.length n pos out = (some p, out')) :
    ∃ args, args.length = n ∧ out' = out ++ args ∧ (∀ a ∈ args, a.length < 2 ^ 32) ∧
      pos ≤ p ∧ p ≤ data.length ∧ data.drop pos = encode_args args ++ data.drop p := by
  induction n generalizing pos out with
  | zero =>
    simp only [parse_req_loop, Prod.mk.injEq, Option.some.injEq] at h
    obtain ⟨h1, h2⟩ := h
    subst h1; subst h2
    exact ⟨[], rfl, by simp, by simp, le_refl _, hpos, by simp [encode_args]⟩
  | succ n ih =>
    rw [parse_req_loop] at h
    have hsz := read_u32_lt data pos
    have e1 : (pos + 4) % 2 ^ 64 = pos + 4 := Nat.mod_eq_of_lt (by omega)
    have e2 : (pos + 4 + read_u32 data pos) % 2 ^ 64 = pos + 4 + read_u32 data pos :=
      Nat.mod_eq_of_lt (by omega)
    simp only [e1, e2] at h
    by_cases c1 : pos + 4 > data.length
    · rw [if_pos c1] at h; simp at h
    rw [if_neg c1] at h
    by_cases c2 : pos + 4 + read_u32 data pos > data.length
    · rw [if_pos c2] at h; simp at h
    rw [if_neg c2] at h
    obtain ⟨args, hl, ho, hb, hp1, hp2, hd⟩ := ih _ _ (by omega) h
    have hargl : ((data.drop (pos + 4)).take (read_u32 data pos)).length = read_u32 data pos := by
      rw [List.length_take, List.length_drop]; omega
    refine ⟨(data.drop (pos + 4)).take (read_u32 data pos) :: args, by simp [hl], by simp [ho],
      ?_, by omega, hp2, ?_⟩
    · intro a ha
      rcases List.mem_cons.1 ha with h1 | h1
      · rw [h1, hargl]; exact hsz
      · exact hb a h1
    · have s1 : data.drop pos = (data.drop pos).take 4 ++ (data.drop pos).drop 4 :=
        (List.take_append_drop _ _).symm
      have s2 : (data.drop pos).drop 4 = data.drop (pos + 4) := by
        rw [List.drop_drop]
      have s3 : data.drop (pos + 4) = (data.drop (pos + 4)).take (read_u32 data pos)
          ++ data.drop (pos + 4 + read_u32 data pos) := by
        conv_lhs => rw [← List.take_append_drop (read_u32 data pos) (data.drop (pos + 4))]
        rw [List.drop_drop]
      rw [s1, s2, take4_drop data pos (by omega)]
      conv_lhs => rw [s3, hd]
      simp only [encode_args, hargl, List.append_assoc]

theorem encode_args_length_le (args : List Bytes) (h : ∀ a ∈ args, a.length < 2 ^ 32) :
    (encode_args args).length ≤ args.length * (4 + 2 ^ 32) := by
  induction args with
  | nil => simp [encode_args]
  | cons a args ih =>
    have := ih (fun b hb => h b (List.mem_cons_of_mem _ hb))
    have ha := h a (List.mem_cons_self _ _)
    simp only [encode_args, List.length_append, enc_u32_length, List.length_cons]
    rw [Nat.add_mul]
    omega


theorem read_u32_zero_encode_req (args : List Bytes) (hn : args.length < 2 ^ 32) :
    read_u32 (encode_req args) 0 = args.length := by
  have := read_u32_enc [] (encode_args args) args.length hn
  simpa [encode_req] using this

theorem parse_req_encode (args : List Bytes) (out : List Bytes) (hn : args.length ≤ k_max_args)
    (hargs : ∀ a ∈ args, a.length < 2 ^ 32) :
    parse_req (encode_req args) (encode_req args).length out = (0, out ++ args) := by
  have hk : k_max_args = 1024 := rfl
  have hrd := read_u32_zero_encode_req args (by omega)
  have hb := encode_args_length_le args hargs
  have hL : (encode_req args).length = 4 + (encode_args args).length := by
    simp [encode_req, enc_u32_length]
  have hmul : args.length * (4 + 2 ^ 32) ≤ 1024 * (4 + 2 ^ 32) :=
    Nat.mul_le_mul_right _ (by omega)
  have hloop := parse_req_loop_encode args (enc_u32 args.length) out hargs (by
    show (encode_req args).length < 2 ^ 63
    rw [hL]; omega)
  rw [enc_u32_length] at hloop
  unfold parse_req
  rw [if_neg (by rw [hL]; omega)]
  simp only [hrd]
  rw [if_neg (by omega)]
  show (match parse_req_loop (enc_u32 args.length ++ encode_args args)
      (enc_u32 args.length ++ encode_args args).length args.length 4 out with
    | (none, out) => (-1, out)
    | (some pos, out) =>
      if pos ≠ (enc_u32 args.length ++ encode_args args).length then (-1, out) else (0, out)) = _
  rw [hloop]
  simp

theorem parse_req_ok_decode (data : Bytes) (hlen : data.length < 2 ^ 63) (out : List Bytes)
    (h : parse_req data data.length [] = (0, out)) :
    out.length ≤ k_max_args ∧ (∀ a ∈ out, a.length < 2 ^ 32) ∧ data = encode_req out := by
  unfold parse_req at h
  by_cases c1 : data.length < 4
  · rw [if_pos c1] at h; simp at h
  rw [if_neg c1] at h
  by_cases c2 : read_u32 data 0 > k_max_args
  · simp only [c2, if_true] at h; simp at h
  simp only [c2, if_false] at h
  rcases hl : parse_req_loop data data.length (read_u32 data 0) 4 [] with ⟨_ | p, out'⟩
  · rw [hl] at h; simp at h
  · rw [hl] at h
    simp only at h
    by_cases c3 : p = data.length
    · simp only [c3, ne_eq, not_true_eq_false, if_false, Prod.mk.injEq, true_and] at h
      subst h
      obtain ⟨args, ha1, ha2, ha3, _, _, ha6⟩ :=
        parse_req_loop_sound data hlen _ 4 [] p out' (by omega) hl
      simp only [List.nil_append] at ha2
      subst ha2
      subst c3
      refine ⟨by omega, ha3, ?_⟩
      rw [List.drop_length, List.append_nil] at ha6
      have h4 := take4_drop data 0 (by omega)
      simp only [List.drop_zero] at h4
      rw [encode_req, ha1, ← h4, ← ha6, List.take_append_drop]
    · simp only [ne_eq, c3, not_false_eq_true, if_true] at h
      simp at h

/-! ## Command dispatch -/

theorem tolower_eq_zero (c : Byte) : tolower c = 0 ↔ c = 0 := by
  unfold tolower
  split
  · rename_i h
    constructor
    · intro h0
      have := congrArg Fin.val h0
      rw [Fin.val_add] at this
      simp at this
      omega
    · intro h0; subst h0; simp at h
  · rfl

theorem strcasecmp_eq_zero (w v : Bytes) (hv : ∀ c ∈ v, c ≠ 0) :
    strcasecmp (w ++ [0]) (v ++ [0]) = 0 ↔ (w.takeWhile (fun c => c ≠ 0)).map tolower = v.map tolower := by
  induction w generalizing v with
  | nil =>
    cases v with
    | nil => simp [strcasecmp]
    | cons c2 v' =>
      have h2 : c2 ≠ 0 := hv c2 (List.mem_cons_self _ _)
      have ht : tolower 0 ≠ tolower c2 := by
        intro h
        exact h2 ((tolower_eq_zero c2).1 (by rw [← h]; decide))
      simp only [List.nil_append, List.cons_append, strcasecmp, ne_eq, ht, not_false_eq_true,
        if_true, List.takeWhile_nil, List.map_nil, List.map_cons]
      constructor
      · intro h
        exfalso
        apply ht
        apply Fin.ext
        omega
      · intro h; simp at h
  | cons c1 w' ih =>
    cases v with
    | nil =>
      by_cases h1 : c1 = 0
      · subst h1
        simp [strcasecmp]
      · have ht : tolower c1 ≠ tolower 0 := by
          intro h
          exact h1 ((tolower_eq_zero c1).1 (by rw [h]; decide))
        simp only [List.nil_append, List.cons_append, strcasecmp, ne_eq, ht, not_false_eq_true,
          if_true, List.map_nil]
        rw [List.takeWhile_cons_of_pos (by simpa using h1)]
        constructor
        · intro h
          exfalso
          apply ht
          apply Fin.ext
          omega
        · intro h; simp at h
    | cons c2 v' =>
      have h2 : c2 ≠ 0 := hv c2 (List.mem_cons_self _ _)
      have hv' : ∀ c ∈ v', c ≠ 0 := fun c hc => hv c (List.mem_cons_of_mem _ hc)
      simp only [List.cons_append, strcasecmp, ne_eq, List.map_cons, List.append_eq]
      by_cases ht : tolower c1 = tolower c2
      · have h1 : c1 ≠ 0 := by
          intro h
          subst h
          exact h2 ((tolower_eq_zero c2).1 (by rw [← ht]; decide))
        simp only [ht, not_true_eq_false, if_false, h1]
        rw [List.takeWhile_cons_of_pos (by simpa using h1), ih v' hv']
        simp [ht]
      · simp only [ht, not_false_eq_true, if_true]
        constructor
        · intro h
          exfalso
          apply ht
          apply Fin.ext
          omega
        · intro h
          by_cases h1 : c1 = 0
          · subst h1
            simp at h
          · rw [List.takeWhile_cons_of_pos (by simpa using h1)] at h
            simp at h
            exact absurd h.1 ht

theorem cmd_is_iff (w v : Bytes) (hv : ∀ c ∈ v, c ≠ 0) (hl : v.map tolower = v) :
    cmd_is w v = true ↔ verb_is w v := by
  unfold cmd_is verb_is c_str
  rw [← hl, ← strcasecmp_eq_zero w v hv]
  simp only [hl, beq_iff_eq]
  exact eq_comm

theorem cmd_is_get (w : Bytes) : cmd_is w str_get = true ↔ verb_is w str_get :=
  cmd_is_iff w str_get (by simp [str_get]) (by rfl)

theorem cmd_is_set (w : Bytes) : cmd_is w str_set = true ↔ verb_is w str_set :=
  cmd_is_iff w str_set (by simp [str_set]) (by rfl)

theorem cmd_is_del (w : Bytes) : cmd_is w str_del = true ↔ verb_is w str_del :=
  cmd_is_iff w str_del (by simp [str_del]) (by rfl)

theorem read_u32_eq_of_take (d1 d2 : Bytes) (pos : Nat)
    (h : (d1.drop pos).take 4 = (d2.drop pos).take 4) (h1 : pos + 4 ≤ d1.length) :
    read_u32 d1 pos = read_u32 d2 pos := by
  have e1 : (d1.drop pos).take 4 = enc_u32 (read_u32 d1 pos) := take4_drop d1 pos h1
  have hl : ((d2.drop pos).take 4).length = 4 := by rw [← h, e1]; rfl
  have h2 : pos + 4 ≤ d2.length := by
    rw [List.length_take, List.length_drop] at hl
    omega
  have e2 := take4_drop d2 pos h2
  rw [e1, e2] at h
  have := read_u32_lt d1 pos
  have := read_u32_lt d2 pos
  simp only [enc_u32, List.cons.injEq, Fin.mk.injEq, and_true] at h
  omega

theorem drop_take_take {β : Type} (d : List β) (len pos k : Nat) (h : pos + k ≤ len) :
    ((d.take len).drop pos).take k = (d.drop pos).take k := by
  rw [List.drop_take, List.take_take, Nat.min_eq_left (by omega)]

theorem parse_req_loop_take (data : Bytes) (len : Nat) (hlen : len < 2 ^ 63)
    (hd : len ≤ data.length) (n pos : Nat) (out : List Bytes) (hpos : pos ≤ len) :
    parse_req_loop data len n pos out = parse_req_loop (data.take len) len n pos out := by
  induction n generalizing pos out with
  | zero => rfl
  | succ n ih =>
    rw [parse_req_loop, parse_req_loop]
    have e1 : (pos + 4) % 2 ^ 64 = pos + 4 := Nat.mod_eq_of_lt (by omega)
    rw [e1]
    by_cases c1 : pos + 4 > len
    · rw [if_pos c1, if_pos c1]
    rw [if_neg c1, if_neg c1]
    have hr : read_u32 (data.take len) pos = read_u32 data pos := by
      apply read_u32_eq_of_take
      · exact drop_take_take data len pos 4 (by omega)
      · rw [List.length_take]; omega
    simp only [hr]
    have hsz := read_u32_lt data pos
    have e2 : (pos + 4 + read_u32 data pos) % 2 ^ 64 = pos + 4 + read_u32 data pos :=
      Nat.mod_eq_of_lt (by omega)
    rw [e2]
    by_cases c2 : pos + 4 + read_u32 data pos > len
    · rw [if_pos c2, if_pos c2]
    rw [if_neg c2, if_neg c2, drop_take_take data len (pos + 4) _ (by omega)]
    exact ih _ _ (by omega)

theorem parse_req_take (data : Bytes) (len : Nat) (hlen : len < 2 ^ 63) (hd : len ≤ data.length)
    (out : List Bytes) : parse_req data len out = parse_req (data.take len) len out := by
  unfold parse_req
  by_cases c1 : len < 4
  · rw [if_pos c1, if_pos c1]
  rw [if_neg c1, if_neg c1]
  have hr : read_u32 (data.take len) 0 = read_u32 data 0 := by
    apply read_u32_eq_of_take
    · exact drop_take_take data len 0 4 (by omega)
    · rw [List.length_take]; omega
  simp only [hr]
  rw [parse_req_loop_take data len hlen hd _ 4 out (by omega)]

theorem encode_args_length (cmd : List Bytes) :
    (encode_args cmd).length = 4 * cmd.length + (cmd.map List.length).sum := by
  induction cmd with
  | nil => rfl
  | cons a cmd ih =>
    simp only [encode_args, List.length_append, enc_u32_length, ih, List.length_cons,
      List.map_cons, List.sum_cons]
    omega

theorem encode_req_length (cmd : List Bytes) :
    (encode_req cmd).length = 4 + 4 * cmd.length + (cmd.map List.length).sum := by
  simp only [encode_req, List.length_append, enc_u32_length, encode_args_length]
  omega

/-- A buffer whose first `len` bytes `parse_req` accepts starts with the encoding of the
decoded vector. -/
theorem parse_req_ok_prefix (data : Bytes) (len : Nat) (hlen : len < 2 ^ 63)
    (hd : len ≤ data.length) (cmd : List Bytes) (h : parse_req data len [] = (0, cmd)) :
    cmd.length ≤ k_max_args ∧ (∀ a ∈ cmd, a.length < 2 ^ 32) ∧ data.take len = encode_req cmd ∧
      len = (encode_req cmd).length := by
  rw [parse_req_take data len hlen hd] at h
  have hl : (data.take len).length = len := by rw [List.length_take]; omega
  have h' : parse_req (data.take len) (data.take len).length [] = (0, cmd) := by rw [hl]; exact h
  obtain ⟨h1, h2, h3⟩ := parse_req_ok_decode (data.take len) (by rw [hl]; exact hlen) cmd h'
  exact ⟨h1, h2, h3, by rw [← h3, hl]⟩

theorem parse_req_of_prefix (cmd : List Bytes) (rest : Bytes) (hn : cmd.length ≤ k_max_args)
    (hargs : ∀ a ∈ cmd, a.length < 2 ^ 32) :
    parse_req (encode_req cmd ++ rest) (encode_req cmd).length [] = (0, cmd) := by
  have hb := encode_args_length_le cmd hargs
  have hL : (encode_req cmd).length = 4 + (encode_args cmd).length := by
    simp [encode_req, enc_u32_length]
  have hk : k_max_args = 1024 := rfl
  have hmul : cmd.length * (4 + 2 ^ 32) ≤ 1024 * (4 + 2 ^ 32) :=
    Nat.mul_le_mul_right _ (by omega)
  rw [parse_req_take _ _ (by rw [hL]; omega) (by simp), List.take_left]
  simpa using parse_req_encode cmd [] hn hargs


theorem verb_get_ne_del (w : Bytes) (h : verb_is w str_get) : ¬ verb_is w str_del := by
  unfold verb_is at *
  rw [h]
  decide

theorem do_request_bad (g : KeyValueStore) (req : Bytes) (reqlen rc : Nat) (res : Bytes)
    (rl : Nat) (h : (parse_req req reqlen []).1 ≠ 0) :
    do_request g req reqlen rc res rl = some (-1, g, rc, res, rl) := by
  unfold do_request
  simp only [h, ne_eq, not_false_eq_true, if_true]

theorem do_request_get (g : KeyValueStore) (m : Bytes → Option Bytes) (hs : StoreInv g m)
    (req : Bytes) (reqlen rc : Nat) (res : Bytes) (rl : Nat) (w k : Bytes)
    (hparse : parse_req req reqlen [] = (0, [w, k])) (hw : verb_is w str_get) :
    ∃ g', StoreInv g' m ∧ do_request g req reqlen rc res rl =
      match m k with
      | some v =>
        if v.length ≤ k_max_msg ∧ v.length ≤ res.length then
          some (0, g', RES_OK, v ++ res.drop v.length, v.length % 2 ^ 32)
        else none
      | none => some (0, g', RES_NX, res, rl) := by
  obtain ⟨g', hs', _, hg⟩ := g.get_spec m hs w k res rl
  refine ⟨g', hs', ?_⟩
  unfold do_request
  simp only [hparse, ne_eq, not_true_eq_false, if_false, List.length_cons, List.length_nil,
    List.getD_cons_zero, (cmd_is_get w).2 hw, and_self, if_true, hg]
  cases m k with
  | none => rfl
  | some v =>
    simp only
    split <;> rfl

theorem do_request_set (g : KeyValueStore) (m : Bytes → Option Bytes) (hs : StoreInv g m)
    (req : Bytes) (reqlen rc : Nat) (res : Bytes) (rl : Nat) (w k v : Bytes)
    (hparse : parse_req req reqlen [] = (0, [w, k, v])) (hw : verb_is w str_set) :
    ∃ g', StoreInv g' (Function.update m k (some v)) ∧
      do_request g req reqlen rc res rl = some (0, g', RES_OK, res, rl) := by
  obtain ⟨g', hset, hs'⟩ := g.set_spec m hs w k v
  refine ⟨g', hs', ?_⟩
  unfold do_request
  simp [hparse, (cmd_is_set w).2 hw, hset]

theorem do_request_del (g : KeyValueStore) (m : Bytes → Option Bytes) (hs : StoreInv g m)
    (req : Bytes) (reqlen rc : Nat) (res : Bytes) (rl : Nat) (w k : Bytes)
    (hparse : parse_req req reqlen [] = (0, [w, k])) (hw : verb_is w str_del) :
    ∃ g', StoreInv g' (Function.update m k none) ∧
      do_request g req reqlen rc res rl = some (0, g', RES_OK, res, rl) := by
  obtain ⟨g', hdel, hs'⟩ := g.del_spec m hs w k
  refine ⟨g', hs', ?_⟩
  have hng : cmd_is w str_get = false := by
    cases h : cmd_is w str_get with
    | false => rfl
    | true => exact absurd hw (verb_get_ne_del w ((cmd_is_get w).1 h))
  unfold do_request
  simp [hparse, hng, (cmd_is_del w).2 hw, hdel]

theorem do_request_unknown (g : KeyValueStore) (req : Bytes) (reqlen rc : Nat) (res : Bytes)
    (rl : Nat) (cmd : List Bytes) (hparse : parse_req req reqlen [] = (0, cmd))
    (hget : ¬ (cmd.length = 2 ∧ verb_is (cmd.getD 0 []) str_get))
    (hset : ¬ (cmd.length = 3 ∧ verb_is (cmd.getD 0 []) str_set))
    (hdel : ¬ (cmd.length = 2 ∧ verb_is (cmd.getD 0 []) str_del))
    (hres : 12 ≤ res.length) :
    do_request g req reqlen rc res rl =
      some (0, g, RES_ERR, str_unknown_cmd ++ [0] ++ res.drop 12, 11) := by
  rw [← cmd_is_get] at hget
  rw [← cmd_is_set] at hset
  rw [← cmd_is_del] at hdel
  unfold do_request
  simp only [hparse, ne_eq, not_true_eq_false, if_false, hget, hset, hdel]
  have : str_unknown_cmd.length + 1 = 12 := rfl
  rw [this, if_pos hres]
  rfl


theorem reply_payload_fits (m : Bytes → Option Bytes) (hv : ValsFit m) (cmd : List Bytes) :
    (reply m cmd).2.1.length + 4 ≤ k_max_msg := by
  have hu : str_unknown_cmd.length + 4 ≤ k_max_msg := by decide
  have hn : ([] : Bytes).length + 4 ≤ k_max_msg := by decide
  unfold reply
  split
  · rename_i w k
    split
    · cases hk : m k with
      | none => exact hn
      | some v => exact hv k v hk
    · split
      · exact hn
      · exact hu
  · split
    · exact hn
    · exact hu
  · exact hu

theorem ValsFit.update_some {m : Bytes → Option Bytes} (hv : ValsFit m) (k v : Bytes)
    (h : v.length + 4 ≤ k_max_msg) : ValsFit (Function.update m k (some v)) := by
  intro k' v' h'
  by_cases hk : k' = k
  · subst hk; simp at h'; subst h'; exact h
  · rw [Function.update_noteq hk] at h'; exact hv k' v' h'

theorem ValsFit.update_none {m : Bytes → Option Bytes} (hv : ValsFit m) (k : Bytes) :
    ValsFit (Function.update m k none) := by
  intro k' v' h'
  by_cases hk : k' = k
  · subst hk; simp at h'
  · rw [Function.update_noteq hk] at h'; exact hv k' v' h'

theorem reply_vals_fit (m : Bytes → Option Bytes) (hv : ValsFit m) (cmd : List Bytes)
    (hlen : (encode_req cmd).length ≤ k_max_msg) : ValsFit (reply m cmd).2.2 := by
  unfold reply
  split
  · rename_i w k
    split
    · cases m k <;> exact hv
    · split
      · exact hv.update_none k
      · exact hv
  · rename_i w k v
    split
    · apply hv.update_some
      rw [encode_req_length] at hlen
      simp at hlen
      omega
    · exact hv
  · exact hv

/-- The function `do_request` refines `reply`: on a well-formed store whose values fit, called as
`try_one_request` calls it (`*reslen` is 0, the buffer has room for `k_max_msg - 4`
bytes) on a payload that decodes to `cmd`, it returns 0, leaves the payload of
`reply` at the front of `res` and its length in `*reslen`. -/
theorem do_request_reply (g : KeyValueStore) (m : Bytes → Option Bytes) (hs : StoreInv g m)
    (hv : ValsFit m) (req : Bytes) (reqlen rc : Nat) (res : Bytes) (cmd : List Bytes)
    (hparse : parse_req req reqlen [] = (0, cmd)) (hres : k_max_msg ≤ res.length + 4) :
    ∃ g' res', do_request g req reqlen rc res 0 =
        some (0, g', (reply m cmd).1, res', (reply m cmd).2.1.length) ∧
      res'.take (reply m cmd).2.1.length = (reply m cmd).2.1 ∧ res'.length = res.length ∧
      StoreInv g' (reply m cmd).2.2 := by
  have hk : k_max_msg = 4096 := rfl
  have hunk : ∀ (_ : ¬ (cmd.length = 2 ∧ verb_is (cmd.getD 0 []) str_get))
      (_ : ¬ (cmd.length = 3 ∧ verb_is (cmd.getD 0 []) str_set))
      (_ : ¬ (cmd.length = 2 ∧ verb_is (cmd.getD 0 []) str_del))
      (_ : reply m cmd = (RES_ERR, str_unknown_cmd, m)),
      ∃ g' res', do_request g req reqlen rc res 0 =
        some (0, g', (reply m cmd).1, res', (reply m cmd).2.1.length) ∧
      res'.take (reply m cmd).2.1.length = (reply m cmd).2.1 ∧ res'.length = res.length ∧
      StoreInv g' (reply m cmd).2.2 := by
    intro h1 h2 h3 hr
    rw [hr]
    refine ⟨g, _, do_request_unknown g req reqlen rc res 0 cmd hparse h1 h2 h3 (by omega),
      ?_, ?_, hs⟩
    · rfl
    · simp only [List.length_append, List.length_drop]
      have : str_unknown_cmd.length = 11 := rfl
      simp [this]; omega
  match cmd, hparse with
  | [], hparse => exact hunk (by simp) (by simp) (by simp) rfl
  | [a], hparse => exact hunk (by simp) (by simp) (by simp) rfl
  | a :: b :: c :: d :: t, hparse => exact hunk (by simp) (by simp) (by simp) rfl
  | [w, k, v], hparse =>
    by_cases hw : verb_is w str_set
    · obtain ⟨g', hs', hd⟩ := do_request_set g m hs req reqlen rc res 0 w k v hparse hw
      have hr : reply m [w, k, v] = (RES_OK, [], Function.update m k (some v)) := by
        simp [reply, hw]
      rw [hr]
      exact ⟨g', res, hd, rfl, rfl, hs'⟩
    · exact hunk (by simp) (by simp [hw]) (by simp) (by simp [reply, hw])
  | [w, k], hparse =>
    by_cases hw : verb_is w str_get
    · obtain ⟨g', hs', hd⟩ := do_request_get g m hs req reqlen rc res 0 w k hparse hw
      cases hmk : m k with
      | none =>
        have hr : reply m [w, k] = (RES_NX, [], m) := by simp [reply, hw, hmk]
        rw [hr]
        rw [hmk] at hd
        exact ⟨g', res, hd, rfl, rfl, hs'⟩
      | some v =>
        have hr : reply m [w, k] = (RES_OK, v, m) := by simp [reply, hw, hmk]
        have hvk := hv k v hmk
        rw [hr]
        rw [hmk] at hd
        simp only at hd
        rw [if_pos ⟨by omega, by omega⟩, Nat.mod_eq_of_lt (by omega)] at hd
        refine ⟨g', _, hd, by simp, ?_, hs'⟩
        simp only [List.length_append, List.length_drop]
        omega
    · by_cases hw2 : verb_is w str_del
      · obtain ⟨g', hs', hd⟩ := do_request_del g m hs req reqlen rc res 0 w k hparse hw2
        have hr : reply m [w, k] = (RES_OK, [], Function.update m k none) := by
          simp [reply, hw, hw2]
        rw [hr]
        exact ⟨g', res, hd, rfl, rfl, hs'⟩
      · exact hunk (by simp [hw]) (by simp) (by simp [hw2]) (by simp [reply, hw, hw2])

/-! ## One request -/

theorem try_one_request_short {σ : Type} (send : σ → Bytes → SendRes × σ) (fuel : Nat)
    (conn : Conn) (g : KeyValueStore) (env : σ) (h : conn.rbuf_size < 4) :
    try_one_request send (fuel + 1) conn g env = some (false, conn, g, env) := by
  rw [try_one_request, if_pos h]

theorem try_one_request_too_long {σ : Type} (send : σ → Bytes → SendRes × σ) (fuel : Nat)
    (conn : Conn) (g : KeyValueStore) (env : σ) (h : 4 ≤ conn.rbuf_size)
    (hlen : k_max_msg < read_u32 conn.rbuf 0) :
    try_one_request send (fuel + 1) conn g env =
      some (false, { conn with state := STATE_END }, g, env) := by
  rw [try_one_request, if_neg (by omega)]
  simp only [gt_iff_lt, hlen, if_true]

theorem try_one_request_partial {σ : Type} (send : σ → Bytes → SendRes × σ) (fuel : Nat)
    (conn : Conn) (g : KeyValueStore) (env : σ) (h : 4 ≤ conn.rbuf_size)
    (hlen : read_u32 conn.rbuf 0 ≤ k_max_msg) (hpart : conn.rbuf_size < 4 + read_u32 conn.rbuf 0) :
    try_one_request send (fuel + 1) conn g env = some (false, conn, g, env) := by
  have hk : k_max_msg = 4096 := rfl
  rw [try_one_request, if_neg (by omega)]
  simp only [gt_iff_lt]
  rw [if_neg (by omega), Nat.mod_eq_of_lt (by omega), if_pos hpart]

theorem try_one_request_complete {σ : Type} (send : σ → Bytes → SendRes × σ) (fuel : Nat)
    (conn : Conn) (g : KeyValueStore) (env : σ) (h : 4 ≤ conn.rbuf_size)
    (hlen : read_u32 conn.rbuf 0 ≤ k_max_msg) (hfull : 4 + read_u32 conn.rbuf 0 ≤ conn.rbuf_size) :
    try_one_request send (fuel + 1) conn g env =
      match try_one_request_respond conn g (read_u32 conn.rbuf 0) with
      | none => none
      | some (false, conn, g_data) => some (false, conn, g_data, env)
      | some (true, conn, g_data) =>
        match state_res send fuel conn g_data env with
        | none => none
        | some (conn, g_data, env) => some (conn.state == STATE_REQ, conn, g_data, env) := by
  have hk : k_max_msg = 4096 := rfl
  rw [try_one_request, if_neg (by omega)]
  simp only [gt_iff_lt]
  rw [if_neg (by omega), Nat.mod_eq_of_lt (by omega), if_neg (by omega)]

theorem try_one_request_bad_payload {σ : Type} (send : σ → Bytes → SendRes × σ) (fuel : Nat)
    (conn : Conn) (g : KeyValueStore) (env : σ) (h : 4 ≤ conn.rbuf_size)
    (hlen : read_u32 conn.rbuf 0 ≤ k_max_msg) (hfull : 4 + read_u32 conn.rbuf 0 ≤ conn.rbuf_size)
    (hbad : (parse_req (conn.rbuf.drop 4) (read_u32 conn.rbuf 0) []).1 ≠ 0) :
    try_one_request send (fuel + 1) conn g env =
      some (false, { conn with state := STATE_END }, g, env) := by
  rw [try_one_request_complete send fuel conn g env h hlen hfull]
  unfold try_one_request_respond
  rw [do_request_bad _ _ _ _ _ _ hbad]
  simp only [ne_eq, Int.reduceNeg, neg_eq_zero, one_ne_zero, not_false_eq_true, if_true,
    List.take_append_drop]


theorem take_memmove (rbuf : Bytes) (off remaining : Nat) (h : off + remaining ≤ rbuf.length) :
    ((if remaining ≠ 0 then (rbuf.drop off).take remaining ++ rbuf.drop remaining
      else rbuf).take remaining = (rbuf.drop off).take remaining) ∧
    (if remaining ≠ 0 then (rbuf.drop off).take remaining ++ rbuf.drop remaining
      else rbuf).length = rbuf.length := by
  by_cases hr : remaining = 0
  · subst hr; simp
  · simp only [ne_eq, hr, not_false_eq_true, if_true]
    have hl : ((rbuf.drop off).take remaining).length = remaining := by
      rw [List.length_take, List.length_drop]; omega
    constructor
    · rw [List.take_append_of_le_length (by omega), List.take_of_length_le (by omega)]
    · rw [List.length_append, hl, List.length_drop]; omega

theorem frame_in_wbuf (hdr1 hdr2 T res : Bytes) (h1 : hdr1.length = 4) (hT : T.length = 8) :
    List.take 4 (hdr1 ++ List.drop 4 (T ++ res)) ++ hdr2 ++ List.drop 8 (hdr1 ++ List.drop 4 (T ++ res))
      = hdr1 ++ hdr2 ++ res := by
  have e1 : List.drop 4 (T ++ res) = T.drop 4 ++ res :=
    List.drop_append_of_le_length (by omega)
  rw [e1, List.take_left' h1, ← List.append_assoc hdr1]
  rw [List.drop_left' (by rw [List.length_append, h1, List.length_drop, hT])]

theorem try_one_request_respond_spec (conn : Conn) (hwf : conn.WF) (g : KeyValueStore)
    (m : Bytes → Option Bytes) (hs : StoreInv g m) (hv : ValsFit m) (len : Nat)
    (hfull : 4 + len ≤ conn.rbuf_size) (cmd : List Bytes)
    (hparse : parse_req (conn.rbuf.drop 4) len [] = (0, cmd)) :
    ∃ conn' g', try_one_request_respond conn g len = some (true, conn', g') ∧
      StoreInv g' (reply m cmd).2.2 ∧ conn'.WF ∧ conn'.state = STATE_RES ∧
      conn'.wbuf_sent = conn.wbuf_sent ∧ conn'.fd = conn.fd ∧
      conn'.wbuf_size = 4 + (4 + (reply m cmd).2.1.length) ∧
      conn'.staged = response_frame (reply m cmd).1 (reply m cmd).2.1 ∧
      conn'.rbuf_size = conn.rbuf_size - 4 - len ∧
      conn'.pending = conn.pending.drop (4 + len) := by
  have hk : k_max_msg = 4096 := rfl
  have hrl := hwf.rbuf_len
  have hwl := hwf.wbuf_len
  have hrs := hwf.rbuf_size_le
  obtain ⟨g', res', hd, htake, hlen', hs'⟩ :=
    do_request_reply g m hs hv (conn.rbuf.drop 4) len 0 (conn.wbuf.drop (4 + 4)) cmd hparse
      (by rw [List.length_drop]; omega)
  have hfit := reply_payload_fits m hv cmd
  have hres'len : res'.length = k_max_msg - 4 := by
    rw [hlen', List.length_drop]; omega
  have hw1 : (conn.wbuf.take (4 + 4) ++ res').length = 4 + k_max_msg := by
    rw [List.length_append, List.length_take, hres'len]; omega
  have hmem := take_memmove conn.rbuf (4 + len) (conn.rbuf_size - 4 - len) (by omega)
  unfold try_one_request_respond
  rw [hd]
  simp only [ne_eq, not_true_eq_false, if_false]
  rw [if_pos (by omega)]
  have e1 : ((reply m cmd).2.1.length + 4) % 2 ^ 32 = (reply m cmd).2.1.length + 4 :=
    Nat.mod_eq_of_lt (by omega)
  have e2 : (4 + ((reply m cmd).2.1.length + 4)) % 2 ^ 32 = 4 + (4 + (reply m cmd).2.1.length) := by
    rw [Nat.mod_eq_of_lt (by omega)]; omega
  simp only [e1, e2]
  have hW : List.take 4 (enc_u32 ((reply m cmd).2.1.length + 4) ++
        List.drop 4 (List.take (4 + 4) conn.wbuf ++ res')) ++ enc_u32 (reply m cmd).1 ++
      List.drop 8 (enc_u32 ((reply m cmd).2.1.length + 4) ++
        List.drop 4 (List.take (4 + 4) conn.wbuf ++ res'))
      = enc_u32 (4 + (reply m cmd).2.1.length) ++ enc_u32 (reply m cmd).1 ++ res' := by
    rw [frame_in_wbuf _ _ _ _ (enc_u32_length _) (by rw [List.length_take]; omega), Nat.add_comm]
  rw [hW]
  refine ⟨_, g', rfl, hs', ⟨?_, ?_, ?_⟩, rfl, rfl, rfl, rfl, ?_, rfl, ?_⟩
  · exact hmem.2.trans hrl
  · simp only [List.length_append, enc_u32_length, hres'len]
    omega
  · simp only; omega
  · simp only [Conn.staged]
    rw [response_frame, List.take_append_eq_append_take]
    simp only [List.length_append, enc_u32_length]
    rw [List.take_of_length_le (by simp only [List.length_append, enc_u32_length]; omega)]
    congr 1
    rw [show 4 + (4 + (reply m cmd).2.1.length) - (4 + 4) = (reply m cmd).2.1.length from by
      omega]
    exact htake
  · simp only [Conn.pending]
    rw [hmem.1, List.drop_take]
    congr 1
    omega


theorem length_le_sum_of_mem (cmd : List Bytes) (a : Bytes) (h : a ∈ cmd) :
    a.length ≤ (cmd.map List.length).sum := by
  induction cmd with
  | nil => simp at h
  | cons b cmd ih =>
    simp only [List.map_cons, List.sum_cons]
    rcases List.mem_cons.1 h with h1 | h1
    · subst h1; omega
    · have := ih h1; omega

theorem Conn.pending_length (conn : Conn) (hwf : conn.WF) :
    conn.pending.length = conn.rbuf_size := by
  have := hwf.rbuf_len
  have := hwf.rbuf_size_le
  rw [Conn.pending, List.length_take]
  omega

theorem frame_at_head (conn : Conn) (hwf : conn.WF) (cmd : List Bytes) (rest : Bytes)
    (hp : conn.pending = request_frame cmd ++ rest)
    (hlen : (encode_req cmd).length ≤ k_max_msg) :
    4 ≤ conn.rbuf_size ∧ read_u32 conn.rbuf 0 = (encode_req cmd).length ∧
      4 + (encode_req cmd).length ≤ conn.rbuf_size ∧
      parse_req (conn.rbuf.drop 4) (encode_req cmd).length [] = (0, cmd) ∧
      conn.pending.drop (4 + (encode_req cmd).length) = rest := by
  have hk : k_max_msg = 4096 := rfl
  have hka : k_max_args = 1024 := rfl
  have hpl := conn.pending_length hwf
  have hfl : (request_frame cmd).length = 4 + (encode_req cmd).length := by
    simp [request_frame, enc_u32_length]
  have hsz : conn.rbuf_size = 4 + (encode_req cmd).length + rest.length := by
    rw [← hpl, hp, List.length_append, hfl]
  obtain ⟨junk, hrb⟩ : ∃ junk, conn.rbuf = enc_u32 (encode_req cmd).length ++ encode_req cmd ++
      (rest ++ junk) := by
    refine ⟨conn.rbuf.drop conn.rbuf_size, ?_⟩
    conv_lhs => rw [← List.take_append_drop conn.rbuf_size conn.rbuf]
    show conn.pending ++ _ = _
    rw [hp, request_frame]
    simp only [List.append_assoc]
  have hel := encode_req_length cmd
  refine ⟨by omega, ?_, by omega, ?_, ?_⟩
  · have := read_u32_enc [] (encode_req cmd ++ (rest ++ junk))
      (encode_req cmd).length (by omega)
    rw [hrb]
    simpa [List.append_assoc] using this
  · have hd4 : conn.rbuf.drop 4 = encode_req cmd ++ (rest ++ junk) := by
      rw [hrb, List.append_assoc]
      exact List.drop_left' (enc_u32_length _)
    rw [hd4]
    apply parse_req_of_prefix
    · omega
    · intro a ha
      have := length_le_sum_of_mem cmd a ha
      omega
  · rw [hp, ← hfl]
    exact List.drop_left _ _

theorem try_one_request_served (conn : Conn) (hwf : conn.WF) (g : KeyValueStore)
    (m : Bytes → Option Bytes) (hs : StoreInv g m) (hv : ValsFit m) (cmd : List Bytes)
    (rest : Bytes) (hp : conn.pending = request_frame cmd ++ rest)
    (hlen : (encode_req cmd).length ≤ k_max_msg) :
    ∃ conn' g', try_one_request_respond conn g (read_u32 conn.rbuf 0) = some (true, conn', g') ∧
      (∀ (σ : Type) (send : σ → Bytes → SendRes × σ) (fuel : Nat) (env : σ),
        try_one_request send (fuel + 1) conn g env =
          (state_res send fuel conn' g' env).map (fun r => (r.1.state == STATE_REQ, r))) ∧
      StoreInv g' (reply m cmd).2.2 ∧ conn'.WF ∧ conn'.state = STATE_RES ∧
      conn'.wbuf_sent = conn.wbuf_sent ∧
      conn'.wbuf_size = 4 + (4 + (reply m cmd).2.1.length) ∧
      conn'.staged = response_frame (reply m cmd).1 (reply m cmd).2.1 ∧
      conn'.pending = rest := by
  obtain ⟨h4, hrd, hfull, hparse, hrest⟩ := frame_at_head conn hwf cmd rest hp hlen
  obtain ⟨conn', g', hresp, hs', hwf', hst, hsent, _, hsize, hstaged, _, hpend⟩ :=
    try_one_request_respond_spec conn hwf g m hs hv _ hfull cmd hparse
  rw [← hrd] at hresp
  refine ⟨conn', g', hresp, ?_, hs', hwf', hst, hsent, hsize, hstaged, by rw [hpend, hrest]⟩
  intro σ send fuel env
  rw [try_one_request_complete send fuel conn g env h4 (by rw [hrd]; exact hlen)
    (by rw [hrd]; exact hfull), hresp]
  simp only
  cases state_res send fuel conn' g' env with
  | none => rfl
  | some r => rfl

theorem state_res_send_all (fuel : Nat) (conn : Conn) (g : KeyValueStore) (trace : Bytes)
    (h0 : conn.wbuf_sent = 0) (hpos : 0 < conn.wbuf_size) (hle : conn.wbuf_size ≤ conn.wbuf.length) :
    state_res send_all (fuel + 2) conn g trace =
      state_req send_all fuel { conn with state := STATE_REQ, wbuf_sent := 0, wbuf_size := 0 } g
        (trace ++ conn.staged) := by
  have hl : (List.take conn.wbuf_size conn.wbuf).length = conn.wbuf_size := by
    rw [List.length_take]; omega
  rw [state_res, if_pos (by omega), h0]
  simp only [List.drop_zero, Nat.sub_zero, send_all, Nat.zero_add, hl]
  rw [state_res, if_neg (by simp), if_pos (by simp)]
  rfl

theorem try_one_request_idle {σ : Type} (send : σ → Bytes → SendRes × σ) (fuel : Nat)
    (conn : Conn) (hwf : conn.WF) (g : KeyValueStore) (env : σ) (h : incomplete conn.pending) :
    try_one_request send (fuel + 1) conn g env = some (false, conn, g, env) := by
  have hpl := conn.pending_length hwf
  unfold incomplete at h
  rw [hpl] at h
  by_cases h4 : conn.rbuf_size < 4
  · exact try_one_request_short send fuel conn g env h4
  · have hrd : read_u32 conn.pending 0 = read_u32 conn.rbuf 0 := by
      apply read_u32_eq_of_take
      · simp only [List.drop_zero, Conn.pending]
        rw [List.take_take, Nat.min_eq_left (by omega)]
      · rw [hpl]; omega
    rw [hrd] at h
    rcases h with h | ⟨h1, h2⟩
    · omega
    · exact try_one_request_partial send fuel conn g env (by omega) h1 h2

theorem state_req_idle {σ : Type} (send : σ → Bytes → SendRes × σ) (fuel : Nat)
    (conn : Conn) (hwf : conn.WF) (g : KeyValueStore) (env : σ) (h : incomplete conn.pending) :
    state_req send (fuel + 2) conn g env = some (conn, g, env) := by
  rw [state_req, try_one_request_idle send fuel conn hwf g env h]


theorem try_one_request_send_all (fuel : Nat) (conn : Conn) (hwf : conn.WF) (g : KeyValueStore)
    (m : Bytes → Option Bytes) (hs : StoreInv g m) (hv : ValsFit m) (cmd : List Bytes)
    (rest trace : Bytes) (hp : conn.pending = request_frame cmd ++ rest)
    (hlen : (encode_req cmd).length ≤ k_max_msg) (hsent : conn.wbuf_sent = 0) :
    ∃ conn' g', StoreInv g' (reply m cmd).2.2 ∧ conn'.WF ∧ conn'.state = STATE_REQ ∧
      conn'.wbuf_sent = 0 ∧ conn'.wbuf_size = 0 ∧ conn'.pending = rest ∧
      try_one_request send_all (fuel + 3) conn g trace =
        (state_req send_all fuel conn' g'
          (trace ++ response_frame (reply m cmd).1 (reply m cmd).2.1)).map
          (fun r => (r.1.state == STATE_REQ, r)) := by
  have hk : k_max_msg = 4096 := rfl
  obtain ⟨conn', g', _, htry, hs', hwf', _, hsent', hsize', hstaged, hpend⟩ :=
    try_one_request_served conn hwf g m hs hv cmd rest hp hlen
  have hfit := reply_payload_fits m hv cmd
  have hwl := hwf'.wbuf_len
  refine ⟨{ conn' with state := STATE_REQ, wbuf_sent := 0, wbuf_size := 0 }, g', hs',
    ⟨hwf'.rbuf_len, hwf'.wbuf_len, hwf'.rbuf_size_le⟩, rfl, rfl, rfl, hpend, ?_⟩
  rw [htry Bytes send_all (fuel + 2) trace,
    state_res_send_all fuel conn' g' trace (by rw [hsent', hsent]) (by omega) (by omega), hstaged]

theorem state_req_pipelined (cmds : List (List Bytes)) (conn : Conn) (hwf : conn.WF)
    (g : KeyValueStore) (m : Bytes → Option Bytes) (hs : StoreInv g m) (hv : ValsFit m)
    (tail trace : Bytes) (fuel : Nat)
    (hp : conn.pending = (cmds.map request_frame).flatten ++ tail)
    (hlen : ∀ cmd ∈ cmds, (encode_req cmd).length ≤ k_max_msg) (htail : incomplete tail)
    (hstate : conn.state = STATE_REQ) (hsent : conn.wbuf_sent = 0) (hsize : conn.wbuf_size = 0)
    (hfuel : 4 * cmds.length + 2 ≤ fuel) :
    ∃ conn' g', state_req send_all fuel conn g trace =
        some (conn', g', trace ++ (response_frames m cmds).flatten) ∧
      conn'.WF ∧ conn'.state = STATE_REQ ∧ conn'.wbuf_size = 0 ∧ conn'.wbuf_sent = 0 ∧
      conn'.pending = tail ∧ StoreInv g' (reply_all m cmds) ∧ ValsFit (reply_all m cmds) := by
  induction cmds generalizing conn g m trace fuel with
  | nil =>
    obtain ⟨f, rfl⟩ : ∃ f, fuel = f + 2 := ⟨fuel - 2, by omega⟩
    simp only [List.map_nil, List.flatten_nil, List.nil_append] at hp
    refine ⟨conn, g, ?_, hwf, hstate, hsize, hsent, hp, hs, hv⟩
    rw [state_req_idle send_all f conn hwf g trace (by rw [hp]; exact htail)]
    simp [response_frames]
  | cons cmd cmds ih =>
    obtain ⟨f, rfl⟩ : ∃ f, fuel = f + 4 := ⟨fuel - 4, by simp at hfuel; omega⟩
    have hf : 4 * cmds.length + 2 ≤ f := by simp at hfuel; omega
    have hp' : conn.pending = request_frame cmd ++ ((cmds.map request_frame).flatten ++ tail) := by
      rw [hp]; simp [List.append_assoc]
    have hl1 := hlen cmd (List.mem_cons_self _ _)
    obtain ⟨conn1, g1, hs1, hwf1, hst1, hsent1, hsize1, hpend1, htry⟩ :=
      try_one_request_send_all f conn hwf g m hs hv cmd _ trace hp' hl1 hsent
    have hv1 : ValsFit (reply m cmd).2.2 := reply_vals_fit m hv cmd hl1
    obtain ⟨conn2, g2, hrun, hwf2, hst2, hsize2, hsent2, hpend2, hs2, hv2⟩ :=
      ih conn1 hwf1 g1 _ hs1 hv1 (trace ++ response_frame (reply m cmd).1 (reply m cmd).2.1) f
        hpend1 (fun c hc => hlen c (List.mem_cons_of_mem _ hc)) hst1 hsent1 hsize1 hf
    refine ⟨conn2, g2, ?_, hwf2, hst2, hsize2, hsent2, hpend2, hs2, hv2⟩
    rw [state_req, htry, hrun]
    simp only [Option.map_some', hst2, beq_self_eq_true]
    rw [state_req_idle send_all (f + 1) conn2 hwf2 g2 _ (by rw [hpend2]; exact htail)]
    simp [response_frames, List.append_assoc]

theorem response_frames_length (m : Bytes → Option Bytes) (cmds : List (List Bytes)) :
    (response_frames m cmds).length = cmds.length := by
  induction cmds generalizing m with
  | nil => rfl
  | cons cmd cmds ih => simp [response_frames, ih]

/-! ## Fresh connections -/

theorem conn_with_input_wf (input : Bytes) (h : input.length ≤ 4 + k_max_msg) :
    (conn_with_input input).WF := by
  refine ⟨?_, ?_, ?_⟩
  · simp only [conn_with_input, List.length_append, List.length_replicate]; omega
  · simp only [conn_with_input, List.length_replicate]
  · exact h

theorem conn_with_input_pending (input : Bytes) : (conn_with_input input).pending = input := by
  simp only [Conn.pending, conn_with_input]
  exact List.take_left _ _

theorem incomplete_nil : incomplete [] := Or.inl (by decide)

theorem ValsFit_empty : ValsFit (fun _ => none) := by
  intro k v h; simp at h

/-- A single request served with `send_all` on a fresh connection: what
`try_one_request` returns. -/
theorem try_one_request_fresh (cmd : List Bytes) (hlen : (encode_req cmd).length ≤ k_max_msg) :
    ∃ conn' g', try_one_request send_all 5 (conn_with_input (request_frame cmd)) {} [] =
        some (true, conn', g',
          response_frame (reply (fun _ => none) cmd).1 (reply (fun _ => none) cmd).2.1) ∧
      conn'.state = STATE_REQ ∧ conn'.wbuf_size = 0 := by
  have hk : k_max_msg = 4096 := rfl
  have hfl : (request_frame cmd).length = 4 + (encode_req cmd).length := by
    simp [request_frame, enc_u32_length]
  have hwf := conn_with_input_wf (request_frame cmd) (by omega)
  obtain ⟨conn', g', _, hwf', hst, hsent, hsize, hpend, htry⟩ :=
    try_one_request_send_all 2 (conn_with_input (request_frame cmd)) hwf {} (fun _ => none)
      StoreInv.empty ValsFit_empty cmd [] [] (by rw [conn_with_input_pending]; simp) hlen rfl
  refine ⟨conn', g', ?_, hst, hsize⟩
  rw [htry, state_req_idle send_all 0 conn' hwf' g' _ (by rw [hpend]; exact incomplete_nil)]
  simp [hst]


theorem reply_status (m : Bytes → Option Bytes) (cmd : List Bytes) :
    (reply m cmd).1 = RES_OK ∨ (reply m cmd).1 = RES_ERR ∨ (reply m cmd).1 = RES_NX := by
  unfold reply
  split
  · split
    · split <;> simp
    · split <;> simp
  · split <;> simp
  · simp

theorem encode_req_single_length (v : Bytes) (h : v.length = 4088) :
    (encode_req [v]).length = k_max_msg := by
  rw [encode_req_length]
  simp [h, k_max_msg]

/-! ## The migration loop, node by node -/

section
variable {α : Type}

/-- One run of the migration loop, with the list of nodes it moves: it moves exactly
`min (k_resizing_work - nwork) ht2.size` nodes from `ht2` to `ht1`, leaves every other
node where it was, and the cursor only advances, never past the last bucket. -/
theorem hm_help_resizing_loop_moved (fuel nwork : Nat) (m : HMap α) (hm : MapInv m)
    (hfuel : (k_resizing_work - nwork) + (m.ht2.nbuckets - m.resizing_pos) + 1 ≤ fuel) :
    ∃ m' moved, hm_help_resizing_loop fuel nwork m = some m' ∧ MapInv m' ∧
      moved.length = min (k_resizing_work - nwork) m.ht2.size ∧
      m'.ht1.nodes.Perm (moved ++ m.ht1.nodes) ∧ m.ht2.nodes.Perm (moved ++ m'.ht2.nodes) ∧
      m'.ht1.mask = m.ht1.mask ∧ m'.ht2.mask = m.ht2.mask ∧
      m'.ht1.tab.isSome = m.ht1.tab.isSome ∧ m'.ht2.tab.isSome = m.ht2.tab.isSome ∧
      m.resizing_pos ≤ m'.resizing_pos ∧
      (m'.resizing_pos = m.resizing_pos ∨ m'.resizing_pos < m.ht2.nbuckets) ∧
      (m.ht2.size = 0 → m' = m) := by
  induction fuel generalizing nwork m with
  | zero => omega
  | succ fuel ih =>
    by_cases hcond : nwork < k_resizing_work ∧ m.ht2.size > 0
    · obtain ⟨tab2, h2⟩ := hm.t2.tab_isSome_of_size_pos hcond.2
      have hlt := hm.cursor_lt tab2 h2 hcond.2
      have hnb : m.ht2.nbuckets = tab2.length := by simp [HTab.nbuckets, h2]
      obtain ⟨c, hc⟩ : ∃ c, tab2[m.resizing_pos]? = some c :=
        ⟨tab2[m.resizing_pos], List.getElem?_eq_getElem hlt⟩
      cases c with
      | nil =>
        have hstep : hm_help_resizing_loop (fuel + 1) nwork m =
            hm_help_resizing_loop fuel nwork { m with resizing_pos := m.resizing_pos + 1 } := by
          rw [hm_help_resizing_loop, if_pos hcond]
          simp only [h2, hc]
        have hm' : MapInv ({ m with resizing_pos := m.resizing_pos + 1 } : HMap α) := by
          refine ⟨hm.t1, hm.t2, hm.init1, ?_⟩
          intro tab h i chain hi hch
          simp only at h hi
          rw [h2] at h
          simp at h
          subst h
          by_cases hip : i = m.resizing_pos
          · subst hip
            rw [hc] at hch
            simpa using hch.symm
          · exact hm.drained tab2 h2 i chain (by omega) hch
        have hnb' : ({ m with resizing_pos := m.resizing_pos + 1 } : HMap α).ht2.nbuckets
            = tab2.length := hnb
        have hlt' : m.resizing_pos + 1 < tab2.length := hm'.cursor_lt tab2 h2 hcond.2
        obtain ⟨m', moved, h1, h2', h3, h4, h5, h6, h7, h8, h9, h10, h11, _⟩ :=
          ih nwork _ hm' (by
            rw [hnb']
            rw [hnb] at hfuel
            show _ + (tab2.length - (m.resizing_pos + 1)) + 1 ≤ fuel
            omega)
        rw [hstep]
        refine ⟨m', moved, h1, h2', h3, h4, h5, h6, h7, h8, h9, by simp only at h10; omega,
          ?_, by intro h0; omega⟩
        rw [hnb'] at h11
        rw [hnb]
        simp only at h11
        omega
      | cons n c' =>
        obtain ⟨ht2', hdet, hinv2, hperm2, hmask2, hsz2, htab2'⟩ :=
          h_detach_spec hm.t2 tab2 h2 (m.resizing_pos, 0) (n :: c') n hc (by simp)
        obtain ⟨tab1, h1⟩ : ∃ tab1, m.ht1.tab = some tab1 := by
          have := hm.init1 (by simp [h2])
          exact Option.isSome_iff_exists.1 this
        obtain ⟨ht1', hins, hinv1, hperm1, hmask1, _, c1, _, htab1'⟩ :=
          h_insert_spec hm.t1 tab1 h1 n
        have hstep : hm_help_resizing_loop (fuel + 1) nwork m =
            hm_help_resizing_loop fuel (nwork + 1) { m with ht1 := ht1', ht2 := ht2' } := by
          rw [hm_help_resizing_loop, if_pos hcond]
          simp only [h2, hc, hdet, hins]
        have hm' : MapInv ({ m with ht1 := ht1', ht2 := ht2' } : HMap α) := by
          refine ⟨hinv1, hinv2, ?_, ?_⟩
          · intro _; simp [htab1']
          · intro tab h i chain hi hch
            simp only at h hi
            rw [htab2'] at h
            simp at h
            subst h
            rw [List.getElem?_set, if_neg (by omega)] at hch
            exact hm.drained tab2 h2 i chain hi hch
        have hnb' : ({ m with ht1 := ht1', ht2 := ht2' } : HMap α).ht2.nbuckets
            = tab2.length := by
          simp [HTab.nbuckets, htab2']
        obtain ⟨m', moved, r1, r2, r3, r4, r5, r6, r7, r8, r9, r10, r11, _⟩ :=
          ih (nwork + 1) _ hm' (by
            rw [hnb']
            rw [hnb] at hfuel
            have := hcond.1
            show _ + (tab2.length - m.resizing_pos) + 1 ≤ fuel
            omega)
        rw [hstep]
        refine ⟨m', moved ++ [n], r1, r2, ?_, ?_, ?_, ?_, ?_, ?_, ?_, r10, ?_,
          by intro h0; omega⟩
        · simp only at r3
          have := hcond.1
          rw [List.length_append, r3]
          simp only [List.length_singleton]
          omega
        · refine r4.trans ?_
          simp only [List.append_assoc, List.singleton_append]
          exact hperm1.append_left _
        · refine hperm2.trans ?_
          simp only [List.append_assoc, List.singleton_append]
          exact (r5.cons n).trans List.perm_middle.symm
        · rw [r6]; exact hmask1
        · rw [r7]; exact hmask2
        · rw [r8]; simp [h1, htab1']
        · rw [r9]; simp [h2, htab2']
        · rw [hnb'] at r11
          rw [hnb]
          exact r11
    · rw [hm_help_resizing_loop, if_neg hcond]
      refine ⟨m, [], rfl, hm, ?_, by simp, by simp, rfl, rfl, rfl, rfl, le_refl _, Or.inl rfl,
        fun _ => rfl⟩
      simp only [List.length_nil]
      have : ¬ nwork < k_resizing_work ∨ m.ht2.size = 0 := by
        by_cases h : nwork < k_resizing_work
        · right
          by_contra h0
          exact hcond ⟨h, by omega⟩
        · exact Or.inl h
      rcases this with h | h
      · have : k_resizing_work - nwork = 0 := by omega
        rw [this]; simp
      · rw [h]; simp

theorem TabInv.size_of_perm {t t' : HTab α} (ht : TabInv t) (ht' : TabInv t')
    (l : List (HNode α)) (h : t'.nodes.Perm (l ++ t.nodes)) : t'.size = t.size + l.length := by
  rw [ht.size, ht'.size, h.length_eq, List.length_append]
  omega

theorem TabInv.mem_bucket {t : HTab α} (ht : TabInv t) (n : HNode α) (hn : n ∈ t.nodes) :
    ∃ tab chain, t.tab = some tab ∧ tab[n.hcode &&& t.mask]? = some chain ∧ n ∈ chain := by
  obtain h | ⟨tab, h⟩ : t.tab = none ∨ ∃ tab, t.tab = some tab := by
    cases t.tab <;> simp
  · rw [HTab.nodes_none t h] at hn
    simp at hn
  · rw [HTab.nodes_some t tab h] at hn
    obtain ⟨c, hcmem, hnc⟩ := List.mem_flatten.1 hn
    obtain ⟨i, hi⟩ := List.mem_iff_getElem?.1 hcmem
    have := ht.bucket tab h i c hi n hnc
    exact ⟨tab, c, h, this ▸ hi, hnc⟩

/-- The effect of one call of `hm_help_resizing` on a well-formed map. -/
theorem hm_help_resizing_effect (m : HMap α) (hm : MapInv m) :
    ∃ m' moved, hm_help_resizing m = some m' ∧ MapInv m' ∧
      moved.length = min k_resizing_work m.ht2.size ∧
      m'.ht1.nodes.Perm (moved ++ m.ht1.nodes) ∧ m.ht2.nodes.Perm (moved ++ m'.ht2.nodes) ∧
      m'.ht1.size = m.ht1.size + moved.length ∧ m'.ht2.size + moved.length = m.ht2.size ∧
      m'.ht1.mask = m.ht1.mask ∧ m'.ht1.tab.isSome = m.ht1.tab.isSome ∧
      (m'.ht2.size = 0 → m.ht2.tab.isSome → m'.ht2 = {}) ∧
      (0 < m'.ht2.size → m'.ht2.mask = m.ht2.mask ∧ m'.ht2.tab.isSome) ∧
      (m.ht2.tab = none → m' = m) ∧
      m.resizing_pos ≤ m'.resizing_pos ∧
      (m'.resizing_pos = m.resizing_pos ∨ m'.resizing_pos < m.ht2.nbuckets) := by
  obtain ⟨m1, moved, h1, hinv, hlen, hp1, hp2, hmask1, hmask2, htab1, htab2, hpos, hpos', hid⟩ :=
    hm_help_resizing_loop_moved (k_resizing_work + m.ht2.nbuckets + 1) 0 m hm (by omega)
  have hs1 := hm.t1.size_of_perm hinv.t1 moved hp1
  have hs2 : m.ht2.size = m1.ht2.size + moved.length := by
    rw [hm.t2.size, hinv.t2.size, hp2.length_eq, List.length_append]
    omega
  unfold hm_help_resizing
  rw [h1]
  simp only
  by_cases hdone : m1.ht2.size = 0 ∧ m1.ht2.tab.isSome
  · rw [if_pos hdone]
    have hnil : m1.ht2.nodes = [] := by
      have := hinv.t2.size
      rw [hdone.1] at this
      exact List.length_eq_zero.1 this.symm
    refine ⟨_, moved, rfl, ⟨hinv.t1, TabInv_empty, ?_, ?_⟩, hlen, hp1, ?_, hs1, ?_, hmask1,
      htab1, fun _ _ => rfl, ?_, ?_, hpos, hpos'⟩
    · intro h; simp at h
    · intro tab h; simp at h
    · rw [hnil] at hp2
      exact hp2
    · show 0 + moved.length = m.ht2.size
      omega
    · intro h
      simp at h
    · intro h
      rw [htab2, h] at hdone
      simp at hdone
  · rw [if_neg hdone]
    refine ⟨m1, moved, rfl, hinv, hlen, hp1, hp2, hs1, hs2.symm, hmask1, htab1, ?_, ?_, ?_,
      hpos, hpos'⟩
    · intro h0 hs
      exact absurd ⟨h0, htab2 ▸ hs⟩ hdone
    · intro h
      refine ⟨hmask2, ?_⟩
      obtain ⟨tab, ht⟩ := hinv.t2.tab_isSome_of_size_pos h
      simp [ht]
    · intro h
      apply hid
      have := hm.t2.size
      rw [HTab.nodes_none _ h] at this
      simpa using this

end
/-! ## Load factor and resize bookkeeping -/

section
variable {α : Type}

/-- On a map with no resize in flight, `hm_help_resizing` changes nothing. -/
theorem hm_help_resizing_idle (m : HMap α) (hm : MapInv m) (h : m.ht2.tab = none) :
    hm_help_resizing m = some m := by
  obtain ⟨m', _, h1, _, _, _, _, _, _, _, _, _, _, hid, _⟩ := hm_help_resizing_effect m hm
  rw [h1, hid h]

/-- The three ways of `hm_insert`: everything it does before the final call of
`hm_help_resizing`. -/
theorem hm_insert_cases (m : HMap α) (hm : MapInv m) (node : HNode α) :
    ∃ mB, hm_insert m node = hm_help_resizing mB ∧ MapInv mB ∧
      ((m.ht1.tab = none ∧ m.ht2.tab = none ∧
          mB = { m with ht1 := { tab := some ((List.replicate 4 []).set (node.hcode &&& 3) [node]),
                                 mask := 3, size := 1 } }) ∨
       (∃ tab ht1', m.ht1.tab = some tab ∧ h_insert m.ht1 node = some ht1' ∧
          ht1'.mask = m.ht1.mask ∧ ht1'.size = m.ht1.size + 1 ∧ ht1'.tab.isSome ∧
          ((m.ht2.tab = none ∧ k_max_load_factor * tab.length ≤ m.ht1.size + 1 ∧
              mB = { ht1 := { tab := some (List.replicate (2 * tab.length) []),
                              mask := 2 * tab.length - 1, size := 0 },
                     ht2 := ht1', resizing_pos := 0 }) ∨
           (m.ht2.tab = none ∧ m.ht1.size + 1 < k_max_load_factor * tab.length ∧
              mB = { m with ht1 := ht1' }) ∨
           (m.ht2.tab.isSome ∧ mB = { m with ht1 := ht1' })))) := by
  obtain ht | ⟨tab, ht⟩ : m.ht1.tab = none ∨ ∃ tab, m.ht1.tab = some tab := by
    cases m.ht1.tab <;> simp
  · -- uninitialised map
    have h2 : m.ht2.tab = none := by
      cases h : m.ht2.tab with
      | none => rfl
      | some t =>
        have := hm.init1 (by simp [h])
        simp [ht] at this
    have h4 : (h_init 4 : Option (HTab α)) = _ := h_init_pow2 2
    have hinvT := @TabInv_init α 2
    obtain ⟨ht1', hins, hinv1, _, hmask1, hsize1, c1, hc1, htab1'⟩ :=
      h_insert_spec hinvT _ rfl node
    have hc1' : c1 = [] := by
      simp only [List.getElem?_replicate] at hc1
      split at hc1
      · simpa using hc1.symm
      · simp at hc1
    have e : ht1' = { tab := some ((List.replicate 4 []).set (node.hcode &&& 3) [node]),
                      mask := 3, size := 1 } := by
      cases ht1' with
      | mk t k s =>
        simp only at hmask1 hsize1 htab1'
        subst hc1'
        simp [hmask1, hsize1, htab1']
    subst e
    refine ⟨{ m with ht1 := { tab := some ((List.replicate 4 []).set (node.hcode &&& 3) [node]),
                              mask := 3, size := 1 } }, ?_,
      ⟨hinv1, hm.t2, by intro _; rfl, hm.drained⟩, Or.inl ⟨ht, h2, rfl⟩⟩
    unfold hm_insert
    rw [ht, h4]
    simp only [Option.isNone_none, if_true, Option.map_some']
    rw [hins]
    simp only [h2, Option.isNone_none, if_true]
    have : ¬ (1 / (3 + 1) ≥ k_max_load_factor) := by decide
    rw [if_neg this]
  · obtain ⟨ht1', hins, hinv1, _, hmask1, hsize1, c1, _, htab1'⟩ :=
      h_insert_spec hm.t1 tab ht node
    have hlen := hm.t1.len tab ht
    have hinvA : MapInv ({ m with ht1 := ht1' } : HMap α) :=
      ⟨hinv1, hm.t2, by intro _; simp [htab1'], hm.drained⟩
    by_cases h2 : m.ht2.tab = none
    · by_cases htrig : ht1'.size / (ht1'.mask + 1) ≥ k_max_load_factor
      · obtain ⟨k, hk⟩ := hinv1.pow _ htab1'
        have hinit : (h_init ((ht1'.mask + 1) * 2) : Option (HTab α)) =
            some { tab := some (List.replicate (2 ^ (k + 1)) []), mask := 2 ^ (k + 1) - 1,
                   size := 0 } := by
          rw [hk, ← pow_succ]
          exact h_init_pow2 (k + 1)
        have e2 : 2 * tab.length = 2 ^ (k + 1) := by
          rw [hlen, ← hmask1, hk, pow_succ]
          omega
        rw [← e2] at hinit
        refine ⟨{ ht1 := { tab := some (List.replicate (2 * tab.length) []),
                           mask := 2 * tab.length - 1, size := 0 },
                  ht2 := ht1', resizing_pos := 0 }, ?_, ⟨?_, hinv1, by simp, ?_⟩,
          Or.inr ⟨tab, ht1', ht, hins, hmask1, hsize1, by simp [htab1'],
            Or.inl ⟨h2, ?_, rfl⟩⟩⟩
        · unfold hm_insert
          simp only [ht, Option.isNone_some, Bool.false_eq_true, if_false, hins]
          simp [h2, htrig, hm_start_resizing, hinit]
        · rw [e2]
          exact TabInv_init (k + 1)
        · intro tab _ i chain hi _
          simp at hi
        · have hpos : 0 < ht1'.mask + 1 := by omega
          have := (Nat.le_div_iff_mul_le hpos).1 htrig
          rw [hlen, ← hmask1, ← hsize1]
          exact this
      · refine ⟨{ m with ht1 := ht1' }, ?_, hinvA,
          Or.inr ⟨tab, ht1', ht, hins, hmask1, hsize1, by simp [htab1'],
            Or.inr (Or.inl ⟨h2, ?_, rfl⟩)⟩⟩
        · unfold hm_insert
          simp only [ht, Option.isNone_some, Bool.false_eq_true, if_false, hins]
          simp [h2, htrig]
        · have hpos : 0 < ht1'.mask + 1 := by omega
          have := (Nat.div_lt_iff_lt_mul hpos).1 (not_le.1 htrig)
          rw [hlen, ← hmask1, ← hsize1]
          exact this
    · have h2' : m.ht2.tab.isSome := by
        cases h : m.ht2.tab with
        | none => exact absurd h h2
        | some t => rfl
      refine ⟨{ m with ht1 := ht1' }, ?_, hinvA,
        Or.inr ⟨tab, ht1', ht, hins, hmask1, hsize1, by simp [htab1'],
          Or.inr (Or.inr ⟨h2', rfl⟩)⟩⟩
      have : m.ht2.tab.isNone = false := by
        cases h : m.ht2.tab with
        | none => exact absurd h h2
        | some t => rfl
      unfold hm_insert
      simp only [ht, Option.isNone_some, Bool.false_eq_true, if_false, hins]
      simp [this]

/-- The call of `hm_help_resizing` that ends a public operation establishes `LoadInv`, also
when an insert into `ht1` has just used up one migration quota of the slack. -/
theorem hm_help_resizing_load (m : HMap α) (hm : MapInv m)
    (h0 : m.ht2.tab = none → m.ht2 = {})
    (hidle : m.ht2.tab = none → m.ht1.size < k_max_load_factor * (m.ht1.mask + 1))
    (hbusy : m.ht2.tab.isSome →
      k_resizing_work * (m.ht1.size + m.ht2.size) + m.ht2.size ≤
        k_max_load_factor / 2 * (k_resizing_work + 1) * (m.ht1.mask + 1) + k_resizing_work) :
    ∃ m', hm_help_resizing m = some m' ∧ LoadInv m' := by
  obtain ⟨m', moved, h1, hinv, hlen, _, _, hs1, hs2, hmask1, _, hrel, hkeep, hid, _, _⟩ :=
    hm_help_resizing_effect m hm
  refine ⟨m', h1, ?_⟩
  obtain h2 | h2 : m.ht2.tab = none ∨ m.ht2.tab.isSome := by
    cases m.ht2.tab <;> simp
  · have := hid h2
    subst this
    exact ⟨hinv, h0, hidle, fun h => by rw [h2] at h; simp at h⟩
  · have hb := hbusy h2
    simp only [k_resizing_work, k_max_load_factor] at hb hlen hidle ⊢
    have hz : m'.ht2.tab = none → m'.ht2.size = 0 := by
      intro h
      have := hinv.t2.size
      rw [HTab.nodes_none _ h] at this
      simpa using this
    refine ⟨hinv, ?_, ?_, ?_⟩
    · intro h
      exact hrel (hz h) h2
    · intro h
      have := hz h
      simp only [k_resizing_work, k_max_load_factor]
      rw [hmask1, hs1]
      omega
    · intro h
      have hpos : 0 < m'.ht2.size := by
        by_contra hn
        have := hrel (by omega) h2
        rw [this] at h
        simp at h
      simp only [k_resizing_work, k_max_load_factor]
      rw [hmask1, hs1]
      omega

/-- Shape of the result of `hm_pop`: the map after `hm_help_resizing`, with at most one node
unlinked from one of the two tables. -/
theorem hm_pop_shape (m : HMap α) (hm : MapInv m) (key : HNode α)
    (eq : HNode α → HNode α → Bool) (m' : HMap α) (r : Option (HNode α))
    (h : hm_pop m key eq = some (m', r)) :
    ∃ m1, hm_help_resizing m = some m1 ∧ m'.resizing_pos = m1.resizing_pos ∧
      (m' = m1 ∨
       (∃ t', m' = { m1 with ht1 := t' } ∧ t'.mask = m1.ht1.mask ∧ t'.size + 1 = m1.ht1.size) ∨
       (∃ t', m' = { m1 with ht2 := t' } ∧ t'.mask = m1.ht2.mask ∧ t'.size + 1 = m1.ht2.size ∧
          t'.tab.isSome ∧ m1.ht2.tab.isSome)) := by
  obtain ⟨m1, h1, hinv, _⟩ := hm_help_resizing_spec m hm
  refine ⟨m1, h1, ?_⟩
  unfold hm_pop at h
  rw [h1] at h
  simp only at h
  rcases h_lookup_spec hinv.t1 key eq with ⟨hl1, _⟩ | ⟨slot, tab, chain, node, hl1, ht, hc, hn, _, _⟩
  · rcases h_lookup_spec hinv.t2 key eq with ⟨hl2, _⟩ | ⟨slot, tab, chain, node, hl2, ht, hc, hn, _, _⟩
    · simp [hl1, hl2] at h
      rw [← h.1]
      exact ⟨rfl, Or.inl rfl⟩
    · obtain ⟨t', hdet, _, _, hmask, hsz, htab'⟩ :=
        h_detach_spec hinv.t2 tab ht slot chain node hc hn
      simp [hl1, hl2, hdet] at h
      rw [← h.1]
      exact ⟨rfl, Or.inr (Or.inr ⟨t', rfl, hmask, hsz, by simp [htab'], by simp [ht]⟩)⟩
  · obtain ⟨t', hdet, _, _, hmask, hsz, htab'⟩ :=
      h_detach_spec hinv.t1 tab ht slot chain node hc hn
    simp [hl1, hdet] at h
    rw [← h.1]
    exact ⟨rfl, Or.inr (Or.inl ⟨t', rfl, hmask, hsz⟩)⟩

theorem LoadInv_empty : LoadInv ({} : HMap α) :=
  ⟨MapInv_empty, fun _ => rfl, fun _ => by simp [k_max_load_factor], fun h => by simp at h⟩

theorem hm_lookup_load (m : HMap α) (hm : LoadInv m) (key : HNode α)
    (eq : HNode α → HNode α → Bool) (m' : HMap α) (r : Option NodePtr)
    (h : hm_lookup m key eq = some (m', r)) : LoadInv m' := by
  obtain ⟨m1, r1, h1, hh, _⟩ := hm_lookup_spec m hm.inv key eq
  obtain ⟨m2, h2, hl⟩ := hm_help_resizing_load m hm.inv hm.ht2_none hm.load_idle
    (fun hb => Nat.le_add_right_of_le (hm.load_busy hb))
  rw [h1] at h
  rw [hh] at h2
  simp only [Option.some.injEq, Prod.mk.injEq] at h h2
  rw [← h.1, h2]
  exact hl

theorem hm_pop_load (m : HMap α) (hm : LoadInv m) (key : HNode α)
    (eq : HNode α → HNode α → Bool) (m' : HMap α) (r : Option (HNode α))
    (h : hm_pop m key eq = some (m', r)) : LoadInv m' := by
  obtain ⟨_, _, hp, hinv', _⟩ := hm_pop_spec m hm.inv key eq
  rw [h] at hp
  simp only [Option.some.injEq, Prod.mk.injEq] at hp
  rw [← hp.1] at hinv'
  obtain ⟨m1, h1, _, hshape⟩ := hm_pop_shape m hm.inv key eq m' r h
  obtain ⟨m2, h2, hl⟩ := hm_help_resizing_load m hm.inv hm.ht2_none hm.load_idle
    (fun hb => Nat.le_add_right_of_le (hm.load_busy hb))
  rw [h1] at h2
  simp only [Option.some.injEq] at h2
  subst h2
  rcases hshape with e | ⟨t', e, hmask, hsz⟩ | ⟨t', e, hmask, hsz, ht', ht2⟩
  · rw [e]; exact hl
  · subst e
    refine ⟨hinv', hl.ht2_none, ?_, ?_⟩
    · intro hn
      have := hl.load_idle hn
      simp only [k_max_load_factor] at this ⊢
      show t'.size < 8 * (t'.mask + 1)
      rw [hmask]
      omega
    · intro hb
      have := hl.load_busy hb
      simp only [k_max_load_factor, k_resizing_work] at this ⊢
      show 128 * (t'.size + m1.ht2.size) + m1.ht2.size ≤ 8 / 2 * (128 + 1) * (t'.mask + 1)
      rw [hmask]
      omega
  · subst e
    refine ⟨hinv', ?_, ?_, ?_⟩
    · intro hn
      have hn' : t'.tab = none := hn
      rw [hn'] at ht'
      simp at ht'
    · intro hn
      have hn' : t'.tab = none := hn
      rw [hn'] at ht'
      simp at ht'
    · intro _
      have := hl.load_busy ht2
      simp only [k_max_load_factor, k_resizing_work] at this ⊢
      show 128 * (m1.ht1.size + t'.size) + t'.size ≤ 8 / 2 * (128 + 1) * (m1.ht1.mask + 1)
      omega

theorem hm_insert_load (m : HMap α) (hm : LoadInv m) (node : HNode α) (m' : HMap α)
    (h : hm_insert m node = some m') : LoadInv m' := by
  obtain ⟨mB, hB, hinvB, hcase⟩ := hm_insert_cases m hm.inv node
  suffices hs : ∃ m2, hm_help_resizing mB = some m2 ∧ LoadInv m2 by
    obtain ⟨m2, h2, hl⟩ := hs
    rw [hB, h2] at h
    simp only [Option.some.injEq] at h
    rw [← h]
    exact hl
  apply hm_help_resizing_load mB hinvB
  · rcases hcase with ⟨_, h2, e⟩ | ⟨tab, ht1', _, _, _, _, hsome, ⟨h2, _, e⟩ | ⟨h2, _, e⟩ | ⟨h2, e⟩⟩
    · subst e; exact hm.ht2_none
    · subst e
      intro hn
      have hn' : ht1'.tab = none := hn
      rw [hn'] at hsome
      simp at hsome
    · subst e; exact hm.ht2_none
    · subst e; exact hm.ht2_none
  · rcases hcase with ⟨_, h2, e⟩ | ⟨tab, ht1', ht, _, hmask, hsz, hsome, ⟨h2, _, e⟩ | ⟨h2, hlt, e⟩ | ⟨h2, e⟩⟩
    · subst e
      intro _
      simp [k_max_load_factor]
    · subst e
      intro hn
      have hn' : ht1'.tab = none := hn
      rw [hn'] at hsome
      simp at hsome
    · subst e
      intro _
      have := hm.inv.t1.len tab ht
      show ht1'.size < k_max_load_factor * (ht1'.mask + 1)
      rw [hmask, hsz, ← this]
      exact hlt
    · subst e
      intro hn
      have hn' : m.ht2.tab = none := hn
      rw [hn'] at h2
      simp at h2
  · rcases hcase with ⟨_, h2, e⟩ | ⟨tab, ht1', ht, _, hmask, hsz, hsome, ⟨h2, hge, e⟩ | ⟨h2, _, e⟩ | ⟨h2, e⟩⟩
    · subst e
      intro hb
      have hb' : m.ht2.tab.isSome = true := hb
      rw [h2] at hb'
      simp at hb'
    · subst e
      intro _
      have hlen := hm.inv.t1.len tab ht
      have hidle := hm.load_idle h2
      have hpos : 0 < tab.length := by omega
      simp only [k_max_load_factor, k_resizing_work] at hge hidle ⊢
      show 128 * (0 + ht1'.size) + ht1'.size ≤
        8 / 2 * (128 + 1) * (2 * tab.length - 1 + 1) + 128
      omega
    · subst e
      intro hb
      have hb' : m.ht2.tab.isSome = true := hb
      rw [h2] at hb'
      simp at hb'
    · subst e
      intro _
      have := hm.load_busy h2
      simp only [k_max_load_factor, k_resizing_work] at this ⊢
      show 128 * (ht1'.size + m.ht2.size) + m.ht2.size ≤
        8 / 2 * (128 + 1) * (ht1'.mask + 1) + 128
      rw [hmask, hsz]
      omega

/-- Every reachable map satisfies `LoadInv`. -/
theorem Reachable.load {m : HMap α} (h : Reachable m) : LoadInv m := by
  induction h with
  | empty => exact LoadInv_empty
  | insert node _ hstep ih => exact hm_insert_load _ ih node _ hstep
  | lookup key eq r _ hstep ih => exact hm_lookup_load _ ih key eq _ r hstep
  | pop key eq r _ hstep ih => exact hm_pop_load _ ih key eq _ r hstep

end

theorem store_with_inv (k v : Bytes) :
    StoreInv (store_with k v) (Function.update (fun _ => none) k (some v)) := by
  obtain ⟨s', h, hs⟩ := KeyValueStore.set_spec {} _ StoreInv.empty [] k v
  unfold store_with
  rw [h]
  exact hs

section
variable {α : Type}

theorem hm_insert_all_reachable (nodes : List (HNode α)) (m m' : HMap α) (hm : Reachable m)
    (h : hm_insert_all m nodes = some m') : Reachable m' := by
  induction nodes generalizing m with
  | nil =>
    simp only [hm_insert_all, Option.some.injEq] at h
    exact h ▸ hm
  | cons node rest ih =>
    unfold hm_insert_all at h
    cases h1 : hm_insert m node with
    | none => simp [h1] at h
    | some m1 =>
      simp only [h1] at h
      exact ih m1 (Reachable.insert node hm h1) h

theorem map_after_inserts_reachable (n hcode : Nat) : Reachable (map_after_inserts n hcode) := by
  unfold map_after_inserts
  cases h : hm_insert_all ({} : HMap Unit) (List.replicate n ⟨hcode, ()⟩) with
  | none => exact Reachable.empty
  | some m => exact hm_insert_all_reachable _ _ m Reachable.empty h

end

set_option maxRecDepth 100000 in
/-- The state after 256 inserts of nodes with hash code 5: a resize from 32 to 64 buckets
is in flight, with 128 nodes on each side and the cursor at bucket 5. -/
theorem map_after_256_inserts :
    (map_after_inserts 256 5).ht1.size = 128 ∧ (map_after_inserts 256 5).ht1.mask = 63 ∧
    (map_after_inserts 256 5).ht2.size = 128 ∧ (map_after_inserts 256 5).ht2.mask = 31 ∧
    (map_after_inserts 256 5).resizing_pos = 5 := by
  decide

/-! ## The buffers of a connection -/

/-- What `get` leaves in the reply buffer, on any store: the buffer keeps its length, and
`*reslen` is within it or untouched. -/
theorem KeyValueStore.get_out (s : KeyValueStore) (cmd : List Bytes) (res : Bytes) (rl : Nat)
    (s' : KeyValueStore) (code : Nat) (res' : Bytes) (rl' : Nat)
    (h : s.get cmd res rl = some (s', code, res', rl')) :
    res'.length = res.length ∧ (rl' ≤ res.length ∨ rl' = rl) := by
  unfold KeyValueStore.get at h
  cases hk : cmd[1]? with
  | none => simp [hk] at h
  | some k =>
    simp only [hk] at h
    cases hl : hm_lookup s.db ⟨str_hash k, ⟨k, []⟩⟩ entry_eq with
    | none => simp [hl] at h
    | some r =>
      obtain ⟨db, p⟩ := r
      cases p with
      | none =>
        simp only [hl, Option.some.injEq, Prod.mk.injEq] at h
        obtain ⟨_, _, h3, h4⟩ := h
        exact ⟨by rw [h3], Or.inr h4.symm⟩
      | some p =>
        simp only [hl] at h
        cases hd : db.deref p with
        | none => simp [hd] at h
        | some node =>
          simp only [hd] at h
          by_cases hfit : node.payload.val.length ≤ k_max_msg ∧
              node.payload.val.length ≤ res.length
          · rw [if_pos hfit] at h
            simp only [Option.some.injEq, Prod.mk.injEq] at h
            obtain ⟨_, _, h3, h4⟩ := h
            refine ⟨?_, Or.inl ?_⟩
            · rw [← h3, List.length_append, List.length_drop]
              omega
            · rw [← h4]
              exact le_trans (Nat.mod_le _ _) hfit.2
          · rw [if_neg hfit] at h
            simp at h

/-- What `do_request` leaves in the reply buffer, on any store. -/
theorem do_request_out (g : KeyValueStore) (req : Bytes) (reqlen rc : Nat) (res : Bytes)
    (rl : Nat) (err : Int) (g' : KeyValueStore) (code : Nat) (res' : Bytes) (rl' : Nat)
    (h : do_request g req reqlen rc res rl = some (err, g', code, res', rl')) :
    res'.length = res.length ∧ (rl' ≤ res.length ∨ rl' = rl) := by
  unfold do_request at h
  simp only at h
  split at h
  · simp only [Option.some.injEq, Prod.mk.injEq] at h
    obtain ⟨_, _, _, h3, h4⟩ := h
    exact ⟨by rw [h3], Or.inr h4.symm⟩
  · split at h
    · cases hg : g.get (parse_req req reqlen []).2 res rl with
      | none => simp [hg] at h
      | some r =>
        obtain ⟨s1, c1, r1, l1⟩ := r
        simp only [hg, Option.map_some', Option.some.injEq, Prod.mk.injEq] at h
        obtain ⟨_, _, _, h3, h4⟩ := h
        have := g.get_out _ res rl s1 c1 r1 l1 hg
        rw [← h3, ← h4]
        exact this
    · split at h
      · cases hg : g.set (parse_req req reqlen []).2 with
        | none => simp [hg] at h
        | some r =>
          simp only [hg, Option.map_some', Option.some.injEq, Prod.mk.injEq] at h
          obtain ⟨_, _, _, h3, h4⟩ := h
          exact ⟨by rw [h3], Or.inr h4.symm⟩
      · split at h
        · cases hg : g.del (parse_req req reqlen []).2 with
          | none => simp [hg] at h
          | some r =>
            simp only [hg, Option.map_some', Option.some.injEq, Prod.mk.injEq] at h
            obtain ⟨_, _, _, h3, h4⟩ := h
            exact ⟨by rw [h3], Or.inr h4.symm⟩
        · split at h
          · rename_i hfit
            simp only [Option.some.injEq, Prod.mk.injEq] at h
            obtain ⟨_, _, _, h3, h4⟩ := h
            have hu : str_unknown_cmd.length = 11 := rfl
            rw [hu] at hfit h3 h4
            refine ⟨?_, Or.inl (by omega)⟩
            rw [← h3]
            simp only [List.length_append, List.length_drop, hu, List.length_singleton]
            omega
          · simp at h

theorem STATE_END_ne_REQ : STATE_END ≠ STATE_REQ := by decide

theorem STATE_RES_ne_REQ : STATE_RES ≠ STATE_REQ := by decide

/-- What `try_one_request_respond` does to the connection, on any store. -/
theorem try_one_request_respond_facts (conn : Conn) (hwf : conn.WF) (g : KeyValueStore)
    (len : Nat) (hfull : 4 + len ≤ conn.rbuf_size) (b : Bool) (conn' : Conn)
    (g' : KeyValueStore) (h : try_one_request_respond conn g len = some (b, conn', g')) :
    conn'.WF ∧ conn'.wbuf_sent = conn.wbuf_sent ∧
      (b = false → conn'.state = STATE_END ∧ conn'.wbuf_size = conn.wbuf_size) ∧
      (b = true → conn'.state = STATE_RES ∧ conn'.wbuf_size ≤ 4 + k_max_msg ∧
        conn'.rbuf_size = conn.rbuf_size - 4 - len) := by
  have hk : k_max_msg = 4096 := rfl
  have hrl := hwf.rbuf_len
  have hwl := hwf.wbuf_len
  have hrs := hwf.rbuf_size_le
  unfold try_one_request_respond at h
  cases hd : do_request g (conn.rbuf.drop 4) len 0 (conn.wbuf.drop (4 + 4)) 0 with
  | none => simp [hd] at h
  | some r =>
    obtain ⟨err, g1, code, res', rl'⟩ := r
    obtain ⟨hlen', hrl'⟩ := do_request_out _ _ _ _ _ _ _ _ _ _ _ hd
    rw [List.length_drop] at hlen' hrl'
    have hrl'' : rl' ≤ 4092 := by omega
    have hw1 : (conn.wbuf.take (4 + 4) ++ res').length = 4 + k_max_msg := by
      rw [List.length_append, List.length_take, hlen']; omega
    simp only [hd] at h
    by_cases herr : err ≠ 0
    · rw [if_pos herr] at h
      simp only [Option.some.injEq, Prod.mk.injEq] at h
      obtain ⟨hb, hc, _⟩ := h
      subst hb hc
      exact ⟨⟨hrl, hw1, hrs⟩, rfl, fun _ => ⟨rfl, rfl⟩, fun hb => by simp at hb⟩
    · rw [if_neg herr, if_pos (by rw [hw1]; omega)] at h
      simp only [Option.some.injEq, Prod.mk.injEq] at h
      obtain ⟨hb, hc, _⟩ := h
      subst hb hc
      have hmem := take_memmove conn.rbuf (4 + len) (conn.rbuf_size - 4 - len) (by omega)
      have hm1 : (rl' + 4) % 2 ^ 32 = rl' + 4 := Nat.mod_eq_of_lt (by omega)
      have hm2 : (4 + (rl' + 4)) % 2 ^ 32 = 4 + (rl' + 4) := Nat.mod_eq_of_lt (by omega)
      refine ⟨⟨?_, ?_, ?_⟩, rfl, fun hb => by simp at hb, fun _ => ⟨rfl, ?_, rfl⟩⟩
      · show (if conn.rbuf_size - 4 - len ≠ 0 then _ else conn.rbuf).length = 4 + k_max_msg
        rw [hmem.2]
        exact hrl
      · simp only [List.length_append, List.length_take, List.length_drop, enc_u32_length,
          hlen', hwl]
        omega
      · show conn.rbuf_size - 4 - len ≤ 4 + k_max_msg
        omega
      · show (4 + (rl' + 4) % 2 ^ 32) % 2 ^ 32 ≤ 4 + k_max_msg
        rw [hm1, hm2]
        omega

/-- The three mutually recursive functions of the state machine establish
`Conn.Settled`: `try_one_request` and `state_req` from a connection with nothing staged,
`state_res` from one with a response staged. -/
theorem state_machine_settled {σ : Type} (send : σ → Bytes → SendRes × σ) (bounded : Prop)
    (hsend : bounded → SendBounded send) (fuel : Nat) :
    (∀ conn g env b conn' g' env', conn.WF → conn.wbuf_size = 0 → conn.wbuf_sent = 0 →
      try_one_request send fuel conn g env = some (b, conn', g', env') →
      conn'.Settled bounded ∧ (b = true → conn'.state = STATE_REQ)) ∧
    (∀ conn g env conn' g' env', conn.WF → conn.state = STATE_REQ → conn.wbuf_size = 0 →
      conn.wbuf_sent = 0 →
      state_req send fuel conn g env = some (conn', g', env') → conn'.Settled bounded) ∧
    (∀ conn g env conn' g' env', conn.WF → conn.state = STATE_RES →
      conn.wbuf_size ≤ 4 + k_max_msg → (bounded → conn.wbuf_sent ≤ conn.wbuf_size) →
      state_res send fuel conn g env = some (conn', g', env') → conn'.Settled bounded) := by
  have hk : k_max_msg = 4096 := rfl
  induction fuel with
  | zero =>
    refine ⟨?_, ?_, ?_⟩
    · intro conn g env b conn' g' env' _ _ _ h
      simp [try_one_request] at h
    · intro conn g env conn' g' env' _ _ _ _ h
      simp [state_req] at h
    · intro conn g env conn' g' env' _ _ _ _ h
      simp [state_res] at h
  | succ fuel ih =>
    obtain ⟨ihT, ihQ, ihS⟩ := ih
    refine ⟨?_, ?_, ?_⟩
    · -- try_one_request
      intro conn g env b conn' g' env' hwf hz hs h
      rw [try_one_request] at h
      split at h
      · rename_i hshort
        simp only [Option.some.injEq, Prod.mk.injEq] at h
        obtain ⟨hb, hc, _⟩ := h
        subst hb hc
        exact ⟨⟨hwf, by omega, fun _ => by omega, fun _ => ⟨Or.inl hshort, hz, hs⟩⟩,
          fun hb => by simp at hb⟩
      · rename_i hlong
        simp only at h
        split at h
        · simp only [Option.some.injEq, Prod.mk.injEq] at h
          obtain ⟨hb, hc, _⟩ := h
          subst hb hc
          refine ⟨⟨⟨hwf.rbuf_len, hwf.wbuf_len, hwf.rbuf_size_le⟩, ?_, fun _ => ?_, ?_⟩,
            fun hb => by simp at hb⟩
          · show conn.wbuf_size ≤ _
            omega
          · show conn.wbuf_sent ≤ conn.wbuf_size
            omega
          · intro hst
            exact absurd hst STATE_END_ne_REQ
        · rename_i hmax
          split at h
          · rename_i hpart
            simp only [Option.some.injEq, Prod.mk.injEq] at h
            obtain ⟨hb, hc, _⟩ := h
            subst hb hc
            have hm : (4 + read_u32 conn.rbuf 0) % 2 ^ 32 = 4 + read_u32 conn.rbuf 0 :=
              Nat.mod_eq_of_lt (by omega)
            rw [hm] at hpart
            exact ⟨⟨hwf, by omega, fun _ => by omega,
              fun _ => ⟨Or.inr ⟨by omega, hpart⟩, hz, hs⟩⟩, fun hb => by simp at hb⟩
          · rename_i hfull
            have hm : (4 + read_u32 conn.rbuf 0) % 2 ^ 32 = 4 + read_u32 conn.rbuf 0 :=
              Nat.mod_eq_of_lt (by omega)
            rw [hm] at hfull
            cases hr : try_one_request_respond conn g (read_u32 conn.rbuf 0) with
            | none => simp [hr] at h
            | some r =>
              obtain ⟨b1, conn1, g1⟩ := r
              obtain ⟨hwf1, hsent1, hf1, ht1⟩ :=
                try_one_request_respond_facts conn hwf g _ (by omega) b1 conn1 g1 hr
              cases b1 with
              | false =>
                simp only [hr, Option.some.injEq, Prod.mk.injEq] at h
                obtain ⟨hb, hc, _⟩ := h
                subst hb hc
                obtain ⟨hend, hsz⟩ := hf1 rfl
                refine ⟨⟨hwf1, by omega, fun _ => by omega, ?_⟩, fun hb => by simp at hb⟩
                intro hst
                rw [hend] at hst
                exact absurd hst STATE_END_ne_REQ
              | true =>
                obtain ⟨hres, hsz, _⟩ := ht1 rfl
                simp only [hr] at h
                cases hsr : state_res send fuel conn1 g1 env with
                | none => simp [hsr] at h
                | some r2 =>
                  obtain ⟨conn2, g2, env2⟩ := r2
                  simp only [hsr, Option.some.injEq, Prod.mk.injEq] at h
                  obtain ⟨hb, hc, _⟩ := h
                  subst hc
                  have hset := ihS conn1 g1 env conn2 g2 env2 hwf1 hres hsz
                    (fun _ => by omega) hsr
                  refine ⟨hset, ?_⟩
                  intro hbt
                  rw [hbt] at hb
                  simpa using hb
    · -- state_req
      intro conn g env conn' g' env' hwf hst hz hs h
      rw [state_req] at h
      cases ht : try_one_request send fuel conn g env with
      | none => simp [ht] at h
      | some r =>
        obtain ⟨b1, conn1, g1, env1⟩ := r
        obtain ⟨hset, htrue⟩ := ihT conn g env b1 conn1 g1 env1 hwf hz hs ht
        cases b1 with
        | true =>
          simp only [ht] at h
          have hst1 := htrue rfl
          obtain ⟨_, hz1, hs1⟩ := hset.idle hst1
          exact ihQ conn1 g1 env1 conn' g' env' hset.wf hst1 hz1 hs1 h
        | false =>
          simp only [ht, Option.some.injEq, Prod.mk.injEq] at h
          obtain ⟨hc, _⟩ := h
          subst hc
          exact hset
    · -- state_res
      intro conn g env conn' g' env' hwf hst hsz hle h
      rw [state_res] at h
      split at h
      · rename_i hlt
        split at h
        · simp only [Option.some.injEq, Prod.mk.injEq] at h
          obtain ⟨hc, _⟩ := h
          subst hc
          refine ⟨hwf, hsz, hle, ?_⟩
          intro hreq
          rw [hst] at hreq
          exact absurd hreq STATE_RES_ne_REQ
        · simp only [Option.some.injEq, Prod.mk.injEq] at h
          obtain ⟨hc, _⟩ := h
          subst hc
          refine ⟨⟨hwf.rbuf_len, hwf.wbuf_len, hwf.rbuf_size_le⟩, hsz, hle, ?_⟩
          intro hreq
          exact absurd hreq STATE_END_ne_REQ
        · rename_i rv env1 hsend1
          refine ihS { conn with wbuf_sent := conn.wbuf_sent + rv } g env1 conn' g' env'
            ⟨hwf.rbuf_len, hwf.wbuf_len, hwf.rbuf_size_le⟩ hst hsz ?_ h
          intro hb
          have hrv := hsend hb _ _ _ _ hsend1
          have hwl := hwf.wbuf_len
          have hle' := hle hb
          rw [List.length_take, List.length_drop] at hrv
          show conn.wbuf_sent + rv ≤ conn.wbuf_size
          omega
      · split at h
        · exact ihQ { conn with state := STATE_REQ, wbuf_sent := 0, wbuf_size := 0 } g env
            conn' g' env' ⟨hwf.rbuf_len, hwf.wbuf_len, hwf.rbuf_size_le⟩ rfl rfl rfl h
        · simp only [Option.some.injEq, Prod.mk.injEq] at h
          obtain ⟨hc, _⟩ := h
          subst hc
          refine ⟨hwf, hsz, hle, ?_⟩
          intro hreq
          rw [hst] at hreq
          exact absurd hreq STATE_RES_ne_REQ

theorem Conn.Fresh.to_settled {conn : Conn} (h : conn.Fresh) (bounded : Prop) :
    conn.Settled bounded := by
  refine ⟨⟨h.rbuf_len, h.wbuf_len, by rw [h.rbuf_size]; omega⟩, by rw [h.wbuf_size]; omega,
    fun _ => by rw [h.wbuf_size, h.wbuf_sent], fun _ => ⟨Or.inl ?_, h.wbuf_size, h.wbuf_sent⟩⟩
  rw [h.rbuf_size]
  omega

/-- One call of `connection_io` that returns preserves `Conn.Settled`. -/
theorem connection_io_settled {σ : Type} (recv : σ → Nat → RecvRes × σ)
    (send : σ → Bytes → SendRes × σ) (bounded : Prop) (hsend : bounded → SendBounded send)
    (fuel : Nat) (conn conn' : Conn) (g g' : KeyValueStore) (env env' : σ)
    (hc : conn.Settled bounded)
    (h : connection_io recv send fuel conn g env = some (conn', g', env')) :
    conn'.Settled bounded := by
  have hk : k_max_msg = 4096 := rfl
  obtain ⟨_, hQ, hS⟩ := state_machine_settled send bounded hsend fuel
  unfold connection_io at h
  by_cases hst : conn.state = STATE_REQ
  · obtain ⟨_, hz, hs⟩ := hc.idle hst
    rw [if_pos hst] at h
    by_cases hlt : conn.rbuf_size < 4 + k_max_msg
    · rw [if_pos hlt] at h
      cases hr : recv_retry recv fuel env (4 + k_max_msg - conn.rbuf_size) with
      | none => simp [hr] at h
      | some r =>
        obtain ⟨res, env1⟩ := r
        cases res with
        | intr => simp [hr] at h
        | again =>
          simp only [hr, Option.some.injEq, Prod.mk.injEq] at h
          rw [← h.1]
          exact hc
        | error =>
          simp only [hr, Option.some.injEq, Prod.mk.injEq] at h
          rw [← h.1]
          exact ⟨⟨hc.wf.rbuf_len, hc.wf.wbuf_len, hc.wf.rbuf_size_le⟩, hc.wbuf_size_le,
            hc.sent_le, fun hreq => absurd hreq STATE_END_ne_REQ⟩
        | ok data =>
          simp only [hr] at h
          by_cases h0 : data.length = 0
          · rw [if_pos h0] at h
            simp only [Option.some.injEq, Prod.mk.injEq] at h
            rw [← h.1]
            exact ⟨⟨hc.wf.rbuf_len, hc.wf.wbuf_len, hc.wf.rbuf_size_le⟩, hc.wbuf_size_le,
              hc.sent_le, fun hreq => absurd hreq STATE_END_ne_REQ⟩
          · rw [if_neg h0] at h
            by_cases hle : data.length ≤ 4 + k_max_msg - conn.rbuf_size
            · rw [if_pos hle] at h
              refine hQ { conn with
                  rbuf := conn.rbuf.take conn.rbuf_size ++ data ++
                            conn.rbuf.drop (conn.rbuf_size + data.length),
                  rbuf_size := conn.rbuf_size + data.length } g env1 conn' g' env'
                ⟨?_, hc.wf.wbuf_len, ?_⟩ hst hz hs h
              · have := hc.wf.rbuf_len
                simp only [List.length_append, List.length_take, List.length_drop]
                omega
              · show conn.rbuf_size + data.length ≤ 4 + k_max_msg
                omega
            · rw [if_neg hle] at h
              simp at h
    · rw [if_neg hlt] at h
      simp at h
  · rw [if_neg hst] at h
    by_cases hres : conn.state = STATE_RES
    · rw [if_pos hres] at h
      exact hS conn g env conn' g' env' hc.wf hres hc.wbuf_size_le hc.sent_le h
    · rw [if_neg hres] at h
      simp at h

/-- Every reachable connection state satisfies `Conn.Settled`. -/
theorem ConnReach.settled {σ : Type} {recv : σ → Nat → RecvRes × σ}
    {send : σ → Bytes → SendRes × σ} {conn : Conn} (h : ConnReach recv send conn)
    (bounded : Prop) (hsend : bounded → SendBounded send) : conn.Settled bounded := by
  induction h with
  | fresh conn hf => exact hf.to_settled bounded
  | step fuel conn conn' g g' env env' _ hstep ih =>
    exact connection_io_settled recv send bounded hsend fuel conn conn' g g' env env' ih hstep

theorem send_all_bounded : SendBounded send_all := by
  intro env buf rv env' h
  simp only [send_all, Prod.mk.injEq, SendRes.ok.injEq] at h
  omega

theorem conn_with_input_fresh : (conn_with_input []).Fresh :=
  ⟨rfl, rfl, rfl, rfl, by simp [conn_with_input], by simp [conn_with_input]⟩

/-- A fresh connection on which `recv` delivers `input`: `connection_io` stores it and
calls `state_req`. -/
theorem connection_io_fresh {σ : Type} (send : σ → Bytes → SendRes × σ) (input : Bytes)
    (hpos : 0 < input.length) (hle : input.length ≤ 4 + k_max_msg) (fuel : Nat)
    (g : KeyValueStore) (env : σ) :
    connection_io (recv_const input) send (fuel + 1) (conn_with_input []) g env =
      state_req send (fuel + 1) (conn_with_input input) g env := by
  have htake : input.take (4 + k_max_msg - 0) = input := List.take_of_length_le (by omega)
  have hconn : ({ conn_with_input [] with
      rbuf := (conn_with_input []).rbuf.take (conn_with_input []).rbuf_size ++ input ++
                (conn_with_input []).rbuf.drop ((conn_with_input []).rbuf_size + input.length),
      rbuf_size := (conn_with_input []).rbuf_size + input.length } : Conn) =
      conn_with_input input := by
    simp only [conn_with_input, List.length_nil, List.take_zero, List.nil_append, Nat.zero_add,
      Nat.sub_zero, List.drop_replicate]
  have h1 : (conn_with_input []).state = STATE_REQ := rfl
  have h2 : (conn_with_input []).rbuf_size < 4 + k_max_msg := by
    show 0 < 4 + k_max_msg
    omega
  unfold connection_io
  rw [if_pos h1, if_pos h2]
  have hrecv : recv_retry (recv_const input) (fuel + 1) env
      (4 + k_max_msg - (conn_with_input []).rbuf_size) = some (RecvRes.ok input, env) := by
    rw [recv_retry]
    show (match recv_const input env (4 + k_max_msg - 0) with
      | (RecvRes.intr, env) => recv_retry (recv_const input) fuel env (4 + k_max_msg - 0)
      | (r, env) => some (r, env)) = _
    simp only [recv_const, htake]
  rw [hrecv]
  simp only
  rw [if_neg (by omega), if_pos (by show input.length ≤ 4 + k_max_msg - 0; omega), hconn]

/-- A fresh connection that receives one request frame, with `send_all`: the call of
`connection_io` returns with the response on the trace and the connection waiting for
the next request. -/
theorem connection_io_fresh_served (cmd : List Bytes)
    (hlen : (encode_req cmd).length ≤ k_max_msg) :
    ∃ conn' g', connection_io (recv_const (request_frame cmd)) send_all 6 (conn_with_input [])
        {} [] = some (conn', g', [] ++ (response_frames (fun _ => none) [cmd]).flatten) ∧
      conn'.state = STATE_REQ ∧ conn'.pending = [] := by
  have hk : k_max_msg = 4096 := rfl
  have hfl : (request_frame cmd).length = 4 + (encode_req cmd).length := by
    simp [request_frame, enc_u32_length]
  obtain ⟨conn', g', hrun, _, hst, _, _, hpend, _⟩ :=
    state_req_pipelined [cmd] (conn_with_input (request_frame cmd))
      (conn_with_input_wf _ (by omega)) {} (fun _ => none) StoreInv.empty ValsFit_empty [] []
      6 (by rw [conn_with_input_pending]; simp)
      (by intro c hc; simp at hc; subst hc; exact hlen) incomplete_nil rfl rfl rfl (by simp)
  refine ⟨conn', g', ?_, hst, hpend⟩
  rw [connection_io_fresh send_all _ (by omega) (by omega) 5, hrun]

theorem send_again_bounded {σ : Type} : SendBounded (@send_again σ) := by
  intro env buf rv env' h
  simp [send_again] at h

/-- A fresh connection that receives one request frame while `send` reports `EAGAIN`: the
call of `connection_io` returns with the response staged and the connection in
`STATE_RES`. -/
theorem connection_io_fresh_blocked (cmd : List Bytes)
    (hlen : (encode_req cmd).length ≤ k_max_msg) :
    ∃ conn' g', connection_io (recv_const (request_frame cmd)) send_again 3 (conn_with_input [])
        {} () = some (conn', g', ()) ∧
      conn'.state = STATE_RES ∧ conn'.wbuf_sent = 0 ∧
      conn'.wbuf_size = 4 + (4 + (reply (fun _ => none) cmd).2.1.length) := by
  have hk : k_max_msg = 4096 := rfl
  have hfl : (request_frame cmd).length = 4 + (encode_req cmd).length := by
    simp [request_frame, enc_u32_length]
  obtain ⟨conn', g', _, htry, _, _, hst, hsent, hsize, _, _⟩ :=
    try_one_request_served (conn_with_input (request_frame cmd))
      (conn_with_input_wf _ (by omega)) {} (fun _ => none) StoreInv.empty ValsFit_empty cmd []
      (by rw [conn_with_input_pending]; simp) hlen
  have hsent' : conn'.wbuf_sent = 0 := hsent
  refine ⟨conn', g', ?_, hst, hsent', hsize⟩
  have hres : state_res send_again 1 conn' g' () = some (conn', g', ()) := by
    rw [state_res, if_pos (by omega)]
    rfl
  rw [connection_io_fresh send_again _ (by omega) (by omega) 2, state_req,
    htry Unit send_again 1 (), hres]
  simp [hst, STATE_RES, STATE_REQ]

/-! ## Stores reachable through requests -/

/-- On a well-formed store whose values fit, `try_one_request_respond` returns for every
complete frame with a payload of at most `k_max_msg` bytes: either the payload does not
parse and the connection is closed with the store untouched, or the response is framed
within the write buffer and the values of the new store fit again. -/
theorem try_one_request_respond_total (conn : Conn) (hwf : conn.WF) (g : KeyValueStore)
    (hg : StoreFits g) (len : Nat) (hlen : len ≤ k_max_msg) (hfull : 4 + len ≤ conn.rbuf_size) :
    ∃ b conn' g', try_one_request_respond conn g len = some (b, conn', g') ∧ conn'.WF ∧
      StoreFits g' ∧
      (b = false → g' = g ∧ conn'.state = STATE_END) ∧
      (b = true → ∃ status payload, conn'.staged = response_frame status payload ∧
        4 + payload.length ≤ k_max_msg ∧ conn'.wbuf_size = 4 + (4 + payload.length) ∧
        conn'.wbuf_size ≤ conn'.wbuf.length) := by
  have hk : k_max_msg = 4096 := rfl
  obtain ⟨m, hs, hv⟩ := hg
  cases hp : parse_req (conn.rbuf.drop 4) len [] with
  | mk rc cmd =>
    by_cases hrc : rc = 0
    · subst hrc
      obtain ⟨conn', g', hresp, hs', hwf', _, _, _, hsize, hstaged, _, _⟩ :=
        try_one_request_respond_spec conn hwf g m hs hv len hfull cmd hp
      have hdl : len ≤ (conn.rbuf.drop 4).length := by
        have := hwf.rbuf_len
        rw [List.length_drop]
        omega
      obtain ⟨_, _, _, hel⟩ := parse_req_ok_prefix _ len (by omega) hdl cmd hp
      have hfit := reply_payload_fits m hv cmd
      refine ⟨true, conn', g', hresp, hwf', ⟨_, hs', reply_vals_fit m hv cmd (by omega)⟩,
        fun hb => by simp at hb, fun _ => ⟨_, _, hstaged, by omega, hsize, ?_⟩⟩
      rw [hsize, hwf'.wbuf_len]
      omega
    · have hbad : (parse_req (conn.rbuf.drop 4) len []).1 ≠ 0 := by rw [hp]; exact hrc
      refine ⟨false, { conn with state := STATE_END }, g, ?_,
        ⟨hwf.rbuf_len, hwf.wbuf_len, hwf.rbuf_size_le⟩, ⟨m, hs, hv⟩, fun _ => ⟨rfl, rfl⟩,
        fun hb => by simp at hb⟩
      unfold try_one_request_respond
      rw [do_request_bad _ _ _ _ _ _ hbad]
      simp only [ne_eq, Int.reduceNeg, neg_eq_zero, one_ne_zero, not_false_eq_true, if_true,
        List.take_append_drop]

/-- The three mutually recursive functions of the state machine keep the store well
formed with values that fit, and the buffers of the connection at their size. -/
theorem state_machine_store {σ : Type} (send : σ → Bytes → SendRes × σ) (fuel : Nat) :
    (∀ conn g env b conn' g' env', conn.WF → StoreFits g →
      try_one_request send fuel conn g env = some (b, conn', g', env') →
      conn'.WF ∧ StoreFits g') ∧
    (∀ conn g env conn' g' env', conn.WF → StoreFits g →
      state_req send fuel conn g env = some (conn', g', env') → conn'.WF ∧ StoreFits g') ∧
    (∀ conn g env conn' g' env', conn.WF → StoreFits g →
      state_res send fuel conn g env = some (conn', g', env') → conn'.WF ∧ StoreFits g') := by
  have hk : k_max_msg = 4096 := rfl
  induction fuel with
  | zero =>
    refine ⟨?_, ?_, ?_⟩
    · intro conn g env b conn' g' env' _ _ h
      simp [try_one_request] at h
    · intro conn g env conn' g' env' _ _ h
      simp [state_req] at h
    · intro conn g env conn' g' env' _ _ h
      simp [state_res] at h
  | succ fuel ih =>
    obtain ⟨ihT, ihQ, ihS⟩ := ih
    refine ⟨?_, ?_, ?_⟩
    · intro conn g env b conn' g' env' hwf hg h
      rw [try_one_request] at h
      split at h
      · simp only [Option.some.injEq, Prod.mk.injEq] at h
        obtain ⟨_, hc, hgg, _⟩ := h
        subst hc hgg
        exact ⟨hwf, hg⟩
      · simp only at h
        split at h
        · simp only [Option.some.injEq, Prod.mk.injEq] at h
          obtain ⟨_, hc, hgg, _⟩ := h
          subst hc hgg
          exact ⟨⟨hwf.rbuf_len, hwf.wbuf_len, hwf.rbuf_size_le⟩, hg⟩
        · rename_i hmax
          split at h
          · simp only [Option.some.injEq, Prod.mk.injEq] at h
            obtain ⟨_, hc, hgg, _⟩ := h
            subst hc hgg
            exact ⟨hwf, hg⟩
          · rename_i hfull
            have hm : (4 + read_u32 conn.rbuf 0) % 2 ^ 32 = 4 + read_u32 conn.rbuf 0 :=
              Nat.mod_eq_of_lt (by omega)
            rw [hm] at hfull
            obtain ⟨b1, conn1, g1, hr, hwf1, hg1, _, _⟩ :=
              try_one_request_respond_total conn hwf g hg (read_u32 conn.rbuf 0) (by omega)
                (by omega)
            cases b1 with
            | false =>
              simp only [hr, Option.some.injEq, Prod.mk.injEq] at h
              obtain ⟨_, hc, hgg, _⟩ := h
              subst hc hgg
              exact ⟨hwf1, hg1⟩
            | true =>
              simp only [hr] at h
              cases hsr : state_res send fuel conn1 g1 env with
              | none => simp [hsr] at h
              | some r2 =>
                obtain ⟨conn2, g2, env2⟩ := r2
                simp only [hsr, Option.some.injEq, Prod.mk.injEq] at h
                obtain ⟨_, hc, hgg, _⟩ := h
                subst hc hgg
                exact ihS conn1 g1 env conn2 g2 env2 hwf1 hg1 hsr
    · intro conn g env conn' g' env' hwf hg h
      rw [state_req] at h
      cases ht : try_one_request send fuel conn g env with
      | none => simp [ht] at h
      | some r =>
        obtain ⟨b1, conn1, g1, env1⟩ := r
        obtain ⟨hwf1, hg1⟩ := ihT conn g env b1 conn1 g1 env1 hwf hg ht
        cases b1 with
        | true =>
          simp only [ht] at h
          exact ihQ conn1 g1 env1 conn' g' env' hwf1 hg1 h
        | false =>
          simp only [ht, Option.some.injEq, Prod.mk.injEq] at h
          obtain ⟨hc, hgg, _⟩ := h
          subst hc hgg
          exact ⟨hwf1, hg1⟩
    · intro conn g env conn' g' env' hwf hg h
      rw [state_res] at h
      split at h
      · split at h
        · simp only [Option.some.injEq, Prod.mk.injEq] at h
          obtain ⟨hc, hgg, _⟩ := h
          subst hc hgg
          exact ⟨hwf, hg⟩
        · simp only [Option.some.injEq, Prod.mk.injEq] at h
          obtain ⟨hc, hgg, _⟩ := h
          subst hc hgg
          exact ⟨⟨hwf.rbuf_len, hwf.wbuf_len, hwf.rbuf_size_le⟩, hg⟩
        · rename_i rv env1 _
          exact ihS { conn with wbuf_sent := conn.wbuf_sent + rv } g env1 conn' g' env'
            ⟨hwf.rbuf_len, hwf.wbuf_len, hwf.rbuf_size_le⟩ hg h
      · split at h
        · exact ihQ { conn with state := STATE_REQ, wbuf_sent := 0, wbuf_size := 0 } g env
            conn' g' env' ⟨hwf.rbuf_len, hwf.wbuf_len, hwf.rbuf_size_le⟩ hg h
        · simp only [Option.some.injEq, Prod.mk.injEq] at h
          obtain ⟨hc, hgg, _⟩ := h
          subst hc hgg
          exact ⟨hwf, hg⟩

theorem StoreFits.vals {g : KeyValueStore} (hg : StoreFits g) :
    ∀ n ∈ g.db.nodes, n.payload.val.length + 4 ≤ k_max_msg := by
  obtain ⟨m, hs, hv⟩ := hg
  intro n hn
  exact hv n.payload.key n.payload.val ((hs.rep.maps _ _).2 ⟨n, hn, rfl, rfl⟩)

/-- Every store reachable through requests is well formed with values that fit. -/
theorem StoreReach.fits {g : KeyValueStore} (h : StoreReach g) : StoreFits g := by
  induction h with
  | empty => exact ⟨_, StoreInv.empty, ValsFit_empty⟩
  | request send fuel conn conn' g g' env env' b _ hwf hstep ih =>
    exact ((state_machine_store send fuel).1 conn g env b conn' g' env' hwf ih hstep).2

/-- A fresh connection whose read buffer holds one request frame, on a store that
represents `m`: `try_one_request_respond`, called with the length of the payload, stages
the response frame of `reply`. -/
theorem try_one_request_respond_fresh (g : KeyValueStore) (m : Bytes → Option Bytes)
    (hs : StoreInv g m) (hv : ValsFit m) (cmd : List Bytes)
    (hlen : (encode_req cmd).length ≤ k_max_msg) :
    ∃ conn' g', try_one_request_respond (conn_with_input (request_frame cmd)) g
        (encode_req cmd).length = some (true, conn', g') ∧
      conn'.staged = response_frame (reply m cmd).1 (reply m cmd).2.1 := by
  have hk : k_max_msg = 4096 := rfl
  have hfl : (request_frame cmd).length = 4 + (encode_req cmd).length := by
    simp [request_frame, enc_u32_length]
  have hwf := conn_with_input_wf (request_frame cmd) (by omega)
  have hp : (conn_with_input (request_frame cmd)).pending = request_frame cmd ++ [] := by
    rw [conn_with_input_pending]; simp
  obtain ⟨_, hrd, _, _, _⟩ := frame_at_head _ hwf cmd [] hp hlen
  obtain ⟨conn', g', hresp, _, _, _, _, _, _, hstaged, _⟩ :=
    try_one_request_served _ hwf g m hs hv cmd [] hp hlen
  rw [hrd] at hresp
  exact ⟨conn', g', hresp, hstaged⟩

/-- The store left by one `set` request served on a fresh connection with `send_all`. -/
theorem try_one_request_fresh_set (k v : Bytes)
    (hlen : (encode_req [str_set, k, v]).length ≤ k_max_msg) :
    ∃ conn' g', try_one_request send_all 5 (conn_with_input (request_frame [str_set, k, v]))
        {} [] = some (true, conn', g', response_frame RES_OK []) ∧
      StoreInv g' (Function.update (fun _ => none) k (some v)) ∧
      ValsFit (Function.update (fun _ => none) k (some v)) := by
  have hk : k_max_msg = 4096 := rfl
  have hfl : (request_frame [str_set, k, v]).length = 4 + (encode_req [str_set, k, v]).length := by
    simp [request_frame, enc_u32_length]
  have hwf := conn_with_input_wf (request_frame [str_set, k, v]) (by omega)
  have hrep : reply (fun _ => none) [str_set, k, v] =
      (RES_OK, [], Function.update (fun _ => none) k (some v)) := by
    have : verb_is str_set str_set := by decide
    simp [reply, this]
  obtain ⟨conn', g', hs', hwf', hst, hsent, hsize, hpend, htry⟩ :=
    try_one_request_send_all 2 (conn_with_input (request_frame [str_set, k, v])) hwf {}
      (fun _ => none) StoreInv.empty ValsFit_empty [str_set, k, v] [] []
      (by rw [conn_with_input_pending]; simp) hlen rfl
  have hv' := reply_vals_fit (fun _ => none) ValsFit_empty [str_set, k, v] hlen
  rw [hrep] at hs' hv' htry
  refine ⟨conn', g', ?_, hs', hv'⟩
  rw [htry, state_req_idle send_all 0 conn' hwf' g' _ (by rw [hpend]; exact incomplete_nil)]
  simp [hst]

theorem reply_get_hit (k v : Bytes) :
    reply (Function.update (fun _ => none) k (some v)) [str_get, k] =
      (RES_OK, v, Function.update (fun _ => none) k (some v)) := by
  have : verb_is str_get str_get := by decide
  simp [reply, this]

theorem reply_one_word (m : Bytes → Option Bytes) (w : Bytes) :
    reply m [w] = (RES_ERR, str_unknown_cmd, m) := rfl

/-! ## Claims C1, C2, C10 -/

/-- C1, as stated, fails: after `set k v` with a value of 4097 bytes, the most recent
write of `k` is `v`, but `get k` does not return `RES_OK` with `v`: the
`assert(val.size() <= k_max_msg)` stops it, whatever the size of the reply buffer. -/
theorem C1_counterexample_oversized_value :
    last_write [] [Cmd.set [] (List.replicate 4097 0)].reverse = some (List.replicate 4097 0) ∧
    ∃ s, KeyValueStore.exec [] (List.replicate 5000 0) {} [Cmd.set [] (List.replicate 4097 0)]
        = some s ∧
      s.get [[], []] (List.replicate 5000 0) 0 = none :=
  ⟨if_pos rfl, get_after_oversized_set {} _ StoreInv.empty [] _ [] _ 0
    (by rw [List.length_replicate]; decide)⟩

/-- C1 (amended): starting from the empty store, every finite sequence of `set`, `get`
and `del` calls whose `set` values are at most `k_max_msg` = 4096 bytes long and fit the
reply buffer runs to completion, and afterwards `get k` returns `RES_OK` with exactly the
value of the most recent `set k _` that no `del k` follows (copied to the front of the
reply buffer, with its length), and `RES_NX` with the buffer untouched when there is no
such `set`.  The sequence is arbitrary, so this covers every `get` of a longer sequence,
any number of resizes in flight and colliding hash codes. -/
theorem C1_store_refines_finite_map (verb res : Bytes) (ops : List Cmd)
    (hv : ∀ k v, Cmd.set k v ∈ ops → v.length ≤ k_max_msg ∧ v.length ≤ res.length) :
    ∃ s, KeyValueStore.exec verb res {} ops = some s ∧
      ∀ k rl, ∃ s', s.get [verb, k] res rl = some (s',
        match last_write k ops.reverse with
        | some v => (RES_OK, v ++ res.drop v.length, v.length)
        | none => (RES_NX, res, rl)) := by
  obtain ⟨s, he, hs, hb⟩ := exec_refines verb res ops {} (fun _ => none) StoreInv.empty
    (by simp) hv
  refine ⟨s, he, ?_⟩
  intro k rl
  obtain ⟨s', _, _, hg⟩ := s.get_spec _ hs verb k res rl
  refine ⟨s', ?_⟩
  rw [hg, abs_run_eq_last_write]
  cases hk : last_write k ops.reverse with
  | none => rfl
  | some v =>
    have := hb k v (by rw [abs_run_eq_last_write]; exact hk)
    have h4 : v.length < 4294967296 := lt_of_le_of_lt this.1 (by decide)
    simp [this.1, this.2, h4]

/-- C1 (amended), at a concrete history: two keys, an overwrite and a delete. -/
theorem C1_store_refines_finite_map_witness :
    ∃ s, KeyValueStore.exec [] [0, 0, 0, 0] {}
        [Cmd.set [1] [7], Cmd.set [2] [8], Cmd.get [1], Cmd.set [1] [9, 9], Cmd.del [2]] = some s ∧
      ∀ k rl, ∃ s', s.get [[], k] [0, 0, 0, 0] rl = some (s',
        match last_write k
          [Cmd.set [1] [7], Cmd.set [2] [8], Cmd.get [1], Cmd.set [1] [9, 9], Cmd.del [2]].reverse with
        | some v => (RES_OK, v ++ ([0, 0, 0, 0] : Bytes).drop v.length, v.length)
        | none => (RES_NX, [0, 0, 0, 0], rl)) :=
  C1_store_refines_finite_map [] [0, 0, 0, 0] _ (by
    intro k v h
    simp at h
    rcases h with ⟨_, h⟩ | ⟨_, h⟩ | ⟨_, h⟩ <;> subst h <;> simp [k_max_msg])

/-- C2: starting from the empty store, after every finite sequence of `set` and `del`
calls `hm_size db` is the number of distinct keys present, i.e. set and not
subsequently deleted. -/
theorem C2_size_counts_present_keys (verb res : Bytes) (ops : List Cmd)
    (hg : ∀ k, Cmd.get k ∉ ops) :
    ∃ s, KeyValueStore.exec verb res {} ops = some s ∧
      hm_size s.db = (present_keys ops).card := by
  obtain ⟨s, he, hs⟩ := exec_updates_refines verb res ops {} (fun _ => none) StoreInv.empty hg
  refine ⟨s, he, ?_⟩
  rw [hm_size_eq_length _ hs.inv, ← List.length_map s.db.nodes (fun n => n.payload.key),
    ← List.toFinset_card_of_nodup hs.rep.nodup]
  congr 1
  ext k
  simp only [List.mem_toFinset, List.mem_map, present_keys, Finset.mem_filter]
  constructor
  · rintro ⟨n, hn, hk⟩
    have h1 := (hs.rep.maps k n.payload.val).2 ⟨n, hn, hk, rfl⟩
    rw [abs_run_eq_last_write] at h1
    refine ⟨mem_set_keys k n.payload.val ops ?_, by simp [h1]⟩
    exact List.mem_reverse.1 (last_write_mem k _ _ h1)
  · rintro ⟨_, h⟩
    obtain ⟨v, hv⟩ := Option.isSome_iff_exists.1 h
    rw [← abs_run_eq_last_write] at hv
    obtain ⟨n, hn, hk, _⟩ := (hs.rep.maps k v).1 hv
    exact ⟨n, hn, hk⟩

/-- C2 at a concrete history: an overwrite, a delete of a present key and a delete of
an absent one leave exactly one key. -/
theorem C2_size_counts_present_keys_witness :
    ∃ s, KeyValueStore.exec [] [] {}
        [Cmd.set [1] [7], Cmd.set [2] [8], Cmd.set [1] [9], Cmd.del [2], Cmd.del [3]] = some s ∧
      hm_size s.db = (present_keys
        [Cmd.set [1] [7], Cmd.set [2] [8], Cmd.set [1] [9], Cmd.del [2], Cmd.del [3]]).card :=
  C2_size_counts_present_keys [] [] _ (by intro k h; simp at h)

/-- C10: in every reachable map state (a resize may be in flight), for a key that no
stored node matches, `hm_pop` returns `NULL` however often it is repeated, `hm_size` stays
the same and the stored nodes are the same (as a multiset: the calls may still migrate
nodes from `ht2` to `ht1`). -/
theorem C10_pop_absent_idempotent {α : Type} (m : HMap α) (hr : Reachable m) (key : HNode α)
    (eq : HNode α → HNode α → Bool)
    (habs : ∀ n ∈ m.nodes, ¬ (n.hcode = key.hcode ∧ eq n key = true)) (j : Nat) :
    ∃ m', hm_pop_n key eq j m = some (m', List.replicate j none) ∧
      hm_size m' = hm_size m ∧ m'.nodes.Perm m.nodes := by
  obtain ⟨m', h1, h2, h3⟩ := hm_pop_n_absent key eq j m hr.inv habs
  exact ⟨m', h1, by rw [hm_size_eq_length _ h2, hm_size_eq_length _ hr.inv, h3.length_eq], h3⟩

/-- C10 at a concrete state: the map holding one node with hash code 5, popped three
times with a key of the same hash code that compares unequal. -/
theorem C10_pop_absent_idempotent_witness :
    ∃ m', hm_pop_n (⟨5, 2⟩ : HNode Nat) (fun a b => a.payload == b.payload) 3
        { ht1 := { tab := some [[], [⟨5, 1⟩], [], []], mask := 3, size := 1 } }
          = some (m', List.replicate 3 none) ∧
      hm_size m' = hm_size
        ({ ht1 := { tab := some [[], [⟨5, 1⟩], [], []], mask := 3, size := 1 } } : HMap Nat) ∧
      m'.nodes.Perm
        ({ ht1 := { tab := some [[], [⟨5, 1⟩], [], []], mask := 3, size := 1 } } : HMap Nat).nodes :=
  C10_pop_absent_idempotent _
    (Reachable.insert (⟨5, 1⟩ : HNode Nat) Reachable.empty (by decide)) _ _
    (by decide) 3

/-! ## Claims C3, C4 -/

/-- C5, as stated, fails: the two-token vector `["get\0", "k"]` decodes successfully and
its verb is not one of `get`, `set`, `del` up to letter case (it has four bytes), yet
`do_request` does not answer `RES_ERR` "Unknown cmd": `cmd_is` compares C strings,
which end at the first NUL byte, so the request is served as a GET (here `RES_NX`). -/
theorem C5_counterexample_embedded_nul :
    ([103, 101, 116, 0] : Bytes).map tolower ≠ str_get ∧
    ([103, 101, 116, 0] : Bytes).map tolower ≠ str_set ∧
    ([103, 101, 116, 0] : Bytes).map tolower ≠ str_del ∧
    parse_req (encode_req [[103, 101, 116, 0], [107]]) 17 [] = (0, [[103, 101, 116, 0], [107]]) ∧
    (do_request {} (encode_req [[103, 101, 116, 0], [107]]) 17 0 (List.replicate 12 0) 0).map
      (fun r => (r.1, r.2.2.1, r.2.2.2.2)) = some (0, RES_NX, 0) := by
  refine ⟨by decide, by decide, by decide, by decide, by decide⟩

/-- C5 (amended): command dispatch in `do_request` on a well-formed store, for every
successfully decoded command vector `cmd`.  Write "the verb is `get`" for: the first
token, read as a C string (cut at its first NUL byte), equals `get` up to the case of
ASCII letters.  With exactly 2 tokens and verb `get` the reply is that of GET
(`RES_OK` and the value copied to `res`, or `RES_NX`); with exactly 3 tokens and verb
`set` it is `RES_OK`; with exactly 2 tokens and verb `del` it is `RES_OK` whether or
not the key existed; for every other vector the status is `RES_ERR` with the payload
"Unknown cmd", and the store is unchanged.  In all four cases `do_request` returns 0. -/
theorem C5_command_dispatch (g : KeyValueStore) (m : Bytes → Option Bytes) (hs : StoreInv g m)
    (req : Bytes) (reqlen rc : Nat) (res : Bytes) (rl : Nat) (cmd : List Bytes)
    (hparse : parse_req req reqlen [] = (0, cmd))
    (hvals : ∀ k v, m k = some v → v.length ≤ k_max_msg ∧ v.length ≤ res.length)
    (hres : 12 ≤ res.length) :
    (∀ w k, cmd = [w, k] → verb_is w str_get →
      ∃ g', StoreInv g' m ∧ do_request g req reqlen rc res rl = some (0, g',
        match m k with
        | some v => (RES_OK, v ++ res.drop v.length, v.length)
        | none => (RES_NX, res, rl))) ∧
    (∀ w k v, cmd = [w, k, v] → verb_is w str_set →
      ∃ g', StoreInv g' (Function.update m k (some v)) ∧
        do_request g req reqlen rc res rl = some (0, g', RES_OK, res, rl)) ∧
    (∀ w k, cmd = [w, k] → verb_is w str_del →
      ∃ g', StoreInv g' (Function.update m k none) ∧
        do_request g req reqlen rc res rl = some (0, g', RES_OK, res, rl)) ∧
    (¬ (cmd.length = 2 ∧ verb_is (cmd.getD 0 []) str_get) →
      ¬ (cmd.length = 3 ∧ verb_is (cmd.getD 0 []) str_set) →
      ¬ (cmd.length = 2 ∧ verb_is (cmd.getD 0 []) str_del) →
      do_request g req reqlen rc res rl =
        some (0, g, RES_ERR, str_unknown_cmd ++ [0] ++ res.drop 12, str_unknown_cmd.length)) := by
  refine ⟨?_, ?_, ?_, ?_⟩
  · intro w k hc hw
    subst hc
    obtain ⟨g', hs', hd⟩ := do_request_get g m hs req reqlen rc res rl w k hparse hw
    refine ⟨g', hs', ?_⟩
    rw [hd]
    cases hmk : m k with
    | none => rfl
    | some v =>
      have hb := hvals k v hmk
      have h4 : v.length < 2 ^ 32 := lt_of_le_of_lt hb.1 (by decide)
      simp only [hb.1, hb.2, and_self, if_true, Nat.mod_eq_of_lt h4]
  · intro w k v hc hw
    subst hc
    exact do_request_set g m hs req reqlen rc res rl w k v hparse hw
  · intro w k hc hw
    subst hc
    exact do_request_del g m hs req reqlen rc res rl w k hparse hw
  · intro h1 h2 h3
    exact do_request_unknown g req reqlen rc res rl cmd hparse h1 h2 h3 hres

/-- C5 (amended) on the empty store and the payload of `["GeT", "k"]`. -/
theorem C5_command_dispatch_witness :
    ∃ g', StoreInv g' (fun _ => none) ∧
      do_request {} (encode_req [[71, 101, 84], [107]]) 16 0 (List.replicate 12 0) 0
        = some (0, g', RES_NX, List.replicate 12 0, 0) :=
  (C5_command_dispatch {} (fun _ => none) StoreInv.empty (encode_req [[71, 101, 84], [107]]) 16 0
    (List.replicate 12 0) 0 [[71, 101, 84], [107]] (by decide) (by simp) (by decide)).1
    [71, 101, 84] [107] rfl (by decide)

/-! ## Claims C6 to C9 -/

/-- C6, as stated, fails: on a fresh connection holding the request `set foo bar`, with
a `send` that takes every byte, `try_one_request` returns with `wbuf_size = 0`, not
`4 + total_len = 8`: the call of `state_res` inside it has sent the response
(status `RES_OK`, empty payload) and reset the write buffer. -/
theorem C6_counterexample_response_already_sent :
    ∃ conn' g', try_one_request send_all 5
        (conn_with_input (request_frame [str_set, [102, 111, 111], [98, 97, 114]])) {} [] =
        some (true, conn', g', response_frame RES_OK []) ∧
      conn'.wbuf_size = 0 ∧ conn'.wbuf_size ≠ 4 + (4 + ([] : Bytes).length) := by
  obtain ⟨conn', g', h1, _, h3⟩ :=
    try_one_request_fresh [str_set, [102, 111, 111], [98, 97, 114]] (by decide)
  refine ⟨conn', g', h1, h3, by rw [h3]; decide⟩

/-- C6 (amended): response framing.  For a connection whose unread input starts with a
complete, well-formed request (the frame of a command vector `cmd` with a payload of at
most `k_max_msg` bytes), on a well-formed store whose values fit a response:
`try_one_request` stages the response and hands the connection `conn'` to `state_res`,
and at that point (before `state_res` sends it and, once it is fully sent, resets
`wbuf_size` to 0) the write buffer holds `total_len:u32 | status_code:u32 | payload` with
`total_len = 4 + payload length` and `wbuf_size = 4 + total_len`; the status code is
`RES_OK`, `RES_ERR` or `RES_NX`; the payload is the stored value for a GET hit and empty
for SET, DEL and a GET of an absent key. -/
theorem C6_response_framing (conn : Conn) (hwf : conn.WF) (g : KeyValueStore)
    (m : Bytes → Option Bytes) (hs : StoreInv g m) (hv : ValsFit m) (cmd : List Bytes)
    (rest : Bytes) (hp : conn.pending = request_frame cmd ++ rest)
    (hlen : (encode_req cmd).length ≤ k_max_msg) :
    ∃ conn' g' status payload,
      try_one_request_respond conn g (read_u32 conn.rbuf 0) = some (true, conn', g') ∧
      (∀ (σ : Type) (send : σ → Bytes → SendRes × σ) (fuel : Nat) (env : σ),
        try_one_request send (fuel + 1) conn g env =
          (state_res send fuel conn' g' env).map (fun r => (r.1.state == STATE_REQ, r))) ∧
      conn'.wbuf.take conn'.wbuf_size = enc_u32 (4 + payload.length) ++ enc_u32 status ++ payload ∧
      conn'.wbuf_size = 4 + (4 + payload.length) ∧
      (status = RES_OK ∨ status = RES_ERR ∨ status = RES_NX) ∧
      (∀ w k, cmd = [w, k] → verb_is w str_get →
        match m k with
        | some v => status = RES_OK ∧ payload = v
        | none => status = RES_NX ∧ payload = []) ∧
      (∀ w k v, cmd = [w, k, v] → verb_is w str_set → status = RES_OK ∧ payload = []) ∧
      (∀ w k, cmd = [w, k] → verb_is w str_del → status = RES_OK ∧ payload = []) := by
  obtain ⟨conn', g', hresp, htry, _, _, _, _, hsize, hstaged, _⟩ :=
    try_one_request_served conn hwf g m hs hv cmd rest hp hlen
  refine ⟨conn', g', (reply m cmd).1, (reply m cmd).2.1, hresp, htry, hstaged, hsize,
    reply_status m cmd, ?_, ?_, ?_⟩
  · intro w k hc hw
    subst hc
    cases hmk : m k with
    | none => simp [reply, hw, hmk]
    | some v => simp [reply, hw, hmk]
  · intro w k v hc hw
    subst hc
    simp [reply, hw]
  · intro w k hc hw
    subst hc
    have hng : ¬ verb_is w str_get := fun h => verb_get_ne_del w h hw
    simp [reply, hw, hng]

/-- C6 (amended) on a fresh connection holding the request `set foo bar`. -/
theorem C6_response_framing_witness :
    ∃ conn' g' status payload,
      try_one_request_respond
        (conn_with_input (request_frame [str_set, [102, 111, 111], [98, 97, 114]])) {}
        (read_u32 (conn_with_input (request_frame [str_set, [102, 111, 111], [98, 97, 114]])).rbuf 0)
        = some (true, conn', g') ∧
      conn'.wbuf.take conn'.wbuf_size = enc_u32 (4 + payload.length) ++ enc_u32 status ++ payload ∧
      conn'.wbuf_size = 4 + (4 + payload.length) ∧
      (∀ w k v, [str_set, [102, 111, 111], [98, 97, 114]] = [w, k, v] → verb_is w str_set →
        status = RES_OK ∧ payload = []) := by
  obtain ⟨conn', g', status, payload, h1, _, h3, h4, _, _, h7, _⟩ :=
    C6_response_framing (conn_with_input (request_frame [str_set, [102, 111, 111], [98, 97, 114]]))
      (conn_with_input_wf _ (by decide)) {} (fun _ => none) StoreInv.empty ValsFit_empty
      [str_set, [102, 111, 111], [98, 97, 114]] []
      (by rw [conn_with_input_pending]; simp) (by decide)
  exact ⟨conn', g', status, payload, h1, h3, h4, h7⟩

/-- C7: protocol violations are connection-fatal and atomic.  When the read buffer
holds at least the 4 bytes of a length field and either that field is over `k_max_msg`
or the frame is complete and `parse_req` rejects its payload, `try_one_request` returns
false and changes nothing but the state, which becomes `STATE_END`: `wbuf_size` and the
write buffer are as before, `send` is not called, the store is unchanged. -/
theorem C7_protocol_violation_closes {σ : Type} (send : σ → Bytes → SendRes × σ) (fuel : Nat)
    (conn : Conn) (g : KeyValueStore) (env : σ) (h4 : 4 ≤ conn.rbuf_size)
    (hviol : k_max_msg < read_u32 conn.rbuf 0 ∨
      (4 + read_u32 conn.rbuf 0 ≤ conn.rbuf_size ∧
        (parse_req (conn.rbuf.drop 4) (read_u32 conn.rbuf 0) []).1 ≠ 0)) :
    try_one_request send (fuel + 1) conn g env =
      some (false, { conn with state := STATE_END }, g, env) := by
  by_cases hlen : k_max_msg < read_u32 conn.rbuf 0
  · exact try_one_request_too_long send fuel conn g env h4 hlen
  · rcases hviol with h | ⟨h1, h2⟩
    · exact absurd h hlen
    · exact try_one_request_bad_payload send fuel conn g env h4 (by omega) h1 h2

/-- C7 on a fresh connection that received a frame declaring `argc = 2000`. -/
theorem C7_protocol_violation_closes_witness :
    try_one_request send_all 1 (conn_with_input [4, 0, 0, 0, 208, 7, 0, 0]) {} [] =
      some (false, { conn_with_input [4, 0, 0, 0, 208, 7, 0, 0] with state := STATE_END }, {}, []) :=
  C7_protocol_violation_closes send_all 0 (conn_with_input [4, 0, 0, 0, 208, 7, 0, 0]) {} []
    (by decide) (Or.inr ⟨by decide, by decide⟩)

/-- C8, as stated, fails: a request frame that declares `total_len = 4096` has
`total_len + 4 > 4096`, yet it is served: for the one-argument vector of 4088 zero bytes
(payload of exactly 4096 bytes) the connection stays open and the `RES_ERR`
"Unknown cmd" response is sent.  The source compares `len > k_max_msg`. -/
theorem C8_counterexample_total_len_4096 :
    read_u32 (conn_with_input (request_frame [List.replicate 4088 0])).rbuf 0 + 4 > k_max_msg ∧
    ∃ conn' g', try_one_request send_all 5
        (conn_with_input (request_frame [List.replicate 4088 0])) {} [] =
        some (true, conn', g', response_frame RES_ERR str_unknown_cmd) ∧
      conn'.state = STATE_REQ ∧ conn'.state ≠ STATE_END := by
  have key : ∀ v : Bytes, v.length = 4088 →
      read_u32 (conn_with_input (request_frame [v])).rbuf 0 + 4 > k_max_msg ∧
      ∃ conn' g', try_one_request send_all 5 (conn_with_input (request_frame [v])) {} [] =
          some (true, conn', g', response_frame RES_ERR str_unknown_cmd) ∧
        conn'.state = STATE_REQ ∧ conn'.state ≠ STATE_END := by
    intro v hv
    have hl := encode_req_single_length v hv
    have hfl : (request_frame [v]).length = 4 + (encode_req [v]).length := by
      simp [request_frame, enc_u32_length]
    constructor
    · obtain ⟨_, hrd, _⟩ := frame_at_head (conn_with_input (request_frame [v]))
        (conn_with_input_wf _ (by rw [hfl, hl])) [v] []
        (by rw [conn_with_input_pending]; simp) (by rw [hl])
      rw [hrd, hl]
      decide
    · obtain ⟨conn', g', h1, h2, _⟩ := try_one_request_fresh [v] (by rw [hl])
      exact ⟨conn', g', h1, h2, by rw [h2]; decide⟩
  exact key _ (List.length_replicate _ _)

/-- C8 (amended): for every request frame whose declared `total_len` exceeds
`k_max_msg` = 4096, `try_one_request` closes the connection (the state becomes
`STATE_END`) and produces no reply, whatever the payload bytes are. -/
theorem C8_oversize_closes {σ : Type} (send : σ → Bytes → SendRes × σ) (fuel : Nat)
    (conn : Conn) (g : KeyValueStore) (env : σ) (h4 : 4 ≤ conn.rbuf_size)
    (hlen : k_max_msg < read_u32 conn.rbuf 0) :
    try_one_request send (fuel + 1) conn g env =
      some (false, { conn with state := STATE_END }, g, env) :=
  try_one_request_too_long send fuel conn g env h4 hlen

/-- C8 (amended) on a fresh connection that received a frame declaring
`total_len = 4097`. -/
theorem C8_oversize_closes_witness :
    try_one_request send_all 1 (conn_with_input [1, 16, 0, 0, 7, 7]) {} [] =
      some (false, { conn_with_input [1, 16, 0, 0, 7, 7] with state := STATE_END }, {}, []) :=
  C8_oversize_closes send_all 0 (conn_with_input [1, 16, 0, 0, 7, 7]) {} [] (by decide)
    (by decide)

/-- C9: pipelining and order.  `send` appends to the output trace and accepts every byte
offered.  For a connection in `STATE_REQ` with nothing staged, whose unread input is the
frames of the requests `cmds` back to back followed by `tail`, bytes that do not form a
complete frame, on a well-formed store: one call of `state_req` (with enough fuel for
the nesting, `4 * n + 2`) returns, has appended to the trace exactly the `n` response
frames, the `i`-th being the reply to the `i`-th request on the map left by the
requests before it, and ends in `STATE_REQ` with `wbuf_size = wbuf_sent = 0` and exactly
`tail` as unread input. -/
theorem C9_pipelined_requests (conn : Conn) (hwf : conn.WF) (g : KeyValueStore)
    (m : Bytes → Option Bytes) (hs : StoreInv g m) (hv : ValsFit m)
    (cmds : List (List Bytes)) (tail trace : Bytes) (fuel : Nat)
    (hstate : conn.state = STATE_REQ) (hsent : conn.wbuf_sent = 0) (hsize : conn.wbuf_size = 0)
    (hp : conn.pending = (cmds.map request_frame).flatten ++ tail)
    (hlen : ∀ cmd ∈ cmds, (encode_req cmd).length ≤ k_max_msg) (htail : incomplete tail)
    (hfuel : 4 * cmds.length + 2 ≤ fuel) :
    ∃ conn' g', state_req send_all fuel conn g trace =
        some (conn', g', trace ++ (response_frames m cmds).flatten) ∧
      (response_frames m cmds).length = cmds.length ∧
      conn'.state = STATE_REQ ∧ conn'.wbuf_size = 0 ∧ conn'.wbuf_sent = 0 ∧
      conn'.pending = tail ∧ StoreInv g' (reply_all m cmds) := by
  obtain ⟨conn', g', h1, _, h3, h4, h5, h6, h7, _⟩ :=
    state_req_pipelined cmds conn hwf g m hs hv tail trace fuel hp hlen htail hstate hsent
      hsize hfuel
  exact ⟨conn', g', h1, response_frames_length m cmds, h3, h4, h5, h6, h7⟩

/-- C9 with `n = 2`: `set foo bar` and `get foo` arrive in one read, followed by the
first two bytes of a third frame; the trace is the `RES_OK` response with an empty
payload followed by the `RES_OK` response with payload `bar`. -/
theorem C9_pipelined_requests_witness :
    ∃ conn' g', state_req send_all 10
        (conn_with_input (request_frame [str_set, [102, 111, 111], [98, 97, 114]] ++
          request_frame [str_get, [102, 111, 111]] ++ [9, 0])) {} [] =
        some (conn', g', [] ++ (response_frames (fun _ => none)
          [[str_set, [102, 111, 111], [98, 97, 114]], [str_get, [102, 111, 111]]]).flatten) ∧
      (response_frames (fun _ => none)
          [[str_set, [102, 111, 111], [98, 97, 114]], [str_get, [102, 111, 111]]]).length = 2 ∧
      conn'.state = STATE_REQ ∧ conn'.wbuf_size = 0 ∧ conn'.wbuf_sent = 0 ∧
      conn'.pending = [9, 0] ∧ StoreInv g' (reply_all (fun _ => none)
          [[str_set, [102, 111, 111], [98, 97, 114]], [str_get, [102, 111, 111]]]) :=
  C9_pipelined_requests _ (conn_with_input_wf _ (by decide)) {} (fun _ => none) StoreInv.empty
    ValsFit_empty [[str_set, [102, 111, 111], [98, 97, 114]], [str_get, [102, 111, 111]]]
    [9, 0] [] 10 rfl rfl rfl
    (by rw [conn_with_input_pending]; simp [List.append_assoc])
    (by decide) (by decide) (by decide)

/-! ## Claims C11 to C15, C19, C20 -/

/-- C11, as stated, fails: `del` of a key that is present (the store holds one entry
before and none after) and `del` of a key that is absent return the same result,
`RES_OK`. -/
theorem C11_counterexample_del_result_constant :
    ((KeyValueStore.set {} [[], [1], [2]]).bind (fun r =>
        (r.1.del [[], [1]]).map (fun r' => (hm_size r.1.db, hm_size r'.1.db, r'.2)))) =
      some (1, 0, RES_OK) ∧
    ((KeyValueStore.del {} [[], [1]]).map (fun r' => (hm_size r'.1.db, r'.2))) =
      some (0, RES_OK) := by
  decide

/-- C11 (amended): on a store that represents the finite map `m`, `del k` returns, removes
the entry of `k` when there is one and leaves every other key as it was, and its result
is `RES_OK` in both cases: the result does not tell whether a removal occurred. -/
theorem C11_del_removes_and_returns_ok (s : KeyValueStore) (m : Bytes → Option Bytes)
    (hs : StoreInv s m) (verb k : Bytes) :
    ∃ s', s.del [verb, k] = some (s', RES_OK) ∧ StoreInv s' (Function.update m k none) :=
  s.del_spec m hs verb k

/-- C11 (amended), at a store that holds the key and at the empty store. -/
theorem C11_del_removes_and_returns_ok_witness :
    (∃ s', (store_with [1] [2]).del [[], [1]] = some (s', RES_OK) ∧
      StoreInv s' (Function.update (Function.update (fun _ => none) [1] (some [2])) [1] none)) ∧
    ∃ s', KeyValueStore.del {} [[], [1]] = some (s', RES_OK) ∧
      StoreInv s' (Function.update (fun _ => none) [1] none) :=
  ⟨C11_del_removes_and_returns_ok _ _ (store_with_inv [1] [2]) [] [1],
   C11_del_removes_and_returns_ok {} _ StoreInv.empty [] [1]⟩

/-- C12: `hm_insert` on a well-formed map returns, and
* on an uninitialised map it gives `ht1` exactly 4 buckets (mask 3) and puts the node in
  bucket `hcode & 3`;
* with no resize in flight, `b` buckets and `n` nodes in `ht1`, it inserts the node in
  `ht1` and starts a resize exactly when `n + 1 ≥ 8 * b`: the table that was `ht1`, with the
  new node, becomes `ht2`, the new `ht1` has `2 * b` empty buckets and `resizing_pos` is 0
  when `hm_help_resizing` starts migrating; when `n + 1 < 8 * b` the insert is all it does;
* with a resize in flight it inserts the node in `ht1`, starts no resize, and calls
  `hm_help_resizing` on the result. -/
theorem C12_insert_resize_trigger {α : Type} (m : HMap α) (hm : MapInv m) (node : HNode α) :
    (∃ m', hm_insert m node = some m') ∧
    (m.ht1.tab = none →
      hm_insert m node = some { m with
        ht1 := { tab := some ((List.replicate 4 []).set (node.hcode &&& 3) [node]),
                 mask := 3, size := 1 } }) ∧
    (∀ tab, m.ht1.tab = some tab → m.ht2.tab = none →
      ∃ ht1', h_insert m.ht1 node = some ht1' ∧
        (k_max_load_factor * tab.length ≤ m.ht1.size + 1 →
          hm_insert m node = hm_help_resizing
            { ht1 := { tab := some (List.replicate (2 * tab.length) []),
                       mask := 2 * tab.length - 1, size := 0 },
              ht2 := ht1', resizing_pos := 0 }) ∧
        (m.ht1.size + 1 < k_max_load_factor * tab.length →
          hm_insert m node = some { m with ht1 := ht1' })) ∧
    (m.ht2.tab.isSome →
      ∃ ht1', h_insert m.ht1 node = some ht1' ∧
        hm_insert m node = hm_help_resizing { m with ht1 := ht1' }) := by
  obtain ⟨mB, hB, hinvB, hcase⟩ := hm_insert_cases m hm node
  refine ⟨?_, ?_, ?_, ?_⟩
  · obtain ⟨m', h, _⟩ := hm_insert_spec m hm node
    exact ⟨m', h⟩
  · intro ht
    rcases hcase with ⟨_, h2, e⟩ | ⟨tab, _, ht', _⟩
    · rw [hB, hm_help_resizing_idle mB hinvB (by rw [e]; exact h2), e]
    · rw [ht] at ht'
      simp at ht'
  · intro tab ht h2
    rcases hcase with ⟨ht', _⟩ | ⟨tab', ht1', ht', hins, _, _, _, hc⟩
    · rw [ht] at ht'
      simp at ht'
    · rw [ht] at ht'
      simp only [Option.some.injEq] at ht'
      subst ht'
      refine ⟨ht1', hins, ?_, ?_⟩
      · intro hge
        rcases hc with ⟨_, _, e⟩ | ⟨_, hlt, _⟩ | ⟨hb, _⟩
        · rw [hB, e]
        · omega
        · rw [h2] at hb
          simp at hb
      · intro hlt
        rcases hc with ⟨_, hge, _⟩ | ⟨_, _, e⟩ | ⟨hb, _⟩
        · omega
        · rw [hB, hm_help_resizing_idle mB hinvB (by rw [e]; exact h2), e]
        · rw [h2] at hb
          simp at hb
  · intro hb
    rcases hcase with ⟨_, h2, _⟩ | ⟨tab', ht1', _, hins, _, _, _, hc⟩
    · rw [h2] at hb
      simp at hb
    · refine ⟨ht1', hins, ?_⟩
      rcases hc with ⟨h2, _⟩ | ⟨h2, _⟩ | ⟨_, e⟩
      · rw [h2] at hb
        simp at hb
      · rw [h2] at hb
        simp at hb
      · rw [hB, e]

/-- C12, at the empty map, where the first insert allocates 4 buckets, and at a map
with 31 nodes in 4 buckets, where the 32nd insert starts a resize to 8 buckets. -/
theorem C12_insert_resize_trigger_witness :
    hm_insert ({} : HMap Unit) ⟨6, ()⟩ =
      some { ht1 := { tab := some [[], [], [⟨6, ()⟩], []], mask := 3, size := 1 } } ∧
    ∃ ht1', h_insert (map_after_inserts 31 3).ht1 ⟨3, ()⟩ = some ht1' ∧
      hm_insert (map_after_inserts 31 3) ⟨3, ()⟩ =
        hm_help_resizing { ht1 := { tab := some (List.replicate 8 []), mask := 7, size := 0 },
                           ht2 := ht1', resizing_pos := 0 } :=
  ⟨(C12_insert_resize_trigger ({} : HMap Unit) MapInv_empty ⟨6, ()⟩).2.1 rfl,
   match (C12_insert_resize_trigger (map_after_inserts 31 3)
      (map_after_inserts_reachable 31 3).inv ⟨3, ()⟩).2.2.1
        [[], [], [], List.replicate 31 ⟨3, ()⟩] (by decide) (by decide) with
   | ⟨ht1', h1, h2, _⟩ => ⟨ht1', h1, h2 (by decide)⟩⟩

/-- C13: in every reachable state, one call of `hm_help_resizing` returns and moves exactly
`min 128 ht2.size` nodes (the list `moved`) from `ht2` to `ht1`: the nodes of `ht1`
afterwards are the moved ones and the old ones, those of `ht2` before are the moved ones
and the remaining ones, and the two `size` fields change by that amount; the nodes of
the map and `hm_size` are unchanged; every moved node sits in bucket
`hcode & ht1.mask` of `ht1`; and when `ht2.size` is 0 afterwards, `ht2` is the
uninitialised table. -/
theorem C13_bounded_migration {α : Type} (m : HMap α) (h : Reachable m) :
    ∃ m' moved, hm_help_resizing m = some m' ∧
      moved.length = min k_resizing_work m.ht2.size ∧
      m'.ht1.nodes.Perm (moved ++ m.ht1.nodes) ∧ m.ht2.nodes.Perm (moved ++ m'.ht2.nodes) ∧
      m'.ht1.size = m.ht1.size + moved.length ∧ m'.ht2.size + moved.length = m.ht2.size ∧
      m'.nodes.Perm m.nodes ∧ hm_size m' = hm_size m ∧
      (∀ n ∈ moved, ∃ tab chain, m'.ht1.tab = some tab ∧
        tab[n.hcode &&& m'.ht1.mask]? = some chain ∧ n ∈ chain) ∧
      (m'.ht2.size = 0 → m'.ht2 = {}) := by
  have hl := h.load
  obtain ⟨m', moved, h1, hinv, hlen, hp1, hp2, hs1, hs2, _, _, hrel, _, hid, _, _⟩ :=
    hm_help_resizing_effect m hl.inv
  refine ⟨m', moved, h1, hlen, hp1, hp2, hs1, hs2, ?_, ?_, ?_, ?_⟩
  · simp only [HMap.nodes]
    have e : ((moved ++ m.ht1.nodes) ++ m'.ht2.nodes).Perm
        (m.ht1.nodes ++ (moved ++ m'.ht2.nodes)) := by
      rw [← List.append_assoc]
      exact List.perm_append_comm.append_right _
    exact (hp1.append_right _).trans (e.trans (hp2.symm.append_left _))
  · simp only [hm_size]
    omega
  · intro n hn
    exact hinv.t1.mem_bucket n (hp1.symm.subset (List.mem_append_left _ hn))
  · intro h0
    obtain h2 | h2 : m.ht2.tab = none ∨ m.ht2.tab.isSome := by
      cases m.ht2.tab <;> simp
    · rw [hid h2]
      exact hl.ht2_none h2
    · exact hrel h0 h2

/-- C13, at the map reached by 256 inserts, where 128 of the 256 nodes of the 32-bucket
table are still to be moved to the 64-bucket table. -/
theorem C13_bounded_migration_witness :
    ((map_after_inserts 256 5).ht1.size = 128 ∧ (map_after_inserts 256 5).ht2.size = 128) ∧
    ∃ m' moved, hm_help_resizing (map_after_inserts 256 5) = some m' ∧
      moved.length = min k_resizing_work (map_after_inserts 256 5).ht2.size ∧
      m'.ht1.nodes.Perm (moved ++ (map_after_inserts 256 5).ht1.nodes) ∧
      (map_after_inserts 256 5).ht2.nodes.Perm (moved ++ m'.ht2.nodes) ∧
      m'.ht1.size = (map_after_inserts 256 5).ht1.size + moved.length ∧
      m'.ht2.size + moved.length = (map_after_inserts 256 5).ht2.size ∧
      m'.nodes.Perm (map_after_inserts 256 5).nodes ∧
      hm_size m' = hm_size (map_after_inserts 256 5) ∧
      (∀ n ∈ moved, ∃ tab chain, m'.ht1.tab = some tab ∧
        tab[n.hcode &&& m'.ht1.mask]? = some chain ∧ n ∈ chain) ∧
      (m'.ht2.size = 0 → m'.ht2 = {}) :=
  ⟨⟨map_after_256_inserts.1, map_after_256_inserts.2.2.1⟩,
    C13_bounded_migration _ (map_after_inserts_reachable 256 5)⟩

/-- C14: in every reachable state, each initialised table has `mask + 1` a power of two
and equal to the length of its bucket array, a `size` field equal to the number of nodes
in its chains, and every node of bucket `i` has `hcode & mask = i`. -/
theorem C14_table_invariant {α : Type} (m : HMap α) (h : Reachable m) :
    ∀ t, (t = m.ht1 ∨ t = m.ht2) → ∀ tab, t.tab = some tab →
      (∃ k, t.mask + 1 = 2 ^ k) ∧ tab.length = t.mask + 1 ∧
      t.size = (tab.map List.length).sum ∧
      ∀ i chain, tab[i]? = some chain → ∀ n ∈ chain, n.hcode &&& t.mask = i := by
  intro t ht tab htab
  have hinv : TabInv t := by
    rcases ht with e | e
    · rw [e]; exact h.inv.t1
    · rw [e]; exact h.inv.t2
  refine ⟨hinv.pow tab htab, hinv.len tab htab, ?_, hinv.bucket tab htab⟩
  rw [hinv.size, HTab.nodes_some t tab htab, List.length_flatten]

/-- C14, at the map reached by 256 inserts, which has a table of 64 buckets and one of
32 buckets. -/
theorem C14_table_invariant_witness :
    ((map_after_inserts 256 5).ht1.mask = 63 ∧ (map_after_inserts 256 5).ht2.mask = 31) ∧
    ∀ t, (t = (map_after_inserts 256 5).ht1 ∨ t = (map_after_inserts 256 5).ht2) →
      ∀ tab, t.tab = some tab →
      (∃ k, t.mask + 1 = 2 ^ k) ∧ tab.length = t.mask + 1 ∧
      t.size = (tab.map List.length).sum ∧
      ∀ i chain, tab[i]? = some chain → ∀ n ∈ chain, n.hcode &&& t.mask = i :=
  ⟨⟨map_after_256_inserts.2.1, map_after_256_inserts.2.2.2.1⟩,
    C14_table_invariant _ (map_after_inserts_reachable 256 5)⟩

/-- C20: in every reachable state with no resize in flight (`ht2.tab = NULL`),
`ht1.size < 8 * (ht1.mask + 1)`. -/
theorem C20_load_factor_bound {α : Type} (m : HMap α) (h : Reachable m)
    (h2 : m.ht2.tab = none) : m.ht1.size < k_max_load_factor * (m.ht1.mask + 1) :=
  h.load.load_idle h2

/-- C20, at the map reached by 32 inserts: the resize started by the 32nd insert is
complete, and the 32 nodes sit in 8 buckets. -/
theorem C20_load_factor_bound_witness :
    ((map_after_inserts 32 3).ht1.size = 32 ∧ (map_after_inserts 32 3).ht1.mask = 7) ∧
    (map_after_inserts 32 3).ht1.size < k_max_load_factor * ((map_after_inserts 32 3).ht1.mask + 1) :=
  ⟨by decide, C20_load_factor_bound _ (map_after_inserts_reachable 32 3) (by decide)⟩

/-! ## Claims C16, C17, C18 -/

/-- C16: `recv` and `send` are arbitrary functions of an environment; `recv` reports some
bytes (at most the room offered, none meaning end of stream), `EINTR`, `EAGAIN` or an
error, and `send` reports a count of at most the bytes offered, `EAGAIN` or an error.
In every connection state reachable from a freshly accepted connection by calls of
`connection_io`, both buffers have `4 + k_max_msg` bytes, `rbuf_size ≤ 4 + k_max_msg`,
`wbuf_sent ≤ wbuf_size ≤ 4 + k_max_msg`, and in state `STATE_REQ`
`wbuf_size = wbuf_sent = 0`. -/
theorem C16_connection_buffer_invariant {σ : Type} (recv : σ → Nat → RecvRes × σ)
    (send : σ → Bytes → SendRes × σ) (hsend : SendBounded send) (conn : Conn)
    (h : ConnReach recv send conn) :
    conn.rbuf.length = 4 + k_max_msg ∧ conn.wbuf.length = 4 + k_max_msg ∧
    conn.rbuf_size ≤ 4 + k_max_msg ∧
    conn.wbuf_sent ≤ conn.wbuf_size ∧ conn.wbuf_size ≤ 4 + k_max_msg ∧
    (conn.state = STATE_REQ → conn.wbuf_size = 0 ∧ conn.wbuf_sent = 0) := by
  have hs := h.settled True (fun _ => hsend)
  exact ⟨hs.wf.rbuf_len, hs.wf.wbuf_len, hs.wf.rbuf_size_le, hs.sent_le trivial,
    hs.wbuf_size_le, fun hst => (hs.idle hst).2⟩

/-- C16, on a fresh connection, on the connection after one call of `connection_io` that
received the request `set foo bar` and sent the response, and on the connection after
one call that received the request while `send` reported `EAGAIN`: the 8 bytes of the
response are staged and none is sent. -/
theorem C16_connection_buffer_invariant_witness :
    ((conn_with_input []).rbuf.length = 4 + k_max_msg ∧
      (conn_with_input []).wbuf.length = 4 + k_max_msg ∧
      (conn_with_input []).rbuf_size ≤ 4 + k_max_msg ∧
      (conn_with_input []).wbuf_sent ≤ (conn_with_input []).wbuf_size ∧
      (conn_with_input []).wbuf_size ≤ 4 + k_max_msg ∧
      ((conn_with_input []).state = STATE_REQ →
        (conn_with_input []).wbuf_size = 0 ∧ (conn_with_input []).wbuf_sent = 0)) ∧
    (∃ conn' g' trace',
      connection_io (recv_const (request_frame [str_set, [102, 111, 111], [98, 97, 114]]))
        send_all 6 (conn_with_input []) {} [] = some (conn', g', trace') ∧
      conn'.rbuf.length = 4 + k_max_msg ∧ conn'.wbuf.length = 4 + k_max_msg ∧
      conn'.rbuf_size ≤ 4 + k_max_msg ∧
      conn'.wbuf_sent ≤ conn'.wbuf_size ∧ conn'.wbuf_size ≤ 4 + k_max_msg ∧
      (conn'.state = STATE_REQ → conn'.wbuf_size = 0 ∧ conn'.wbuf_sent = 0)) ∧
    ∃ conn' g',
      connection_io (recv_const (request_frame [str_set, [102, 111, 111], [98, 97, 114]]))
        send_again 3 (conn_with_input []) {} () = some (conn', g', ()) ∧
      conn'.state = STATE_RES ∧ conn'.wbuf_sent = 0 ∧ conn'.wbuf_size = 8 ∧
      conn'.rbuf.length = 4 + k_max_msg ∧ conn'.wbuf.length = 4 + k_max_msg ∧
      conn'.rbuf_size ≤ 4 + k_max_msg ∧
      conn'.wbuf_sent ≤ conn'.wbuf_size ∧ conn'.wbuf_size ≤ 4 + k_max_msg ∧
      (conn'.state = STATE_REQ → conn'.wbuf_size = 0 ∧ conn'.wbuf_sent = 0) := by
  obtain ⟨conn', g', hstep, _, _⟩ :=
    connection_io_fresh_served [str_set, [102, 111, 111], [98, 97, 114]] (by decide)
  obtain ⟨conn2, g2, hstep2, hst2, hsent2, hsize2⟩ :=
    connection_io_fresh_blocked [str_set, [102, 111, 111], [98, 97, 114]] (by decide)
  exact ⟨C16_connection_buffer_invariant (recv_const []) send_all send_all_bounded _
      (ConnReach.fresh _ conn_with_input_fresh),
    ⟨conn', g', _, hstep,
      C16_connection_buffer_invariant _ send_all send_all_bounded conn'
        (ConnReach.step 6 _ conn' {} g' [] _ (ConnReach.fresh _ conn_with_input_fresh) hstep)⟩,
    conn2, g2, hstep2, hst2, hsent2, hsize2,
    C16_connection_buffer_invariant _ send_again send_again_bounded conn2
      (ConnReach.step 3 _ conn2 {} g2 () _ (ConnReach.fresh _ conn_with_input_fresh) hstep2)⟩

/-- C17: in every store reachable from the empty one by calls of `try_one_request`,
every stored value has at most `k_max_msg - 4` bytes, hence at most `k_max_msg`; `get`,
called with the reply buffer `try_one_request` passes (`k_max_msg - 4` bytes, the write
buffer after the 8 header bytes), returns: neither its `assert` nor its `memcpy` fails;
and for every complete frame of at most `k_max_msg` payload bytes,
`try_one_request_respond` returns, and when it stages a response (for a `get` hit, the
`Unknown cmd` error or any other reply) this is a frame with `total_len ≤ k_max_msg`
that lies within the `4 + k_max_msg` bytes of the write buffer. -/
theorem C17_responses_within_bound (g : KeyValueStore) (h : StoreReach g) :
    (∀ n ∈ g.db.nodes, n.payload.val.length + 4 ≤ k_max_msg) ∧
    (∀ verb k res rl, k_max_msg - 4 ≤ res.length → ∃ r, g.get [verb, k] res rl = some r) ∧
    (∀ conn len, conn.WF → len ≤ k_max_msg → 4 + len ≤ conn.rbuf_size →
      ∃ b conn' g', try_one_request_respond conn g len = some (b, conn', g') ∧
        (∀ n ∈ g'.db.nodes, n.payload.val.length + 4 ≤ k_max_msg) ∧
        (b = true → ∃ status payload, conn'.staged = response_frame status payload ∧
          4 + payload.length ≤ k_max_msg ∧ conn'.wbuf_size = 4 + (4 + payload.length) ∧
          conn'.wbuf_size ≤ conn'.wbuf.length)) := by
  have hk : k_max_msg = 4096 := rfl
  obtain ⟨m, hs, hv⟩ := h.fits
  refine ⟨?_, ?_, ?_⟩
  · exact h.fits.vals
  · intro verb k res rl hres
    obtain ⟨s', _, _, hget⟩ := g.get_spec m hs verb k res rl
    rw [hget]
    cases hm : m k with
    | none => exact ⟨_, rfl⟩
    | some v =>
      have := hv k v hm
      simp only
      rw [if_pos ⟨by omega, by omega⟩]
      exact ⟨_, rfl⟩
  · intro conn len hwf hlen hfull
    obtain ⟨b, conn', g', hr, _, hg', _, hframe⟩ :=
      try_one_request_respond_total conn hwf g ⟨m, hs, hv⟩ len hlen hfull
    exact ⟨b, conn', g', hr, hg'.vals, hframe⟩

/-- C17, on the store left by the request `set foo bar`.  The request `get foo`, a frame
with a payload of 18 bytes, is answered with the frame of `RES_OK` and `bar`, and the
request `foo`, a frame with a payload of 11 bytes, with the frame of `RES_ERR` and
`Unknown cmd`; both lie within the write buffer. -/
theorem C17_responses_within_bound_witness :
    ∃ conn1 g1, try_one_request send_all 5
        (conn_with_input (request_frame [str_set, [102, 111, 111], [98, 97, 114]])) {} [] =
        some (true, conn1, g1, response_frame RES_OK []) ∧
      (∀ n ∈ g1.db.nodes, n.payload.val.length + 4 ≤ k_max_msg) ∧
      (∃ r, g1.get [str_get, [102, 111, 111]] (List.replicate (k_max_msg - 4) 0) 0 = some r) ∧
      (∃ conn' g', try_one_request_respond
          (conn_with_input (request_frame [str_get, [102, 111, 111]])) g1 18 =
          some (true, conn', g') ∧
        conn'.staged = response_frame RES_OK [98, 97, 114] ∧
        (∀ n ∈ g'.db.nodes, n.payload.val.length + 4 ≤ k_max_msg) ∧
        ∃ status payload, conn'.staged = response_frame status payload ∧
          4 + payload.length ≤ k_max_msg ∧ conn'.wbuf_size = 4 + (4 + payload.length) ∧
          conn'.wbuf_size ≤ conn'.wbuf.length) ∧
      (∃ conn' g', try_one_request_respond
          (conn_with_input (request_frame [[102, 111, 111]])) g1 11 =
          some (true, conn', g') ∧
        conn'.staged = response_frame RES_ERR str_unknown_cmd ∧
        (∀ n ∈ g'.db.nodes, n.payload.val.length + 4 ≤ k_max_msg) ∧
        ∃ status payload, conn'.staged = response_frame status payload ∧
          4 + payload.length ≤ k_max_msg ∧ conn'.wbuf_size = 4 + (4 + payload.length) ∧
          conn'.wbuf_size ≤ conn'.wbuf.length) := by
  obtain ⟨conn1, g1, htry, hs1, hv1⟩ :=
    try_one_request_fresh_set [102, 111, 111] [98, 97, 114] (by decide)
  have hreach : StoreReach g1 :=
    StoreReach.request send_all 5 _ conn1 {} g1 [] _ true StoreReach.empty
      (conn_with_input_wf _ (by decide)) htry
  have hc := C17_responses_within_bound g1 hreach
  refine ⟨conn1, g1, htry, hc.1,
    hc.2.1 str_get [102, 111, 111] _ 0 (by rw [List.length_replicate]), ?_, ?_⟩
  · obtain ⟨c2, g2, hr2, hst2⟩ :=
      try_one_request_respond_fresh g1 _ hs1 hv1 [str_get, [102, 111, 111]] (by decide)
    have e : (encode_req [str_get, [102, 111, 111]]).length = 18 := by decide
    rw [e] at hr2
    rw [reply_get_hit] at hst2
    obtain ⟨b, c3, g3, hr3, hvals, hframe⟩ :=
      hc.2.2 (conn_with_input (request_frame [str_get, [102, 111, 111]])) 18
        (conn_with_input_wf _ (by decide)) (by decide) (by decide)
    rw [hr2] at hr3
    simp only [Option.some.injEq, Prod.mk.injEq] at hr3
    obtain ⟨hb, hcc, hgg⟩ := hr3
    subst hb hcc hgg
    exact ⟨c2, g2, hr2, hst2, hvals, hframe rfl⟩
  · obtain ⟨c2, g2, hr2, hst2⟩ :=
      try_one_request_respond_fresh g1 _ hs1 hv1 [[102, 111, 111]] (by decide)
    have e : (encode_req [[102, 111, 111]]).length = 11 := by decide
    rw [e] at hr2
    rw [reply_one_word] at hst2
    obtain ⟨b, c3, g3, hr3, hvals, hframe⟩ :=
      hc.2.2 (conn_with_input (request_frame [[102, 111, 111]])) 11
        (conn_with_input_wf _ (by decide)) (by decide) (by decide)
    rw [hr2] at hr3
    simp only [Option.some.injEq, Prod.mk.injEq] at hr3
    obtain ⟨hb, hcc, hgg⟩ := hr3
    subst hb hcc hgg
    exact ⟨c2, g2, hr2, hst2, hvals, hframe rfl⟩

/-- C18: in every connection state reachable from a freshly accepted connection by calls
of `connection_io`, whatever `recv` and `send` report, a connection in state `STATE_REQ`
has `rbuf_size < 4 + k_max_msg`: the `assert` of `connection_io` holds and `recv` is
offered at least one byte of room.  The reason is that such a connection holds fewer than
4 bytes, or a length field `len ≤ k_max_msg` and fewer than `4 + len` bytes. -/
theorem C18_read_buffer_assert_valid {σ : Type} (recv : σ → Nat → RecvRes × σ)
    (send : σ → Bytes → SendRes × σ) (conn : Conn) (h : ConnReach recv send conn)
    (hst : conn.state = STATE_REQ) :
    conn.rbuf_size < 4 + k_max_msg ∧ 0 < 4 + k_max_msg - conn.rbuf_size ∧
    (conn.rbuf_size < 4 ∨
      (read_u32 conn.rbuf 0 ≤ k_max_msg ∧ conn.rbuf_size < 4 + read_u32 conn.rbuf 0)) := by
  have hs := h.settled False (fun hf => hf.elim)
  obtain ⟨hi, _, _⟩ := hs.idle hst
  refine ⟨?_, ?_, hi⟩ <;> rcases hi with hi | hi <;> omega

/-- C18, on the connection after one call of `connection_io` that received the request
`get foo` and sent the response. -/
theorem C18_read_buffer_assert_valid_witness :
    ∃ conn' g' trace',
      connection_io (recv_const (request_frame [str_get, [102, 111, 111]]))
        send_all 6 (conn_with_input []) {} [] = some (conn', g', trace') ∧
      conn'.state = STATE_REQ ∧
      conn'.rbuf_size < 4 + k_max_msg ∧ 0 < 4 + k_max_msg - conn'.rbuf_size ∧
      (conn'.rbuf_size < 4 ∨
        (read_u32 conn'.rbuf 0 ≤ k_max_msg ∧ conn'.rbuf_size < 4 + read_u32 conn'.rbuf 0)) := by
  obtain ⟨conn', g', hstep, hst, _⟩ :=
    connection_io_fresh_served [str_get, [102, 111, 111]] (by decide)
  exact ⟨conn', g', _, hstep, hst,
    C18_read_buffer_assert_valid _ send_all conn'
      (ConnReach.step 6 _ conn' {} g' [] _ (ConnReach.fresh _ conn_with_input_fresh) hstep) hst⟩

end RedisKV
